import Mathlib

/-!
# Active Appearance Models: Procrustes alignment and triangle rasterization

A shallow embedding of `src/procrustes.cpp` and `src/rasterization.cpp`.

Modelling conventions.

* `Scalar` is an arbitrary linearly ordered field `K` (the rationals and the reals are
  instances), so every statement is about exact arithmetic, not about rounding.
* One division of the code can have a zero divisor, the one by the determinant of the edge
  vectors in `baryAt`. Its results are the numbers together with the infinities and NaN of
  the floating-point scalar type (`BaryCoord`), compared and added as that type does.
* Eigen row vectors are lists of scalars, `N x 2` point matrices are lists of pairs and
  `2 x 2` matrices are the record `Matrix2`.
* The two services of the linear algebra library that are not field operations, the square
  root behind `norm()` and `jacobiSvd`, are parameters of the functions that call them.
* Index and dimension errors, which Eigen and OpenCV report by a failed assertion or an
  exception, are the value `none`.
* `int` and `Index` are the unbounded integers.
* The headers `aam/views.h`, `aam/map.h` and `aam/barycentrics.h` are not among the
  sources; what the two files use of them is modelled from the specification and marked so.
-/

namespace aam

/-! ## Linear algebra used by `procrustes.cpp` -/

/-- A fixed size `2 x 2` matrix (`Matrix2` of the library's type list), row major. -/
structure Matrix2 (K : Type) where
  m00 : K
  m01 : K
  m10 : K
  m11 : K
deriving DecidableEq, Repr

/-- The result object of `A.jacobiSvd(ComputeThinU | ComputeThinV)` for a `2 x 2` input. -/
structure JacobiSvd (K : Type) where
  matrixU : Matrix2 K
  singularValues : K × K
  matrixV : Matrix2 K
deriving DecidableEq, Repr

section LinearAlgebra

variable {K : Type} [LinearOrderedField K]

/-- Matrix product `a * b`. -/
def Matrix2.mul (a b : Matrix2 K) : Matrix2 K :=
  { m00 := a.m00 * b.m00 + a.m01 * b.m10
    m01 := a.m00 * b.m01 + a.m01 * b.m11
    m10 := a.m10 * b.m00 + a.m11 * b.m10
    m11 := a.m10 * b.m01 + a.m11 * b.m11 }

/-- The matrix `a.transpose()`. -/
def Matrix2.transpose (a : Matrix2 K) : Matrix2 K :=
  { m00 := a.m00, m01 := a.m10, m10 := a.m01, m11 := a.m11 }

/-- The scalar `a.determinant()`. -/
def Matrix2.determinant (a : Matrix2 K) : K :=
  a.m00 * a.m11 - a.m01 * a.m10

/-- The identity matrix. -/
def Matrix2.identity : Matrix2 K :=
  { m00 := 1, m01 := 0, m10 := 0, m11 := 1 }

/-- The diagonal matrix of a pair of singular values. -/
def Matrix2.diagonal (s : K × K) : Matrix2 K :=
  { m00 := s.1, m01 := 0, m10 := 0, m11 := s.2 }

/-- The in-place update `v.rightCols(1) *= -1`. -/
def Matrix2.negateRightCol (v : Matrix2 K) : Matrix2 K :=
  { m00 := v.m00, m01 := -v.m01, m10 := v.m10, m11 := -v.m11 }

/-- A matrix with orthonormal columns: `mᵀ * m = 1`. -/
def Matrix2.IsOrthogonal (m : Matrix2 K) : Prop :=
  m.transpose.mul m = Matrix2.identity

/-- What the library promises of `jacobiSvd`: `a = U * diag(S) * Vᵀ` with `U`, `V`
orthogonal and the singular values non-negative in decreasing order. -/
def JacobiSvd.IsSvdOf (svd : JacobiSvd K) (a : Matrix2 K) : Prop :=
  svd.matrixU.IsOrthogonal ∧ svd.matrixV.IsOrthogonal ∧
  (svd.matrixU.mul (Matrix2.diagonal svd.singularValues)).mul svd.matrixV.transpose = a ∧
  0 ≤ svd.singularValues.2 ∧ svd.singularValues.2 ≤ svd.singularValues.1

/-- Column-wise mean `M.colwise().mean()` of an `N x 2` matrix. -/
def colwiseMean (M : List (K × K)) : K × K :=
  ((M.map Prod.fst).sum / (M.length : K), (M.map Prod.snd).sum / (M.length : K))

/-- The expression `M.rowwise() - m`. -/
def rowwiseSub (M : List (K × K)) (m : K × K) : List (K × K) :=
  M.map fun p => (p.1 - m.1, p.2 - m.2)

/-- The expression `M.rowwise() + m`. -/
def rowwiseAdd (M : List (K × K)) (m : K × K) : List (K × K) :=
  M.map fun p => (p.1 + m.1, p.2 + m.2)

/-- The sum of the squares of all coefficients of an `N x 2` matrix (`squaredNorm()`). -/
def squaredNorm (M : List (K × K)) : K :=
  (M.map fun p => p.1 * p.1 + p.2 * p.2).sum

/-- Frobenius norm `M.norm()`: the library's square root of `squaredNorm()`. -/
def frobeniusNorm (sqrt : K → K) (M : List (K × K)) : K :=
  sqrt (squaredNorm M)

/-- The update `M /= s`. -/
def scaleDiv (M : List (K × K)) (s : K) : List (K × K) :=
  M.map fun p => (p.1 / s, p.2 / s)

/-- The expression `M * s` for a scalar `s`. -/
def scaleMul (M : List (K × K)) (s : K) : List (K × K) :=
  M.map fun p => (p.1 * s, p.2 * s)

/-- The product `M * r` of an `N x 2` matrix with a `2 x 2` matrix. -/
def mulMatrix2 (M : List (K × K)) (r : Matrix2 K) : List (K × K) :=
  M.map fun p => (p.1 * r.m00 + p.2 * r.m10, p.1 * r.m01 + p.2 * r.m11)

/-- The product `Xᵀ * Y` of two `N x 2` matrices; the rows are paired up, the caller
checks that both have the same number of rows. -/
def transposeMul (X Y : List (K × K)) : Matrix2 K :=
  { m00 := ((X.zip Y).map fun q => q.1.1 * q.2.1).sum
    m01 := ((X.zip Y).map fun q => q.1.1 * q.2.2).sum
    m10 := ((X.zip Y).map fun q => q.1.2 * q.2.1).sum
    m11 := ((X.zip Y).map fun q => q.1.2 * q.2.2).sum }

/-- Modelled from the spec: `toSeparatedView` of `aam/views.h`, which is not among the
sources. A shape is a single row of `2N` interleaved scalars `x0 y0 x1 y1 ...` and is
"representable as an N x 2 point matrix"; the view is that matrix. -/
def toSeparatedView : List K → List (K × K)
  | x :: y :: rest => (x, y) :: toSeparatedView rest
  | _ => []

/-- The interleaved row of an `N x 2` matrix. -/
def toInterleaved : List (K × K) → List K
  | [] => []
  | p :: rest => p.1 :: p.2 :: toInterleaved rest

/-- Assignment `Y = M` through the view `Y` of the row `Y_`: the coefficients covered by
the view are overwritten, the row keeps its length. -/
def assignSeparatedView (Y_ : List K) (M : List (K × K)) : List K :=
  toInterleaved M ++ Y_.drop (2 * M.length)

end LinearAlgebra

/-! ## `procrustes` -/

/-- The local variables of `procrustes` when control reaches its last assignment. -/
structure ProcrustesLocals (K : Type) where
  meanX : K × K
  meanY : K × K
  sX : K
  sY : K
  centeredX : List (K × K)
  centeredY : List (K × K)
  A : Matrix2 K
  u : Matrix2 K
  v : Matrix2 K
  s : K × K
  rot : Matrix2 K
  trace : K
  d : K

section Procrustes

variable {K : Type} [LinearOrderedField K]

/-- Lines 35 to 72 of `procrustes.cpp`: everything `procrustes` computes from the two
point matrices `X` and `Y` before it overwrites `Y`. -/
def procrustesLocals (sqrt : K → K) (jacobiSvd : Matrix2 K → JacobiSvd K)
    (X Y : List (K × K)) : ProcrustesLocals K :=
  let meanX := colwiseMean X
  let meanY := colwiseMean Y
  let centeredX := rowwiseSub X meanX
  let centeredY := rowwiseSub Y meanY
  let sX := frobeniusNorm sqrt centeredX
  let sY := frobeniusNorm sqrt centeredY
  let centeredX := scaleDiv centeredX sX
  let centeredY := scaleDiv centeredY sY
  let A := transposeMul centeredX centeredY
  let svd := jacobiSvd A
  let v := svd.matrixV
  let u := svd.matrixU
  let s := svd.singularValues
  let rot := v.mul u.transpose
  let reflected : Bool := decide (rot.determinant < 0)
  let v := if reflected then v.negateRightCol else v
  let s := if reflected then (s.1, -s.2) else s
  let rot := if reflected then v.mul u.transpose else rot
  let trace := s.1 + s.2
  let d := 1 - trace * trace
  { meanX := meanX, meanY := meanY, sX := sX, sY := sY
    centeredX := centeredX, centeredY := centeredY
    A := A, u := u, v := v, s := s, rot := rot, trace := trace, d := d }

/-- The right-hand side of line 75: `((centeredY * rot) * trace * sX).rowwise() + meanX`. -/
def ProcrustesLocals.transformed (l : ProcrustesLocals K) : List (K × K) :=
  rowwiseAdd (scaleMul (scaleMul (mulMatrix2 l.centeredY l.rot) l.trace) l.sX) l.meanX

/-- The function `procrustes(X_, Y_)`: the returned distance and the new contents of the
row `Y_`. The product `centeredX.transpose() * centeredY` needs both views to have the
same number of rows; otherwise the call does not produce a result. -/
def procrustes (sqrt : K → K) (jacobiSvd : Matrix2 K → JacobiSvd K)
    (X_ Y_ : List K) : Option (K × List K) :=
  let X := toSeparatedView X_
  let Y := toSeparatedView Y_
  if X.length = Y.length then
    let l := procrustesLocals sqrt jacobiSvd X Y
    some (l.d, assignSeparatedView Y_ l.transformed)
  else
    none

end Procrustes

/-! ## `generalizedProcrustes` -/

section GeneralizedProcrustes

variable {K : Type} [LinearOrderedField K]

/-- Coefficient-wise sum of two row vectors. -/
def vecAdd (a b : List K) : List K :=
  List.zipWith (fun x y => x + y) a b

/-- Coefficient-wise difference of two row vectors. -/
def vecSub (a b : List K) : List K :=
  List.zipWith (fun x y => x - y) a b

/-- Euclidean norm `v.norm()` of a row vector. -/
def vecNorm (sqrt : K → K) (v : List K) : K :=
  sqrt (v.map fun x => x * x).sum

/-- The first `for` loop of the body (lines 97 to 99): every row is aligned to `refShape`
and overwritten; the distances that `procrustes` returns are dropped. -/
def alignRows (sqrt : K → K) (jacobiSvd : Matrix2 K → JacobiSvd K) (refShape : List K) :
    List (List K) → Option (List (List K))
  | [] => some []
  | row :: rest =>
    match procrustes sqrt jacobiSvd refShape row with
    | none => none
    | some r =>
      match alignRows sqrt jacobiSvd refShape rest with
      | none => none
      | some rest' => some (r.2 :: rest')

/-- Lines 101 to 105: the sum of the rows, started from `RowVectorX::Zero(X.cols())`,
divided by the number of rows. -/
def meanShapeOf (cols : Nat) (alignedShapes : List (List K)) : List K :=
  (alignedShapes.foldl vecAdd (List.replicate cols 0)).map
    fun x => x / (alignedShapes.length : K)

/-- The `do ... while (!done)` loop of `generalizedProcrustes`, entered with the given
values of `alignedShapes`, `refShape`, `lastDist` and `iterations`. Next to the final
`alignedShapes` it returns the number of times the body was executed. -/
def generalizedProcrustesLoop (sqrt : K → K) (jacobiSvd : Matrix2 K → JacobiSvd K)
    (cols : Nat) (maxIterations : Int) (alignedShapes : List (List K)) (refShape : List K)
    (lastDist : K) (iterations : Int) : Option (List (List K) × Nat) :=
  match alignRows sqrt jacobiSvd refShape alignedShapes with
  | none => none
  | some alignedShapes =>
    let meanShape := meanShapeOf cols alignedShapes
    let dist := vecNorm sqrt (vecSub meanShape refShape)
    if dist > lastDist then
      some (alignedShapes, 1)
    else if _h : iterations + 1 > maxIterations then
      some (alignedShapes, 1)
    else
      match generalizedProcrustesLoop sqrt jacobiSvd cols maxIterations alignedShapes
          meanShape dist (iterations + 1) with
      | none => none
      | some r => some (r.1, r.2 + 1)
termination_by (maxIterations - iterations).toNat
decreasing_by omega

/-- The number of columns `X.cols()` of a matrix given by its rows. -/
def matrixCols (X : List (List K)) : Nat :=
  match X with
  | [] => 0
  | row :: _ => row.length

/-- The function `generalizedProcrustes(X, maxIterations)`, with the number of executions
of the loop body as a second result. `scalarMax` is
`std::numeric_limits<Scalar>::max()`. Taking `row(0)` of a matrix without rows does not
produce a result. -/
def generalizedProcrustesPasses (sqrt : K → K) (jacobiSvd : Matrix2 K → JacobiSvd K)
    (scalarMax : K) (X : List (List K)) (maxIterations : Int) :
    Option (List (List K) × Nat) :=
  match X with
  | [] => none
  | refShape :: _ =>
    generalizedProcrustesLoop sqrt jacobiSvd (matrixCols X) maxIterations X refShape
      scalarMax 0

/-- The function `generalizedProcrustes(X, maxIterations)`. -/
def generalizedProcrustes (sqrt : K → K) (jacobiSvd : Matrix2 K → JacobiSvd K)
    (scalarMax : K) (X : List (List K)) (maxIterations : Int) : Option (List (List K)) :=
  (generalizedProcrustesPasses sqrt jacobiSvd scalarMax X maxIterations).map Prod.fst

end GeneralizedProcrustes

/-! ## Triangles, index access and images used by `rasterization.cpp` -/

/-- Modelled from the spec: the class `ParametrizedTriangle` of `aam/barycentrics.h`,
which is not among the sources. It "holds three 2D vertices (p0,p1,p2)". -/
structure ParametrizedTriangle (K : Type) where
  p0 : K × K
  p1 : K × K
  p2 : K × K
deriving DecidableEq, Repr

/-- Modelled from the spec: a coordinate as `baryAt` of `aam/barycentrics.h` returns it.
"Degenerate (collinear or coincident vertices) triangles yield undefined/unstable results —
callers must tolerate NaN/Inf outputs": besides the numbers, a coordinate can be one of the
values that a floating-point division by zero produces. -/
inductive BaryCoord (K : Type) where
  | finite (k : K)
  | posInf
  | negInf
  | nan

/-- A matrix of the image library (`cv::Mat`): its extent and the colour stored at each
row and column. Only the positions inside the extent are meaningful. -/
structure Image (C : Type) where
  rows : Nat
  cols : Nat
  px : Nat → Nat → C

section Collaborators

variable {K : Type} [LinearOrderedField K] [FloorRing K]

/-- The division `a / d` of the floating-point scalar type on two numbers. A non-zero
divisor gives the quotient; a zero divisor gives NaN for `0 / 0` and otherwise an infinity,
here the one with the sign of the dividend (the sign of a zero divisor is not modelled). -/
def BaryCoord.div (a d : K) : BaryCoord K :=
  if d = 0 then (if a = 0 then .nan else if 0 < a then .posInf else .negInf)
  else .finite (a / d)

/-- The sum `a + b` of the floating-point scalar type. A sum with NaN and the sum of the
two opposite infinities are NaN; an infinity absorbs a number. -/
def BaryCoord.add : BaryCoord K → BaryCoord K → BaryCoord K
  | .finite a, .finite b => .finite (a + b)
  | .finite _, .posInf => .posInf
  | .finite _, .negInf => .negInf
  | .posInf, .finite _ => .posInf
  | .posInf, .posInf => .posInf
  | .negInf, .finite _ => .negInf
  | .negInf, .negInf => .negInf
  | _, _ => .nan

/-- The comparison `a <= b` of the floating-point scalar type. Every comparison with NaN
is false; minus infinity is below and plus infinity is above every number. -/
def BaryCoord.le : BaryCoord K → BaryCoord K → Bool
  | .finite a, .finite b => decide (a ≤ b)
  | .finite _, .posInf => true
  | .negInf, .finite _ => true
  | .negInf, .negInf => true
  | .negInf, .posInf => true
  | .posInf, .posInf => true
  | _, _ => false

/-- The number that a coordinate holds. The rasterizer reads it only from coordinates that
passed `isBaryInside`, and those are numbers (`isBaryInside_iff`). -/
def BaryCoord.value : BaryCoord K → K
  | .finite k => k
  | _ => 0

/-- Modelled from the spec: `baryAt(point) → (u,v)` "solves the 2×2 linear system
expressing `point - p0` in the basis `(p1-p0, p2-p0)`": both coordinates are quotients by
the determinant of the two edge vectors. "Degenerate (collinear or coincident vertices)
triangles yield undefined/unstable results", the "NaN/Inf outputs" of a division by a zero
determinant. -/
def ParametrizedTriangle.baryAt (pt : ParametrizedTriangle K) (p : K × K) :
    BaryCoord K × BaryCoord K :=
  let e1 : K × K := (pt.p1.1 - pt.p0.1, pt.p1.2 - pt.p0.2)
  let e2 : K × K := (pt.p2.1 - pt.p0.1, pt.p2.2 - pt.p0.2)
  let w : K × K := (p.1 - pt.p0.1, p.2 - pt.p0.2)
  let det := e1.1 * e2.2 - e2.1 * e1.2
  (BaryCoord.div (w.1 * e2.2 - e2.1 * w.2) det, BaryCoord.div (e1.1 * w.2 - w.1 * e1.2) det)

/-- Modelled from the spec: `isBaryInside(u,v) → bool` is "true iff
`u ≥ 0 ∧ v ≥ 0 ∧ u+v ≤ 1`", the three comparisons being those of the scalar type. -/
def ParametrizedTriangle.isBaryInside (_pt : ParametrizedTriangle K)
    (bary : BaryCoord K × BaryCoord K) : Bool :=
  BaryCoord.le (.finite 0) bary.1 && BaryCoord.le (.finite 0) bary.2 &&
    BaryCoord.le (bary.1.add bary.2) (.finite 1)

/-- Modelled from the spec: `pointAt(u,v) → point` is the "inverse mapping,
`p0 + u*(p1-p0) + v*(p2-p0)`". -/
def ParametrizedTriangle.pointAt (pt : ParametrizedTriangle K) (bary : K × K) : K × K :=
  (pt.p0.1 + bary.1 * (pt.p1.1 - pt.p0.1) + bary.2 * (pt.p2.1 - pt.p0.1),
   pt.p0.2 + bary.1 * (pt.p1.2 - pt.p0.2) + bary.2 * (pt.p2.2 - pt.p0.2))

/-- Modelled from the spec: `fromInterleaved` of `aam/map.h`, which is not among the
sources: the `N x 2` point matrix of a row of interleaved coordinates. -/
def fromInterleaved : List K → List (K × K)
  | x :: y :: rest => (x, y) :: fromInterleaved rest
  | _ => []

/-- Coefficient access `v(i)` of a row vector and row access `M.row(i)` of a matrix, which
assert `0 ≤ i` and `i` below the size. -/
def coeffAt {α : Type} (v : List α) (i : Int) : Option α :=
  if 0 ≤ i then v[i.toNat]? else none

/-- Block access `v.segment(start, 2)`, which asserts `0 ≤ start` and
`start + 2 ≤ v.size()`. -/
def segment2 (v : List K) (start : Int) : Option (K × K) :=
  match coeffAt v start, coeffAt v (start + 1) with
  | some x, some y => some (x, y)
  | _, _ => none

/-- Conversion of a scalar to an integer type (`(int)x`, `cast<Index>()`): the fractional
part is discarded. -/
def truncToIndex (x : K) : Int :=
  if 0 ≤ x then ⌊x⌋ else ⌈x⌉

/-- The call `cvGet2D(&img, idx0, idx1)`: the colour at row `idx0`, column `idx1`; an index
outside the extent is an error. -/
def cvGet2D {C : Type} (img : Image C) (idx0 idx1 : Int) : Option C :=
  if 0 ≤ idx0 ∧ idx0 < img.rows ∧ 0 ≤ idx1 ∧ idx1 < img.cols then
    some (img.px idx0.toNat idx1.toNat)
  else none

/-- The call `cvSet2D(&img, idx0, idx1, value)`: stores `value` at row `idx0`, column
`idx1`; an index outside the extent is an error. -/
def cvSet2D {C : Type} (img : Image C) (idx0 idx1 : Int) (value : C) : Option (Image C) :=
  if 0 ≤ idx0 ∧ idx0 < img.rows ∧ 0 ≤ idx1 ∧ idx1 < img.cols then
    some { rows := img.rows, cols := img.cols
           px := fun r c => if r = idx0.toNat ∧ c = idx1.toNat then value else img.px r c }
  else none

/-- The loop `for (i = start; i < start + n; ++i) state = body(i, state)`. -/
def forLoop {σ : Type} (body : Nat → σ → σ) : Nat → Nat → σ → σ
  | 0, _, state => state
  | n + 1, i, state => forLoop body n (i + 1) (body i state)

/-- The loop `for (i = start; i < start + n; ++i) state = body(i, state)` with a body that
can fail; the first failure ends the loop. -/
def forLoopOpt {σ : Type} (body : Nat → σ → Option σ) : Nat → Nat → σ → Option σ
  | 0, _, state => some state
  | n + 1, i, state =>
    match body i state with
    | none => none
    | some state => forLoopOpt body n (i + 1) state

end Collaborators

/-! ## `rasterizeShape` -/

section RasterizeShape

variable {K : Type} [LinearOrderedField K] [FloorRing K]

/-- Lines 43 to 47: the triangle `tri` of the triangulation on the scaled point matrix. -/
def rasterTriangle (points : List (K × K)) (triangleIds : List Int) (tri : Nat) :
    Option (ParametrizedTriangle K) :=
  match (coeffAt triangleIds ((tri : Int) * 3 + 0)).bind (coeffAt points),
      (coeffAt triangleIds ((tri : Int) * 3 + 1)).bind (coeffAt points),
      (coeffAt triangleIds ((tri : Int) * 3 + 2)).bind (coeffAt points) with
  | some p0, some p1, some p2 => some { p0 := p0, p1 := p1, p2 := p2 }
  | _, _, _ => none

/-- Lines 51 to 56: the body of the innermost loop, for the pixel in column `x` and row
`y`. -/
def rasterizePixel (pt : ParametrizedTriangle K) (tri y x : Nat)
    (coords : List (K × K × K)) : List (K × K × K) :=
  let p : K × K := ((x : K) + 1 / 2, (y : K) + 1 / 2)
  let bary := pt.baryAt p
  if pt.isBaryInside bary then coords ++ [((tri : K), bary.1.value, bary.2.value)]
  else coords

/-- Lines 49 to 58: the two pixel loops for one triangle. -/
def rasterizeTriangle (pt : ParametrizedTriangle K) (tri imageWidth imageHeight : Nat)
    (coords : List (K × K × K)) : List (K × K × K) :=
  forLoop (fun y coords =>
    forLoop (fun x coords => rasterizePixel pt tri y x coords) imageWidth 0 coords)
    imageHeight 0 coords

/-- The function `rasterizeShape`: the rows `(tri, u, v)` of the returned matrix. -/
def rasterizeShape (pointsInterleaved : List K) (triangleIds : List Int)
    (imageWidth imageHeight : Int) (shapeScale : K) : Option (List (K × K × K)) :=
  let points := scaleMul (fromInterleaved pointsInterleaved) shapeScale
  let nTriangles := triangleIds.length / 3
  forLoopOpt (fun tri coords =>
    match rasterTriangle points triangleIds tri with
    | none => none
    | some pt => some (rasterizeTriangle pt tri imageWidth.toNat imageHeight.toNat coords))
    nTriangles 0 []

end RasterizeShape

/-! ## `writeShapeImage` -/

section WriteShapeImage

variable {K : Type} [LinearOrderedField K] [FloorRing K]

/-- Lines 92 to 95 (and 130 to 133): the triangle `triId` of the triangulation on the
scaled interleaved row `points`. -/
def sampleTriangle (points : List K) (triangleIds : List Int) (triId : Int) :
    Option (ParametrizedTriangle K) :=
  match (coeffAt triangleIds (triId * 3 + 0)).bind (fun i => segment2 points (2 * i)),
      (coeffAt triangleIds (triId * 3 + 1)).bind (fun i => segment2 points (2 * i)),
      (coeffAt triangleIds (triId * 3 + 2)).bind (fun i => segment2 points (2 * i)) with
  | some p0, some p1, some p2 => some { p0 := p0, p1 := p1, p2 := p2 }
  | _, _, _ => none

/-- Lines 90 to 97: the cached triangle after looking at the id of the next sample. The
state is the pair of `triIdLast` and `pt`. -/
def updateCache (points : List K) (triangleIds : List Int)
    (cache : Int × ParametrizedTriangle K) (triId : Int) :
    Option (Int × ParametrizedTriangle K) :=
  if triId ≠ cache.1 then
    match sampleTriangle points triangleIds triId with
    | none => none
    | some pt => some (triId, pt)
  else some cache

/-- Line 100: the pixel position `(p - 0.5).cast<Index>()` of a point, as column and
row. -/
def pixelIndex (p : K × K) : Int × Int :=
  (truncToIndex (p.1 - 1 / 2), truncToIndex (p.2 - 1 / 2))

/-- The test of line 102. -/
def inExtent {C : Type} (dst : Image C) (pi : Int × Int) : Bool :=
  decide (0 ≤ pi.1 ∧ 0 ≤ pi.2 ∧ pi.1 < dst.cols ∧ pi.2 < dst.rows)

/-- Lines 87 to 105: the loop over the rows `i, i + 1, ...` of the sample matrix, entered
with the given cache and destination. -/
def writeLoop {C : Type} (points : List K) (triangleIds : List Int) (colors : Image C) :
    List (K × K × K) → Nat → Int × ParametrizedTriangle K → Image C → Option (Image C)
  | [], _, _, dst => some dst
  | rb :: rest, i, cache, dst =>
    let triId := truncToIndex rb.1
    match updateCache points triangleIds cache triId with
    | none => none
    | some cache =>
      let p := cache.2.pointAt (rb.2.1, rb.2.2)
      let pi := pixelIndex p
      if inExtent dst pi then
        match cvGet2D colors i 0 with
        | none => none
        | some color =>
          match cvSet2D dst pi.2 pi.1 color with
          | none => none
          | some dst => writeLoop points triangleIds colors rest (i + 1) cache dst
      else
        writeLoop points triangleIds colors rest (i + 1) cache dst

/-- The function `writeShapeImage`: the destination image after the call. `pt0` is the
value of the default-constructed `ParametrizedTriangle pt`, whose vertices are not
initialised. -/
def writeShapeImage {C : Type} (pt0 : ParametrizedTriangle K) (normalizedShape : List K)
    (triangleIds : List Int) (barycentricSamplePositions : List (K × K × K))
    (shapeScale : K) (colors : Image C) (dst : Image C) : Option (Image C) :=
  let points := normalizedShape.map fun x => x * shapeScale
  writeLoop points triangleIds colors barycentricSamplePositions 0 (-1, pt0) dst

end WriteShapeImage

/-! ## `readShapeImage` -/

section ReadShapeImage

variable {K : Type} [LinearOrderedField K] [FloorRing K]

/-- Lines 125 to 140: the loop over the rows `i, i + 1, ...` of the sample matrix, entered
with the given cache and destination. `bilinear` is the function of `aam/bilinear.h`,
which is not among the sources; it is called with the image, `p(1)` and `p(0)`. -/
def readLoop {C : Type} (bilinear : Image C → K → K → C) (points : List K)
    (triangleIds : List Int) (img : Image C) :
    List (K × K × K) → Nat → Int × ParametrizedTriangle K → Image C → Option (Image C)
  | [], _, _, dst => some dst
  | rb :: rest, i, cache, dst =>
    let triId := truncToIndex rb.1
    match updateCache points triangleIds cache triId with
    | none => none
    | some cache =>
      let p := cache.2.pointAt (rb.2.1, rb.2.2)
      match cvSet2D dst i 0 (bilinear img p.2 p.1) with
      | none => none
      | some dst => readLoop bilinear points triangleIds img rest (i + 1) cache dst

/-- The function `readShapeImage`: the destination after the call. `dst_.create` gives a
matrix with one row per sample and one column, whose contents before the loop are
`fresh`; `pt0` is the value of the default-constructed `ParametrizedTriangle pt`. -/
def readShapeImage {C : Type} (bilinear : Image C → K → K → C)
    (pt0 : ParametrizedTriangle K) (fresh : Nat → Nat → C) (normalizedShape : List K)
    (triangleIds : List Int) (barycentricSamplePositions : List (K × K × K))
    (shapeScale : K) (img : Image C) : Option (Image C) :=
  let dst : Image C := { rows := barycentricSamplePositions.length, cols := 1, px := fresh }
  let points := normalizedShape.map fun x => x * shapeScale
  readLoop bilinear points triangleIds img barycentricSamplePositions 0 (-1, pt0) dst

end ReadShapeImage

/-! ## The calls seen from the caller -/

section Calls

variable {K : Type} [LinearOrderedField K]

/-- The call `d = procrustes(X_, Y_)` seen from the caller: the returned distance and the
contents of the rows `X_` and `Y_` after the call. `X_` is bound to
`Eigen::Ref<const RowVectorX>` and is only read. -/
def procrustesCall (sqrt : K → K) (jacobiSvd : Matrix2 K → JacobiSvd K)
    (X_ Y_ : List K) : Option (K × List K × List K) :=
  (procrustes sqrt jacobiSvd X_ Y_).map fun r => (r.1, X_, r.2)

/-- The call `generalizedProcrustes(X, maxIterations)` seen from the caller: the contents of
the matrix `X` after the call and the returned matrix. `X` is bound to
`Eigen::Ref<const MatrixX>`; line 84 copies it into the local `alignedShapes`, and only
the copy is written and returned. -/
def generalizedProcrustesCall (sqrt : K → K) (jacobiSvd : Matrix2 K → JacobiSvd K)
    (scalarMax : K) (X : List (List K)) (maxIterations : Int) :
    Option (List (List K) × List (List K)) :=
  (generalizedProcrustes sqrt jacobiSvd scalarMax X maxIterations).map fun aligned =>
    (X, aligned)

end Calls

/-! ## The passes of `generalizedProcrustes` one by one -/

/-- The variables that one execution of the loop body of `generalizedProcrustes` hands to
the next: `alignedShapes`, `refShape` and `lastDist`. -/
structure PassState (K : Type) where
  alignedShapes : List (List K)
  refShape : List K
  lastDist : K

section Passes

variable {K : Type} [LinearOrderedField K]

/-- One alignment pass, lines 97 to 113 without the test of line 108: all rows are aligned
to `refShape`, the new reference is their mean shape, and the new `lastDist` is the
distance between the mean shape and the reference of this pass. -/
def alignmentPass (sqrt : K → K) (jacobiSvd : Matrix2 K → JacobiSvd K) (cols : Nat)
    (st : PassState K) : Option (PassState K) :=
  match alignRows sqrt jacobiSvd st.refShape st.alignedShapes with
  | none => none
  | some alignedShapes =>
    some { alignedShapes := alignedShapes
           refShape := meanShapeOf cols alignedShapes
           lastDist := vecNorm sqrt (vecSub (meanShapeOf cols alignedShapes) st.refShape) }

/-- The state after `k` passes, were the loop not to stop. -/
def afterPasses (sqrt : K → K) (jacobiSvd : Matrix2 K → JacobiSvd K) (cols : Nat) :
    Nat → PassState K → Option (PassState K)
  | 0, st => some st
  | k + 1, st =>
    match alignmentPass sqrt jacobiSvd cols st with
    | none => none
    | some st => afterPasses sqrt jacobiSvd cols k st

/-- The state in which `generalizedProcrustes` enters its loop: pass `0`, with the
distance `d_0 = scalarMax`. -/
def initialPassState (scalarMax : K) (X : List (List K)) : PassState K :=
  { alignedShapes := X, refShape := X.headD [], lastDist := scalarMax }

/-- The distance `d_k` between the mean shape and the reference computed in pass `k`. -/
def passDistance (sqrt : K → K) (jacobiSvd : Matrix2 K → JacobiSvd K) (scalarMax : K)
    (X : List (List K)) (k : Nat) : Option K :=
  (afterPasses sqrt jacobiSvd (matrixCols X) k (initialPassState scalarMax X)).map
    PassState.lastDist

/-- The condition under which pass `k ≥ 1` is the last one according to the stopping rule:
`d_k > d_(k-1)` or `k > maxIterations`. -/
def stopsAt (sqrt : K → K) (jacobiSvd : Matrix2 K → JacobiSvd K) (scalarMax : K)
    (X : List (List K)) (maxIterations : Int) (k : Nat) : Prop :=
  ∃ dPrev dk, passDistance sqrt jacobiSvd scalarMax X (k - 1) = some dPrev ∧
    passDistance sqrt jacobiSvd scalarMax X k = some dk ∧
    (dk > dPrev ∨ (k : Int) > maxIterations)

end Passes

/-! ## The loops without the triangle cache -/

section Uncached

variable {K : Type} [LinearOrderedField K] [FloorRing K]

/-- The loop of `writeShapeImage` with `updateVertices` called for every sample instead of
only when the triangle id changes. -/
def writeLoopUncached {C : Type} (points : List K) (triangleIds : List Int)
    (colors : Image C) : List (K × K × K) → Nat → Image C → Option (Image C)
  | [], _, dst => some dst
  | rb :: rest, i, dst =>
    match sampleTriangle points triangleIds (truncToIndex rb.1) with
    | none => none
    | some pt =>
      let p := pt.pointAt (rb.2.1, rb.2.2)
      let pi := pixelIndex p
      if inExtent dst pi then
        match cvGet2D colors i 0 with
        | none => none
        | some color =>
          match cvSet2D dst pi.2 pi.1 color with
          | none => none
          | some dst => writeLoopUncached points triangleIds colors rest (i + 1) dst
      else
        writeLoopUncached points triangleIds colors rest (i + 1) dst

/-- The function `writeShapeImage` without the triangle cache. -/
def writeShapeImageUncached {C : Type} (normalizedShape : List K) (triangleIds : List Int)
    (barycentricSamplePositions : List (K × K × K)) (shapeScale : K) (colors : Image C)
    (dst : Image C) : Option (Image C) :=
  let points := normalizedShape.map fun x => x * shapeScale
  writeLoopUncached points triangleIds colors barycentricSamplePositions 0 dst

/-- The loop of `readShapeImage` with `updateVertices` called for every sample. -/
def readLoopUncached {C : Type} (bilinear : Image C → K → K → C) (points : List K)
    (triangleIds : List Int) (img : Image C) :
    List (K × K × K) → Nat → Image C → Option (Image C)
  | [], _, dst => some dst
  | rb :: rest, i, dst =>
    match sampleTriangle points triangleIds (truncToIndex rb.1) with
    | none => none
    | some pt =>
      let p := pt.pointAt (rb.2.1, rb.2.2)
      match cvSet2D dst i 0 (bilinear img p.2 p.1) with
      | none => none
      | some dst => readLoopUncached bilinear points triangleIds img rest (i + 1) dst

/-- The function `readShapeImage` without the triangle cache. -/
def readShapeImageUncached {C : Type} (bilinear : Image C → K → K → C)
    (fresh : Nat → Nat → C) (normalizedShape : List K) (triangleIds : List Int)
    (barycentricSamplePositions : List (K × K × K)) (shapeScale : K) (img : Image C) :
    Option (Image C) :=
  let dst : Image C := { rows := barycentricSamplePositions.length, cols := 1, px := fresh }
  let points := normalizedShape.map fun x => x * shapeScale
  readLoopUncached bilinear points triangleIds img barycentricSamplePositions 0 dst

end Uncached

/-! ## The enumeration that `rasterizeShape` is compared with -/

section Enumeration

variable {K : Type} [LinearOrderedField K] [FloorRing K]

/-- The triples `(tri, y, x)` with `tri < nTriangles`, `y < height`, `x < width`: triangles
in the order of the triangulation, for each triangle the rows from `0`, for each row the
columns from `0`. -/
def visitOrder (nTriangles width height : Nat) : List (Nat × Nat × Nat) :=
  (List.range nTriangles).flatMap fun tri =>
    (List.range height).flatMap fun y => (List.range width).map fun x => (tri, y, x)

/-- The sample `(tri, baryAt(x + 0.5, y + 0.5))` of a pixel against a triangle, kept when
the barycentric coordinates pass `isBaryInside`. -/
def sampleAt (pt : ParametrizedTriangle K) (tri y x : Nat) : Option (K × K × K) :=
  let bary := pt.baryAt ((x : K) + 1 / 2, (y : K) + 1 / 2)
  if pt.isBaryInside bary then some ((tri : K), bary.1.value, bary.2.value) else none

/-- The sample of the visit `(tri, y, x)` on the scaled point matrix, if there is one. -/
def visitSample (points : List (K × K)) (triangleIds : List Int) (e : Nat × Nat × Nat) :
    Option (K × K × K) :=
  match rasterTriangle points triangleIds e.1 with
  | none => none
  | some pt => sampleAt pt e.1 e.2.1 e.2.2

/-- Every index triple of the triangulation names three rows of the point matrix. -/
def trianglesValid (points : List (K × K)) (triangleIds : List Int) : Bool :=
  (List.range (triangleIds.length / 3)).all fun tri =>
    (rasterTriangle points triangleIds tri).isSome

/-- The triangle that the loops of `writeShapeImage` and `readShapeImage` use for a
sample with the id `triId` in a run that does not fail: the triangle `triId` of the
triangulation, except that for `triId = -1`, the initial value of `triIdLast`, no vertices
are fetched and the default-constructed triangle `pt0` is used. -/
def triangleInUse (pt0 : ParametrizedTriangle K) (points : List K) (triangleIds : List Int)
    (triId : Int) : Option (ParametrizedTriangle K) :=
  if triId = -1 then some pt0 else sampleTriangle points triangleIds triId

/-- The pixel position `trunc(pointAt(u, v) - 0.5)` of a sample `(t, u, v)`, as column and
row. -/
def samplePixel (pt0 : ParametrizedTriangle K) (points : List K) (triangleIds : List Int)
    (rb : K × K × K) : Option (Int × Int) :=
  (triangleInUse pt0 points triangleIds (truncToIndex rb.1)).map fun pt =>
    pixelIndex (pt.pointAt (rb.2.1, rb.2.2))

end Enumeration

/-! ## Concrete inputs -/

/-- A singular value decomposition routine for diagonal matrices with
`|a.m11| ≤ |a.m00|`: `U = 1`, `S = (|a.m00|, |a.m11|)`, `V = diag(sign a.m00, sign a.m11)`. -/
def diagonalSvd (a : Matrix2 ℚ) : JacobiSvd ℚ :=
  { matrixU := Matrix2.identity
    singularValues := (|a.m00|, |a.m11|)
    matrixV :=
      { m00 := if a.m00 < 0 then -1 else 1, m01 := 0
        m10 := 0, m11 := if a.m11 < 0 then -1 else 1 } }

/-- A square root that is exact at `0`, at `4`, the squared norm of the centred
`diamond`, and at `16`. -/
def sqrtTable (z : ℚ) : ℚ := if z = 4 then 2 else if z = 16 then 4 else 0

/-- The points `(1,0), (0,1), (-1,0), (0,-1)`. -/
def diamondPoints : List (ℚ × ℚ) := [(1, 0), (0, 1), (-1, 0), (0, -1)]

/-- The shape `(1,0), (0,1), (-1,0), (0,-1)` as an interleaved row. -/
def diamond : List ℚ := [1, 0, 0, 1, -1, 0, 0, -1]

/-- The mirror image `(1,0), (0,-1), (-1,0), (0,1)` of `diamond`. -/
def diamondMirrored : List ℚ := [1, 0, 0, -1, -1, 0, 0, 1]

/-- The golden case: the triangle `(0,0), (4,0), (0,4)` as an interleaved row. -/
def goldenShape : List ℚ := [0, 0, 4, 0, 0, 4]

/-- The triangulation of the golden case, one triangle. -/
def goldenTriangulation : List Int := [0, 1, 2]

/-- The triangle of the golden case. -/
def goldenTriangle : ParametrizedTriangle ℚ := { p0 := (0, 0), p1 := (4, 0), p2 := (0, 4) }

/-- The ten samples of the golden case. -/
def goldenSamples : List (ℚ × ℚ × ℚ) :=
  [(0, 1 / 8, 1 / 8), (0, 3 / 8, 1 / 8), (0, 5 / 8, 1 / 8), (0, 7 / 8, 1 / 8),
   (0, 1 / 8, 3 / 8), (0, 3 / 8, 3 / 8), (0, 5 / 8, 3 / 8),
   (0, 1 / 8, 5 / 8), (0, 3 / 8, 5 / 8),
   (0, 1 / 8, 7 / 8)]

/-- A value for the triangle that `writeShapeImage` declares without initialising it. -/
def unsetTriangle : ParametrizedTriangle ℚ := { p0 := (7, 7), p1 := (7, 7), p2 := (7, 7) }

/-- Two samples of the golden triangle with the same barycentric coordinates. -/
def twiceSamples : List (ℚ × ℚ × ℚ) := [(0, 1 / 8, 1 / 8), (0, 1 / 8, 1 / 8)]

/-- A colour buffer with ten rows; row `i` holds the colour `100 + i`. -/
def writeColors : Image Nat := { rows := 10, cols := 1, px := fun r _ => 100 + r }

/-- A `4 x 4` destination filled with the colour `0`. -/
def blankImage : Image Nat := { rows := 4, cols := 4, px := fun _ _ => 0 }

/-- The copy of `diamond` scaled by `2` and moved by `(3, 5)`, as an interleaved row. -/
def diamondScaled : List ℚ := [5, 5, 3, 7, 1, 5, 3, 3]

/-- The points `(0,0), (4,0), (0,4), (2,2)` as an interleaved row. -/
def kiteShape : List ℚ := [0, 0, 4, 0, 0, 4, 2, 2]

/-- The golden triangle followed by a triangle with two coincident vertices. -/
def kiteTriangulation : List Int := [0, 1, 2, 0, 3, 3]

/-- The golden triangle followed by a triple with the point index `99`. -/
def brokenTriangulation : List Int := [0, 1, 2, 0, 1, 99]

/-- Samples whose triangle ids are not grouped. -/
def mixedSamples : List (ℚ × ℚ × ℚ) := [(1, 1 / 4, 1 / 4), (0, 1 / 8, 1 / 8), (1, 1 / 2, 1 / 4)]

/-- A stand-in for `bilinear`: the colour of the pixel that contains the position. -/
def nearestColor (img : Image Nat) (y x : ℚ) : Nat :=
  img.px (truncToIndex y).toNat (truncToIndex x).toNat

/-! # Theorems -/

set_option linter.unusedSectionVars false

/-! ## Facts about `2 x 2` matrices -/

section Matrix2Facts

variable {K : Type} [LinearOrderedField K]

theorem Matrix2.ext_iff4 (a b : Matrix2 K) :
    a = b ↔ a.m00 = b.m00 ∧ a.m01 = b.m01 ∧ a.m10 = b.m10 ∧ a.m11 = b.m11 := by
  cases a; cases b; simp

theorem Matrix2.determinant_mul (a b : Matrix2 K) :
    (a.mul b).determinant = a.determinant * b.determinant := by
  simp only [Matrix2.mul, Matrix2.determinant]; ring

theorem Matrix2.determinant_transpose (a : Matrix2 K) :
    a.transpose.determinant = a.determinant := by
  simp only [Matrix2.transpose, Matrix2.determinant]; ring

theorem Matrix2.determinant_negateRightCol (a : Matrix2 K) :
    a.negateRightCol.determinant = -a.determinant := by
  simp only [Matrix2.negateRightCol, Matrix2.determinant]; ring

theorem Matrix2.IsOrthogonal.determinant_sq {m : Matrix2 K} (h : m.IsOrthogonal) :
    m.determinant * m.determinant = 1 := by
  have h2 := congrArg Matrix2.determinant h
  rw [Matrix2.determinant_mul, Matrix2.determinant_transpose] at h2
  simpa [Matrix2.identity, Matrix2.determinant] using h2

theorem Matrix2.IsOrthogonal.determinant_eq {m : Matrix2 K} (h : m.IsOrthogonal) :
    m.determinant = 1 ∨ m.determinant = -1 := by
  have h2 := h.determinant_sq
  have h3 : (m.determinant - 1) * (m.determinant + 1) = 0 := by linear_combination h2
  rcases mul_eq_zero.mp h3 with h4 | h4
  · left; linear_combination h4
  · right; linear_combination h4

/-- The determinant of the rotation `procrustes` ends up with, in terms of the determinant
of the first `v * u.transpose()`. -/
theorem procrustesLocals_rot_determinant (sqrt : K → K) (jacobiSvd : Matrix2 K → JacobiSvd K)
    (X Y : List (K × K)) :
    (procrustesLocals sqrt jacobiSvd X Y).rot.determinant =
      |((jacobiSvd (procrustesLocals sqrt jacobiSvd X Y).A).matrixV.mul
          (jacobiSvd (procrustesLocals sqrt jacobiSvd X Y).A).matrixU.transpose).determinant| := by
  simp only [procrustesLocals]
  split_ifs with h
  · simp only [decide_eq_true_eq] at h
    rw [abs_of_neg h, Matrix2.determinant_mul, Matrix2.determinant_mul,
      Matrix2.determinant_negateRightCol]
    ring
  · simp only [decide_eq_true_eq, not_lt] at h
    rw [abs_of_nonneg h]

end Matrix2Facts

/-! ## The rotation of `procrustes` is proper -/

section NoReflection

variable {K : Type} [LinearOrderedField K]

/-- C1. Whatever the two point matrices are, if the matrices `U` and `V` that `jacobiSvd`
returns for the cross-covariance are orthogonal, then the rotation `procrustes` applies to
the target (`v * u.transpose()` after the reflection correction) has determinant `+1`, in
particular a positive one, also when the first `v * u.transpose()` has determinant `-1`. -/
theorem procrustes_rotation_proper (sqrt : K → K) (jacobiSvd : Matrix2 K → JacobiSvd K)
    (X Y : List (K × K))
    (hU : (jacobiSvd (procrustesLocals sqrt jacobiSvd X Y).A).matrixU.IsOrthogonal)
    (hV : (jacobiSvd (procrustesLocals sqrt jacobiSvd X Y).A).matrixV.IsOrthogonal) :
    (procrustesLocals sqrt jacobiSvd X Y).rot.determinant = 1 ∧
    0 < (procrustesLocals sqrt jacobiSvd X Y).rot.determinant := by
  have key : (procrustesLocals sqrt jacobiSvd X Y).rot.determinant = 1 := by
    rw [procrustesLocals_rot_determinant, Matrix2.determinant_mul,
      Matrix2.determinant_transpose, abs_mul]
    rcases hU.determinant_eq with h1 | h1 <;> rcases hV.determinant_eq with h2 | h2 <;>
      simp [h1, h2]
  rw [key]
  exact ⟨rfl, one_pos⟩

end NoReflection

/-! ## Termination of `generalizedProcrustes` -/

section Termination

variable {K : Type} [LinearOrderedField K]

theorem toSeparatedView_length (r : List K) : (toSeparatedView r).length = r.length / 2 := by
  induction r using toSeparatedView.induct with
  | case1 x y rest ih => simp only [toSeparatedView, List.length_cons, ih]; omega
  | case2 r h =>
    match r, h with
    | [], _ => simp [toSeparatedView]
    | [_], _ => simp [toSeparatedView]
    | x :: y :: rest, h => exact absurd rfl (h x y rest)

theorem toInterleaved_length (M : List (K × K)) : (toInterleaved M).length = 2 * M.length := by
  induction M with
  | nil => simp [toInterleaved]
  | cons p rest ih => simp only [toInterleaved, List.length_cons, ih]; omega

theorem ProcrustesLocals.transformed_length (sqrt : K → K)
    (jacobiSvd : Matrix2 K → JacobiSvd K) (X Y : List (K × K)) :
    (procrustesLocals sqrt jacobiSvd X Y).transformed.length = Y.length := by
  simp [ProcrustesLocals.transformed, procrustesLocals, rowwiseAdd, scaleMul, mulMatrix2,
    scaleDiv, rowwiseSub]

/-- The row that `procrustes` overwrites keeps its length. -/
theorem procrustes_length (sqrt : K → K) (jacobiSvd : Matrix2 K → JacobiSvd K)
    (X_ Y_ : List K) (r : K × List K) (h : procrustes sqrt jacobiSvd X_ Y_ = some r) :
    r.2.length = Y_.length := by
  simp only [procrustes] at h
  split_ifs at h with hlen
  simp only [Option.some.injEq] at h
  subst h
  simp only [assignSeparatedView, List.length_append, toInterleaved_length,
    ProcrustesLocals.transformed_length, List.length_drop, toSeparatedView_length]
  omega

/-- The call `procrustes(X_, Y_)` produces a result when both rows have the same length. -/
theorem procrustes_isSome (sqrt : K → K) (jacobiSvd : Matrix2 K → JacobiSvd K)
    (X_ Y_ : List K) (h : X_.length = Y_.length) :
    ∃ r, procrustes sqrt jacobiSvd X_ Y_ = some r := by
  simp only [procrustes, toSeparatedView_length, h, if_true]
  exact ⟨_, rfl⟩

theorem alignRows_isSome (sqrt : K → K) (jacobiSvd : Matrix2 K → JacobiSvd K)
    (refShape : List K) (rows : List (List K))
    (h : ∀ row ∈ rows, row.length = refShape.length) :
    ∃ rows', alignRows sqrt jacobiSvd refShape rows = some rows' ∧
      rows'.length = rows.length ∧ ∀ row ∈ rows', row.length = refShape.length := by
  induction rows with
  | nil => exact ⟨[], rfl, rfl, by simp⟩
  | cons row rest ih =>
    obtain ⟨r, hr⟩ := procrustes_isSome sqrt jacobiSvd refShape row
      (h row (List.mem_cons_self _ _)).symm
    obtain ⟨rest', hrest, hlen, hall⟩ := ih fun x hx => h x (List.mem_cons_of_mem _ hx)
    refine ⟨r.2 :: rest', ?_, ?_, ?_⟩
    · simp only [alignRows, hr, hrest]
    · simp [hlen]
    · intro x hx
      rcases List.mem_cons.mp hx with rfl | hx
      · rw [procrustes_length sqrt jacobiSvd refShape row r hr]
        exact h row (List.mem_cons_self _ _)
      · exact hall x hx

theorem foldl_vecAdd_length (rows : List (List K)) (acc : List K)
    (h : ∀ row ∈ rows, row.length = acc.length) :
    (rows.foldl vecAdd acc).length = acc.length := by
  induction rows generalizing acc with
  | nil => rfl
  | cons row rest ih =>
    have h1 : (vecAdd acc row).length = acc.length := by
      simp [vecAdd, h row (List.mem_cons_self _ _)]
    simp only [List.foldl_cons]
    rw [ih (vecAdd acc row) (fun x hx => by rw [h1]; exact h x (List.mem_cons_of_mem _ hx)), h1]

theorem meanShapeOf_length (cols : Nat) (rows : List (List K))
    (h : ∀ row ∈ rows, row.length = cols) : (meanShapeOf cols rows).length = cols := by
  simp only [meanShapeOf, List.length_map]
  rw [foldl_vecAdd_length rows _ (by simpa using h)]
  simp

/-- The loop returns a result on every matrix (all rows as long as `refShape`), and it
executes its body at least once and at most `max (maxIterations - iterations) 0 + 1`
times. -/
theorem generalizedProcrustesLoop_passes (sqrt : K → K) (jacobiSvd : Matrix2 K → JacobiSvd K)
    (cols : Nat) (maxIterations : Int) (n : Nat) :
    ∀ (alignedShapes : List (List K)) (refShape : List K) (lastDist : K) (iterations : Int),
      (maxIterations - iterations).toNat = n →
      refShape.length = cols → (∀ row ∈ alignedShapes, row.length = cols) →
      ∃ r, generalizedProcrustesLoop sqrt jacobiSvd cols maxIterations alignedShapes
          refShape lastDist iterations = some r ∧
        1 ≤ r.2 ∧ (r.2 : Int) ≤ max (maxIterations - iterations) 0 + 1 ∧
        r.1.length = alignedShapes.length ∧ ∀ row ∈ r.1, row.length = cols := by
  induction n using Nat.strong_induction_on with
  | _ n ih =>
    intro alignedShapes refShape lastDist iterations hn hlen hrows
    obtain ⟨rows', hal, hl', hall⟩ := alignRows_isSome sqrt jacobiSvd refShape alignedShapes
      (fun row hrow => by rw [hrows row hrow, hlen])
    rw [hlen] at hall
    rw [generalizedProcrustesLoop, hal]
    simp only
    split_ifs with h1 h2
    · exact ⟨_, rfl, le_refl _, by simp, hl', hall⟩
    · exact ⟨_, rfl, le_refl _, by simp, hl', hall⟩
    · obtain ⟨r, hr, hr1, hr2, hr3, hr4⟩ := ih (maxIterations - (iterations + 1)).toNat
        (by omega) rows' (meanShapeOf cols rows')
        (vecNorm sqrt (vecSub (meanShapeOf cols rows') refShape)) (iterations + 1) rfl
        (meanShapeOf_length cols rows' hall) hall
      rw [hr]
      refine ⟨_, rfl, by simp, ?_, by rw [hr3, hl'], hr4⟩
      simp only [Nat.cast_add, Nat.cast_one]
      omega

/-- C2, amended. On every shape set with at least one row (all rows of the same length)
and for every `maxIterations`, `generalizedProcrustes` returns a result, after at least
one and at most `max maxIterations 0 + 1` executions of the loop body. -/
theorem generalizedProcrustes_terminates (sqrt : K → K) (jacobiSvd : Matrix2 K → JacobiSvd K)
    (scalarMax : K) (X : List (List K)) (maxIterations : Int)
    (hX : X ≠ []) (hrows : ∀ row ∈ X, row.length = matrixCols X) :
    ∃ r, generalizedProcrustesPasses sqrt jacobiSvd scalarMax X maxIterations = some r ∧
      generalizedProcrustes sqrt jacobiSvd scalarMax X maxIterations = some r.1 ∧
      1 ≤ r.2 ∧ (r.2 : Int) ≤ max maxIterations 0 + 1 := by
  match X, hX with
  | refShape :: rest, _ =>
    obtain ⟨r, hr, h1, h2, _, _⟩ := generalizedProcrustesLoop_passes sqrt jacobiSvd
      (matrixCols (refShape :: rest)) maxIterations _ (refShape :: rest) refShape scalarMax 0
      rfl rfl hrows
    refine ⟨r, ?_, ?_, h1, by simpa using h2⟩
    · simpa only [generalizedProcrustesPasses] using hr
    · simp only [generalizedProcrustes, generalizedProcrustesPasses, hr, Option.map_some']

end Termination

/-! ## Aligning a shape to itself -/

section SelfAlignment

variable {K : Type} [LinearOrderedField K]

/-- The entries of an orthogonal matrix: its second column is the first one turned by a
quarter, up to the sign `δ` of the determinant. -/
theorem Matrix2.IsOrthogonal.entries {m : Matrix2 K} (h : m.IsOrthogonal) :
    ∃ δ : K, (δ = 1 ∨ δ = -1) ∧ m.determinant = δ ∧ m.m01 = -δ * m.m10 ∧
      m.m11 = δ * m.m00 ∧ m.m00 * m.m00 + m.m10 * m.m10 = 1 := by
  have hd := h.determinant_eq
  have hent := (Matrix2.ext_iff4 _ _).mp h
  simp only [Matrix2.mul, Matrix2.transpose, Matrix2.identity] at hent
  obtain ⟨h00, h01, _, h11⟩ := hent
  refine ⟨m.determinant, hd, rfl, ?_, ?_, h00⟩
  · simp only [Matrix2.determinant] at hd ⊢
    linear_combination (-m.m01) * h00 + m.m00 * h01
  · simp only [Matrix2.determinant] at hd ⊢
    linear_combination (-m.m11) * h00 + m.m10 * h01

/-- A decomposition `a = U * diag(s) * Vᵀ` of a symmetric matrix of trace one, with
`det (V * Uᵀ) = 1` and `0 ≤ s.1 + s.2`, has `V * Uᵀ = 1` and `s.1 + s.2 = 1`. -/
theorem rotation_of_symmetric {a U V : Matrix2 K} (s : K × K)
    (hU : U.IsOrthogonal) (hV : V.IsOrthogonal)
    (ha : (U.mul (Matrix2.diagonal s)).mul V.transpose = a)
    (hsym : a.m01 = a.m10) (htr : a.m00 + a.m11 = 1)
    (hdet : (V.mul U.transpose).determinant = 1) (hs : 0 ≤ s.1 + s.2) :
    V.mul U.transpose = Matrix2.identity ∧ s.1 + s.2 = 1 := by
  obtain ⟨δ, hδ, hUd, hU01, hU11, hU1⟩ := hU.entries
  obtain ⟨ε, hε, hVd, hV01, hV11, hV1⟩ := hV.entries
  rw [Matrix2.determinant_mul, Matrix2.determinant_transpose, hUd, hVd] at hdet
  have hδε : ε = δ := by
    rcases hδ with rfl | rfl <;> rcases hε with rfl | rfl <;> norm_num at hdet ⊢
  subst hδε
  have hεε : ε * ε = 1 := by rcases hε with rfl | rfl <;> norm_num
  have hent := (Matrix2.ext_iff4 _ _).mp ha
  simp only [Matrix2.mul, Matrix2.transpose, Matrix2.diagonal] at hent
  obtain ⟨a00, a01, a10, a11⟩ := hent
  simp only [hU01, hU11, hV01, hV11] at a00 a01 a10 a11
  set p := U.m00 * V.m00 + U.m10 * V.m10 with hp
  set q := U.m00 * V.m10 - U.m10 * V.m00 with hq
  have hpq : p * p + q * q = 1 := by
    rw [hp, hq]
    linear_combination (V.m00 * V.m00 + V.m10 * V.m10) * hU1 + hV1
  have h1 : (s.1 + s.2) * p = 1 := by
    rw [← htr, ← a00, ← a11, hp]
    linear_combination (- s.2 * (U.m10 * V.m10 + U.m00 * V.m00)) * hεε
  have h2 : (s.1 + s.2) * q = 0 := by
    have : a.m01 - a.m10 = 0 := by rw [hsym]; ring
    rw [← this, ← a01, ← a10, hq]
    linear_combination (- s.2 * (U.m00 * V.m10 - U.m10 * V.m00)) * hεε
  have h3 : (s.1 + s.2) * (s.1 + s.2) = 1 := by
    linear_combination (s.1 + s.2) * (s.1 + s.2) * hpq * (-1) + ((s.1 + s.2) * p + 1) * h1
      + (s.1 + s.2) * q * h2
  have h4 : s.1 + s.2 = 1 := by
    have : (s.1 + s.2 - 1) * (s.1 + s.2 + 1) = 0 := by linear_combination h3
    rcases mul_eq_zero.mp this with h | h
    · linear_combination h
    · linarith
  rw [h4, one_mul] at h1 h2
  refine ⟨?_, h4⟩
  rw [Matrix2.ext_iff4]
  simp only [Matrix2.mul, Matrix2.transpose, Matrix2.identity]
  rw [hU01, hU11, hV01, hV11]
  refine ⟨?_, ?_, ?_, ?_⟩
  · linear_combination h1 + (U.m10 * V.m10) * hεε
  · linear_combination (-1) * h2 + (-U.m00 * V.m10) * hεε
  · linear_combination h2 + (-U.m10 * V.m00) * hεε
  · linear_combination h1 + (U.m00 * V.m00) * hεε

theorem sum_map_zip_self (C : List (K × K)) (f : (K × K) × (K × K) → K) :
    ((C.zip C).map f).sum = (C.map fun p => f (p, p)).sum := by
  induction C with
  | nil => rfl
  | cons p rest ih => simp only [List.zip_cons_cons, List.map_cons, List.sum_cons, ih]

theorem transposeMul_self_symmetric (C : List (K × K)) :
    (transposeMul C C).m01 = (transposeMul C C).m10 := by
  simp only [transposeMul, sum_map_zip_self]
  congr 1
  exact List.map_congr_left fun p _ => mul_comm _ _

theorem transposeMul_self_trace (C : List (K × K)) :
    (transposeMul C C).m00 + (transposeMul C C).m11 = squaredNorm C := by
  simp only [transposeMul, sum_map_zip_self, squaredNorm]
  induction C with
  | nil => simp
  | cons p rest ih =>
    simp only [List.map_cons, List.sum_cons]
    linear_combination ih

theorem transposeMul_self_quadratic (C : List (K × K)) (t : K) :
    0 ≤ (transposeMul C C).m00 * (t * t) + 2 * (transposeMul C C).m01 * t
      + (transposeMul C C).m11 := by
  simp only [transposeMul, sum_map_zip_self]
  induction C with
  | nil => simp
  | cons p rest ih =>
    simp only [List.map_cons, List.sum_cons]
    have h : 0 ≤ (p.1 * t + p.2) * (p.1 * t + p.2) := mul_self_nonneg _
    linarith

/-- Cauchy-Schwarz: the Gram matrix `Cᵀ * C` has a non-negative determinant. -/
theorem transposeMul_self_determinant (C : List (K × K)) :
    0 ≤ (transposeMul C C).determinant := by
  have h := discrim_le_zero (transposeMul_self_quadratic C)
  rw [discrim] at h
  rw [Matrix2.determinant, ← transposeMul_self_symmetric]
  nlinarith [h]

theorem squaredNorm_scaleDiv (C : List (K × K)) (s : K) :
    squaredNorm (scaleDiv C s) = squaredNorm C / (s * s) := by
  simp only [squaredNorm, scaleDiv, List.map_map]
  induction C with
  | nil => simp
  | cons p rest ih =>
    simp only [List.map_cons, List.sum_cons, Function.comp_apply] at ih ⊢
    rw [ih]
    by_cases hs : s = 0
    · subst hs; simp
    · field_simp

/-- The rotation and the scale factor that `procrustes` ends up with, by the sign of the
determinant of the first `v * u.transpose()`. -/
theorem procrustesLocals_rot_trace (sqrt : K → K) (jacobiSvd : Matrix2 K → JacobiSvd K)
    (X Y : List (K × K)) :
    (procrustesLocals sqrt jacobiSvd X Y).A =
      transposeMul (procrustesLocals sqrt jacobiSvd X Y).centeredX
        (procrustesLocals sqrt jacobiSvd X Y).centeredY ∧
    (¬ ((jacobiSvd (procrustesLocals sqrt jacobiSvd X Y).A).matrixV.mul
          (jacobiSvd (procrustesLocals sqrt jacobiSvd X Y).A).matrixU.transpose).determinant < 0 →
      (procrustesLocals sqrt jacobiSvd X Y).rot =
        (jacobiSvd (procrustesLocals sqrt jacobiSvd X Y).A).matrixV.mul
          (jacobiSvd (procrustesLocals sqrt jacobiSvd X Y).A).matrixU.transpose ∧
      (procrustesLocals sqrt jacobiSvd X Y).trace =
        (jacobiSvd (procrustesLocals sqrt jacobiSvd X Y).A).singularValues.1 +
          (jacobiSvd (procrustesLocals sqrt jacobiSvd X Y).A).singularValues.2) ∧
    (((jacobiSvd (procrustesLocals sqrt jacobiSvd X Y).A).matrixV.mul
          (jacobiSvd (procrustesLocals sqrt jacobiSvd X Y).A).matrixU.transpose).determinant < 0 →
      (procrustesLocals sqrt jacobiSvd X Y).rot =
        (jacobiSvd (procrustesLocals sqrt jacobiSvd X Y).A).matrixV.negateRightCol.mul
          (jacobiSvd (procrustesLocals sqrt jacobiSvd X Y).A).matrixU.transpose ∧
      (procrustesLocals sqrt jacobiSvd X Y).trace =
        (jacobiSvd (procrustesLocals sqrt jacobiSvd X Y).A).singularValues.1 +
          -(jacobiSvd (procrustesLocals sqrt jacobiSvd X Y).A).singularValues.2) ∧
    (procrustesLocals sqrt jacobiSvd X Y).d =
      1 - (procrustesLocals sqrt jacobiSvd X Y).trace *
        (procrustesLocals sqrt jacobiSvd X Y).trace := by
  refine ⟨rfl, ?_, ?_, rfl⟩
  · intro h
    simp only [procrustesLocals] at h ⊢
    simp only [h, decide_False, Bool.false_eq_true, if_false, and_self]
  · intro h
    simp only [procrustesLocals] at h ⊢
    simp only [h, decide_True, if_true, and_self]

theorem Matrix2.IsOrthogonal.negateRightCol {m : Matrix2 K} (h : m.IsOrthogonal) :
    m.negateRightCol.IsOrthogonal := by
  have hent := (Matrix2.ext_iff4 _ _).mp h
  simp only [Matrix2.mul, Matrix2.transpose, Matrix2.identity] at hent
  obtain ⟨h00, h01, h10, h11⟩ := hent
  rw [Matrix2.IsOrthogonal, Matrix2.ext_iff4]
  simp only [Matrix2.mul, Matrix2.transpose, Matrix2.identity, Matrix2.negateRightCol]
  refine ⟨h00, ?_, ?_, ?_⟩
  · linear_combination (-1) * h01
  · linear_combination (-1) * h10
  · linear_combination h11

/-- For a symmetric matrix of trace one with non-negative determinant, the rotation and
the scale factor obtained from any of its singular value decompositions, after the
reflection correction, are the identity and `1`. -/
theorem corrected_rotation_of_gram (svd : JacobiSvd K) (a : Matrix2 K)
    (hsvd : svd.IsSvdOf a) (hsym : a.m01 = a.m10) (htr : a.m00 + a.m11 = 1)
    (hdetA : 0 ≤ a.determinant) :
    (¬ (svd.matrixV.mul svd.matrixU.transpose).determinant < 0 →
      svd.matrixV.mul svd.matrixU.transpose = Matrix2.identity ∧
      svd.singularValues.1 + svd.singularValues.2 = 1) ∧
    ((svd.matrixV.mul svd.matrixU.transpose).determinant < 0 →
      svd.matrixV.negateRightCol.mul svd.matrixU.transpose = Matrix2.identity ∧
      svd.singularValues.1 + -svd.singularValues.2 = 1) := by
  obtain ⟨U, ⟨s1, s2⟩, V⟩ := svd
  obtain ⟨hU, hV, hdec, hs2, hs12⟩ := hsvd
  simp only at hU hV hdec hs2 hs12 ⊢
  have hdets : V.determinant * U.determinant = 1 ∨ V.determinant * U.determinant = -1 := by
    rcases hU.determinant_eq with h1 | h1 <;> rcases hV.determinant_eq with h2 | h2 <;>
      rw [h1, h2] <;> norm_num
  rw [Matrix2.determinant_mul, Matrix2.determinant_transpose]
  constructor
  · intro hrefl
    refine rotation_of_symmetric (s1, s2) hU hV hdec hsym htr ?_
      (add_nonneg (le_trans hs2 hs12) hs2)
    rw [Matrix2.determinant_mul, Matrix2.determinant_transpose]
    rcases hdets with h | h
    · exact h
    · rw [h] at hrefl; norm_num at hrefl
  · intro hrefl
    have hdm1 : V.determinant * U.determinant = -1 := by
      rcases hdets with h | h
      · rw [h] at hrefl; norm_num at hrefl
      · exact h
    have hs2z : s2 = 0 := by
      have h5 := congrArg Matrix2.determinant hdec
      rw [Matrix2.determinant_mul, Matrix2.determinant_mul, Matrix2.determinant_transpose]
        at h5
      have h6 : (Matrix2.diagonal (s1, s2)).determinant = s1 * s2 := by
        simp [Matrix2.diagonal, Matrix2.determinant]
      rw [h6] at h5
      have h7 : s1 * s2 ≤ 0 := by
        have : a.determinant = -(s1 * s2) := by
          rw [← h5]; linear_combination (s1 * s2) * hdm1
        linarith
      by_contra hne
      have hpos2 : 0 < s2 := lt_of_le_of_ne hs2 (Ne.symm hne)
      nlinarith [mul_pos (lt_of_lt_of_le hpos2 hs12) hpos2]
    subst hs2z
    rw [neg_zero]
    refine rotation_of_symmetric (s1, 0) hU hV.negateRightCol ?_ hsym htr ?_
      (by simpa using hs12)
    · rw [← hdec, Matrix2.ext_iff4]
      simp [Matrix2.mul, Matrix2.transpose, Matrix2.diagonal, Matrix2.negateRightCol]
    · rw [Matrix2.determinant_mul, Matrix2.determinant_transpose,
        Matrix2.determinant_negateRightCol]
      linear_combination (-1) * hdm1

/-- If the unit-norm centred target equals the unit-norm centred reference, and
`jacobiSvd` returns a singular value decomposition of their cross-covariance, then
`procrustes` computes the identity rotation, the scale factor `1` and the distance `0`. -/
theorem procrustesLocals_same_centered (sqrt : K → K) (jacobiSvd : Matrix2 K → JacobiSvd K)
    (X Y : List (K × K))
    (hsame : (procrustesLocals sqrt jacobiSvd X Y).centeredY =
      (procrustesLocals sqrt jacobiSvd X Y).centeredX)
    (hunit : squaredNorm (procrustesLocals sqrt jacobiSvd X Y).centeredX = 1)
    (hsvd : (jacobiSvd (procrustesLocals sqrt jacobiSvd X Y).A).IsSvdOf
      (procrustesLocals sqrt jacobiSvd X Y).A) :
    (procrustesLocals sqrt jacobiSvd X Y).rot = Matrix2.identity ∧
    (procrustesLocals sqrt jacobiSvd X Y).trace = 1 ∧
    (procrustesLocals sqrt jacobiSvd X Y).d = 0 := by
  obtain ⟨hA, hpos, hneg, hd⟩ := procrustesLocals_rot_trace sqrt jacobiSvd X Y
  rw [hsame] at hA
  have hsym : (procrustesLocals sqrt jacobiSvd X Y).A.m01 =
      (procrustesLocals sqrt jacobiSvd X Y).A.m10 := by
    rw [hA]; exact transposeMul_self_symmetric _
  have htr : (procrustesLocals sqrt jacobiSvd X Y).A.m00 +
      (procrustesLocals sqrt jacobiSvd X Y).A.m11 = 1 := by
    rw [hA, transposeMul_self_trace, hunit]
  have hdetA : 0 ≤ (procrustesLocals sqrt jacobiSvd X Y).A.determinant := by
    rw [hA]; exact transposeMul_self_determinant _
  obtain ⟨cpos, cneg⟩ := corrected_rotation_of_gram _ _ hsvd hsym htr hdetA
  have key : (procrustesLocals sqrt jacobiSvd X Y).rot = Matrix2.identity ∧
      (procrustesLocals sqrt jacobiSvd X Y).trace = 1 := by
    by_cases hrefl : ((jacobiSvd (procrustesLocals sqrt jacobiSvd X Y).A).matrixV.mul
        (jacobiSvd (procrustesLocals sqrt jacobiSvd X Y).A).matrixU.transpose).determinant < 0
    · obtain ⟨hrot, htrace⟩ := hneg hrefl
      rw [hrot, htrace]
      exact cneg hrefl
    · obtain ⟨hrot, htrace⟩ := hpos hrefl
      rw [hrot, htrace]
      exact cpos hrefl
  refine ⟨key.1, key.2, ?_⟩
  rw [hd, key.2]; ring

end SelfAlignment

/-! ## Aligning a scaled and translated copy -/

section Similarity

variable {K : Type} [LinearOrderedField K]

theorem toSeparatedView_toInterleaved (P : List (K × K)) :
    toSeparatedView (toInterleaved P) = P := by
  induction P with
  | nil => rfl
  | cons p rest ih => simp only [toInterleaved, toSeparatedView, ih]

/-- A shape with two different points has a non-zero centred norm. -/
theorem squaredNorm_centered_ne_zero (P : List (K × K))
    (hP : ∃ p ∈ P, ∃ q ∈ P, p ≠ q) :
    squaredNorm (rowwiseSub P (colwiseMean P)) ≠ 0 := by
  intro h0
  have hall : ∀ p ∈ P, p = colwiseMean P := by
    intro p hp
    have hmem : (p.1 - (colwiseMean P).1) * (p.1 - (colwiseMean P).1) +
        (p.2 - (colwiseMean P).2) * (p.2 - (colwiseMean P).2) ∈
        (rowwiseSub P (colwiseMean P)).map fun p => p.1 * p.1 + p.2 * p.2 := by
      simp only [rowwiseSub, List.map_map, List.mem_map]
      exact ⟨p, hp, rfl⟩
    have hz := List.all_zero_of_le_zero_le_of_sum_eq_zero
      (fun x hx => by
        obtain ⟨r, _, rfl⟩ := List.mem_map.mp hx
        nlinarith [mul_self_nonneg r.1, mul_self_nonneg r.2])
      h0 hmem
    have h1 : p.1 - (colwiseMean P).1 = 0 := by
      by_contra hne
      nlinarith [mul_self_pos.mpr hne, mul_self_nonneg (p.2 - (colwiseMean P).2)]
    have h2 : p.2 - (colwiseMean P).2 = 0 := by
      by_contra hne
      nlinarith [mul_self_pos.mpr hne, mul_self_nonneg (p.1 - (colwiseMean P).1)]
    exact Prod.ext (sub_eq_zero.mp h1) (sub_eq_zero.mp h2)
  obtain ⟨p, hp, q, hq, hpq⟩ := hP
  exact hpq ((hall p hp).trans (hall q hq).symm)

theorem sum_map_affine (P : List (K × K)) (f : K × K → K) (a t : K) :
    (P.map fun p => a * f p + t).sum = a * (P.map f).sum + (P.length : K) * t := by
  induction P with
  | nil => simp
  | cons p rest ih =>
    simp only [List.map_cons, List.sum_cons, List.length_cons, Nat.cast_add, Nat.cast_one, ih]
    ring

theorem colwiseMean_affine (P : List (K × K)) (a : K) (t : K × K) (hP : P ≠ []) :
    colwiseMean (P.map fun p => (a * p.1 + t.1, a * p.2 + t.2)) =
      (a * (colwiseMean P).1 + t.1, a * (colwiseMean P).2 + t.2) := by
  have hn : (P.length : K) ≠ 0 := by
    simpa using hP
  simp only [colwiseMean, List.map_map, List.length_map]
  have e1 : (Prod.fst ∘ fun p : K × K => (a * p.1 + t.1, a * p.2 + t.2)) =
      fun p => a * Prod.fst p + t.1 := rfl
  have e2 : (Prod.snd ∘ fun p : K × K => (a * p.1 + t.1, a * p.2 + t.2)) =
      fun p => a * Prod.snd p + t.2 := rfl
  rw [e1, e2, sum_map_affine, sum_map_affine]
  refine Prod.ext ?_ ?_ <;> simp only <;> field_simp <;> ring

theorem rowwiseSub_affine (P : List (K × K)) (a : K) (t : K × K) (hP : P ≠ []) :
    rowwiseSub (P.map fun p => (a * p.1 + t.1, a * p.2 + t.2))
      (colwiseMean (P.map fun p => (a * p.1 + t.1, a * p.2 + t.2))) =
    scaleMul (rowwiseSub P (colwiseMean P)) a := by
  rw [colwiseMean_affine P a t hP]
  simp only [rowwiseSub, scaleMul, List.map_map]
  apply List.map_congr_left
  intro p _
  refine Prod.ext ?_ ?_ <;> simp only [Function.comp_apply] <;> ring

theorem squaredNorm_scaleMul (C : List (K × K)) (a : K) :
    squaredNorm (scaleMul C a) = a * a * squaredNorm C := by
  simp only [squaredNorm, scaleMul, List.map_map]
  induction C with
  | nil => simp
  | cons p rest ih =>
    simp only [List.map_cons, List.sum_cons, Function.comp_apply] at ih ⊢
    rw [ih]; ring

theorem scaleDiv_scaleMul (C : List (K × K)) (a s : K) (ha : a ≠ 0) :
    scaleDiv (scaleMul C a) (a * s) = scaleDiv C s := by
  simp only [scaleDiv, scaleMul, List.map_map]
  apply List.map_congr_left
  intro p _
  refine Prod.ext ?_ ?_ <;> simp only [Function.comp_apply]
  · rw [mul_comm p.1 a, mul_div_mul_left _ _ ha]
  · rw [mul_comm p.2 a, mul_div_mul_left _ _ ha]

/-- Undoing the normalisation: the centred unit-norm shape, not rotated, scaled by `1`
and by the norm and moved to the centroid, is the shape. -/
theorem transformed_identity (P : List (K × K)) (s : K) (m : K × K) (hs : s ≠ 0) :
    rowwiseAdd (scaleMul (scaleMul (mulMatrix2 (scaleDiv (rowwiseSub P m) s)
      Matrix2.identity) 1) s) m = P := by
  simp only [rowwiseAdd, scaleMul, mulMatrix2, scaleDiv, rowwiseSub, List.map_map,
    Matrix2.identity]
  conv_rhs => rw [← List.map_id P]
  apply List.map_congr_left
  intro p _
  refine Prod.ext ?_ ?_ <;> simp only [Function.comp_apply, id] <;> field_simp

theorem assignSeparatedView_toInterleaved (Y_ : List K) (P : List (K × K))
    (h : Y_.length = 2 * P.length) : assignSeparatedView Y_ P = toInterleaved P := by
  simp only [assignSeparatedView]
  rw [List.drop_of_length_le (by omega), List.append_nil]

/-- The locals of `procrustes` for a reference with the points `P` and the target
`a * P + t`: both centred unit-norm shapes coincide and have squared norm one. -/
theorem procrustesLocals_affine (sqrt : K → K) (jacobiSvd : Matrix2 K → JacobiSvd K)
    (P : List (K × K)) (a : K) (t : K × K) (ha : 0 < a)
    (hP : ∃ p ∈ P, ∃ q ∈ P, p ≠ q)
    (hsX : 0 ≤ sqrt (squaredNorm (rowwiseSub P (colwiseMean P))) ∧
      sqrt (squaredNorm (rowwiseSub P (colwiseMean P))) *
        sqrt (squaredNorm (rowwiseSub P (colwiseMean P))) =
        squaredNorm (rowwiseSub P (colwiseMean P)))
    (hsY : 0 ≤ sqrt (a * a * squaredNorm (rowwiseSub P (colwiseMean P))) ∧
      sqrt (a * a * squaredNorm (rowwiseSub P (colwiseMean P))) *
        sqrt (a * a * squaredNorm (rowwiseSub P (colwiseMean P))) =
        a * a * squaredNorm (rowwiseSub P (colwiseMean P))) :
    (procrustesLocals sqrt jacobiSvd P
      (P.map fun p => (a * p.1 + t.1, a * p.2 + t.2))).centeredY =
      (procrustesLocals sqrt jacobiSvd P
        (P.map fun p => (a * p.1 + t.1, a * p.2 + t.2))).centeredX ∧
    squaredNorm (procrustesLocals sqrt jacobiSvd P
      (P.map fun p => (a * p.1 + t.1, a * p.2 + t.2))).centeredX = 1 ∧
    (procrustesLocals sqrt jacobiSvd P
      (P.map fun p => (a * p.1 + t.1, a * p.2 + t.2))).centeredX =
      scaleDiv (rowwiseSub P (colwiseMean P))
        (sqrt (squaredNorm (rowwiseSub P (colwiseMean P)))) ∧
    (procrustesLocals sqrt jacobiSvd P
      (P.map fun p => (a * p.1 + t.1, a * p.2 + t.2))).sX =
      sqrt (squaredNorm (rowwiseSub P (colwiseMean P))) ∧
    (procrustesLocals sqrt jacobiSvd P
      (P.map fun p => (a * p.1 + t.1, a * p.2 + t.2))).meanX = colwiseMean P ∧
    sqrt (squaredNorm (rowwiseSub P (colwiseMean P))) ≠ 0 := by
  have hne : P ≠ [] := by
    rintro rfl
    obtain ⟨p, hp, _⟩ := hP
    simp at hp
  have hq := squaredNorm_centered_ne_zero P hP
  set z := squaredNorm (rowwiseSub P (colwiseMean P)) with hz
  have hs0 : sqrt z ≠ 0 := by
    intro h0
    rw [h0] at hsX
    exact hq (by linarith [hsX.2])
  have hspos : 0 < sqrt z := lt_of_le_of_ne hsX.1 (Ne.symm hs0)
  have hsYeq : sqrt (a * a * z) = a * sqrt z := by
    have h1 : (sqrt (a * a * z) - a * sqrt z) * (sqrt (a * a * z) + a * sqrt z) = 0 := by
      linear_combination hsY.2 - a * a * hsX.2
    rcases mul_eq_zero.mp h1 with h2 | h2
    · linear_combination h2
    · have := mul_pos ha hspos
      linarith [hsY.1]
  have hcY : (procrustesLocals sqrt jacobiSvd P
      (P.map fun p => (a * p.1 + t.1, a * p.2 + t.2))).centeredY =
      scaleDiv (rowwiseSub P (colwiseMean P)) (sqrt z) := by
    show scaleDiv (rowwiseSub _ (colwiseMean _)) (frobeniusNorm sqrt (rowwiseSub _ _)) = _
    rw [rowwiseSub_affine P a t hne, frobeniusNorm, squaredNorm_scaleMul, ← hz, hsYeq,
      scaleDiv_scaleMul _ _ _ (ne_of_gt ha)]
  refine ⟨hcY, ?_, rfl, rfl, rfl, hs0⟩
  show squaredNorm (scaleDiv (rowwiseSub P (colwiseMean P)) (sqrt z)) = 1
  rw [squaredNorm_scaleDiv, ← hz, hsX.2, div_self hq]

/-- C7. For a shape with two different points, aligned to itself by a `procrustes` whose
square root is exact at the squared centred norm and whose `jacobiSvd` returns a singular
value decomposition of the cross-covariance: the rotation after the reflection correction
is the identity matrix, the scale factor `trace` is `1`, the distance `1 - trace * trace`
is `0`, and the call returns that distance and leaves the shape as it is. -/
theorem procrustes_self_identity (sqrt : K → K) (jacobiSvd : Matrix2 K → JacobiSvd K)
    (P : List (K × K)) (hP : ∃ p ∈ P, ∃ q ∈ P, p ≠ q)
    (hsX : sqrt (squaredNorm (rowwiseSub P (colwiseMean P))) *
        sqrt (squaredNorm (rowwiseSub P (colwiseMean P))) =
        squaredNorm (rowwiseSub P (colwiseMean P)))
    (hsvd : (jacobiSvd (procrustesLocals sqrt jacobiSvd P P).A).IsSvdOf
      (procrustesLocals sqrt jacobiSvd P P).A) :
    (procrustesLocals sqrt jacobiSvd P P).rot = Matrix2.identity ∧
    (procrustesLocals sqrt jacobiSvd P P).trace = 1 ∧
    (procrustesLocals sqrt jacobiSvd P P).d = 0 ∧
    procrustes sqrt jacobiSvd (toInterleaved P) (toInterleaved P) =
      some (0, toInterleaved P) := by
  have hq := squaredNorm_centered_ne_zero P hP
  have hs0 : sqrt (squaredNorm (rowwiseSub P (colwiseMean P))) ≠ 0 := by
    intro h0
    rw [h0] at hsX
    exact hq (by linarith [hsX])
  have hunit : squaredNorm (procrustesLocals sqrt jacobiSvd P P).centeredX = 1 := by
    show squaredNorm (scaleDiv (rowwiseSub P (colwiseMean P))
      (sqrt (squaredNorm (rowwiseSub P (colwiseMean P))))) = 1
    rw [squaredNorm_scaleDiv, hsX, div_self hq]
  obtain ⟨hrot, htrace, hd⟩ :=
    procrustesLocals_same_centered sqrt jacobiSvd P P rfl hunit hsvd
  refine ⟨hrot, htrace, hd, ?_⟩
  have htrans : (procrustesLocals sqrt jacobiSvd P P).transformed = P := by
    rw [ProcrustesLocals.transformed, hrot, htrace]
    exact transformed_identity P _ _ hs0
  simp only [procrustes, toSeparatedView_toInterleaved, if_true, hd, htrans]
  rw [assignSeparatedView_toInterleaved _ _ (toInterleaved_length P)]

/-- C6. For a reference shape with the points `P`, two of them different, a factor
`a > 0` and a translation `t`, `procrustes` applied to the reference and to the target
`a * P + t` returns the distance `0` and overwrites the target with the reference,
provided the square root is exact at the two squared centred norms and `jacobiSvd`
returns a singular value decomposition of the cross-covariance. -/
theorem procrustes_scaled_translated (sqrt : K → K) (jacobiSvd : Matrix2 K → JacobiSvd K)
    (P : List (K × K)) (a : K) (t : K × K) (ha : 0 < a)
    (hP : ∃ p ∈ P, ∃ q ∈ P, p ≠ q)
    (hsX : 0 ≤ sqrt (squaredNorm (rowwiseSub P (colwiseMean P))) ∧
      sqrt (squaredNorm (rowwiseSub P (colwiseMean P))) *
        sqrt (squaredNorm (rowwiseSub P (colwiseMean P))) =
        squaredNorm (rowwiseSub P (colwiseMean P)))
    (hsY : 0 ≤ sqrt (a * a * squaredNorm (rowwiseSub P (colwiseMean P))) ∧
      sqrt (a * a * squaredNorm (rowwiseSub P (colwiseMean P))) *
        sqrt (a * a * squaredNorm (rowwiseSub P (colwiseMean P))) =
        a * a * squaredNorm (rowwiseSub P (colwiseMean P)))
    (hsvd : (jacobiSvd (procrustesLocals sqrt jacobiSvd P
        (P.map fun p => (a * p.1 + t.1, a * p.2 + t.2))).A).IsSvdOf
      (procrustesLocals sqrt jacobiSvd P
        (P.map fun p => (a * p.1 + t.1, a * p.2 + t.2))).A) :
    procrustes sqrt jacobiSvd (toInterleaved P)
      (toInterleaved (P.map fun p => (a * p.1 + t.1, a * p.2 + t.2))) =
      some (0, toInterleaved P) := by
  obtain ⟨hsame, hunit, hcX, hsXeq, hmX, hs0⟩ :=
    procrustesLocals_affine sqrt jacobiSvd P a t ha hP hsX hsY
  obtain ⟨hrot, htrace, hd⟩ :=
    procrustesLocals_same_centered sqrt jacobiSvd P _ hsame hunit hsvd
  have htrans : (procrustesLocals sqrt jacobiSvd P
      (P.map fun p => (a * p.1 + t.1, a * p.2 + t.2))).transformed = P := by
    rw [ProcrustesLocals.transformed, hrot, htrace, hsame, hcX, hsXeq, hmX]
    exact transformed_identity P _ _ hs0
  simp only [procrustes, toSeparatedView_toInterleaved, List.length_map, if_true, hd, htrans]
  rw [assignSeparatedView_toInterleaved _ _ (by rw [toInterleaved_length, List.length_map])]

end Similarity

/-! ## `rasterizeShape` enumerates -/

section RasterizeFacts

variable {K : Type} [LinearOrderedField K] [FloorRing K]

theorem forLoop_append {β : Type} (f : Nat → List β) (body : Nat → List β → List β)
    (hbody : ∀ i s, body i s = s ++ f i) (n start : Nat) (s : List β) :
    forLoop body n start s = s ++ (List.range' start n).flatMap f := by
  induction n generalizing start s with
  | zero => simp [forLoop]
  | succ n ih =>
    rw [forLoop, ih, hbody, List.range'_succ, List.flatMap_cons, List.append_assoc]

theorem forLoopOpt_append {β : Type} (g : Nat → Option (List β))
    (body : Nat → List β → Option (List β))
    (hbody : ∀ i s, body i s = (g i).map fun l => s ++ l) (n start : Nat) (s : List β) :
    forLoopOpt body n start s =
      if ((List.range' start n).all fun i => (g i).isSome) then
        some (s ++ (List.range' start n).flatMap fun i => (g i).getD [])
      else none := by
  induction n generalizing start s with
  | zero => simp [forLoopOpt]
  | succ n ih =>
    rw [forLoopOpt, hbody]
    cases hg : g start with
    | none => simp [List.range'_succ, hg]
    | some l =>
      simp only [Option.map_some', ih, List.range'_succ, List.all_cons, hg, Option.isSome_some,
        Bool.true_and, List.flatMap_cons, Option.getD_some, List.append_assoc]

theorem rasterizePixel_eq (pt : ParametrizedTriangle K) (tri y x : Nat)
    (coords : List (K × K × K)) :
    rasterizePixel pt tri y x coords = coords ++ (sampleAt pt tri y x).toList := by
  simp only [rasterizePixel, sampleAt]
  split_ifs <;> simp

theorem flatMap_toList {α β : Type} (l : List α) (f : α → Option β) :
    (l.flatMap fun a => (f a).toList) = l.filterMap f := by
  induction l with
  | nil => rfl
  | cons a rest ih =>
    simp only [List.flatMap_cons, List.filterMap_cons, ih]
    cases f a <;> rfl

theorem rasterizeTriangle_eq (pt : ParametrizedTriangle K) (tri imageWidth imageHeight : Nat)
    (coords : List (K × K × K)) :
    rasterizeTriangle pt tri imageWidth imageHeight coords =
      coords ++ (List.range imageHeight).flatMap fun y =>
        (List.range imageWidth).filterMap fun x => sampleAt pt tri y x := by
  rw [rasterizeTriangle]
  rw [forLoop_append (fun y => (List.range imageWidth).filterMap fun x => sampleAt pt tri y x)]
  · simp only [List.range_eq_range']
  · intro y s
    rw [forLoop_append (fun x => (sampleAt pt tri y x).toList) _
      (fun x s => rasterizePixel_eq pt tri y x s), flatMap_toList, List.range_eq_range']

theorem filterMap_visitOrder (f : Nat × Nat × Nat → Option (K × K × K))
    (nTriangles width height : Nat) :
    (visitOrder nTriangles width height).filterMap f =
      (List.range nTriangles).flatMap fun tri =>
        (List.range height).flatMap fun y =>
          (List.range width).filterMap fun x => f (tri, y, x) := by
  simp only [visitOrder, List.filterMap_flatMap, List.filterMap_map]
  rfl

/-- The list that `rasterizeShape` returns, and when it returns one. -/
theorem rasterizeShape_eq (pointsInterleaved : List K) (triangleIds : List Int)
    (imageWidth imageHeight : Int) (shapeScale : K) :
    rasterizeShape pointsInterleaved triangleIds imageWidth imageHeight shapeScale =
      if trianglesValid (scaleMul (fromInterleaved pointsInterleaved) shapeScale) triangleIds
      then
        some ((visitOrder (triangleIds.length / 3) imageWidth.toNat imageHeight.toNat).filterMap
          (visitSample (scaleMul (fromInterleaved pointsInterleaved) shapeScale) triangleIds))
      else none := by
  rw [rasterizeShape]
  rw [forLoopOpt_append (fun tri =>
    (rasterTriangle (scaleMul (fromInterleaved pointsInterleaved) shapeScale) triangleIds
      tri).map fun pt => (List.range imageHeight.toNat).flatMap fun y =>
        (List.range imageWidth.toNat).filterMap fun x => sampleAt pt tri y x)]
  · rw [← List.range_eq_range', filterMap_visitOrder, trianglesValid]
    simp only [Option.isSome_map', List.nil_append]
    congr 2
    apply List.flatMap_congr  
    intro tri _
    simp only [visitSample]
    cases rasterTriangle (scaleMul (fromInterleaved pointsInterleaved) shapeScale)
      triangleIds tri with
    | none => simp
    | some pt => simp
  · intro tri s
    cases rasterTriangle (scaleMul (fromInterleaved pointsInterleaved) shapeScale)
      triangleIds tri with
    | none => rfl
    | some pt => simp [rasterizeTriangle_eq]

theorem truncToIndex_natCast (n : Nat) : truncToIndex (n : K) = (n : Int) := by
  simp only [truncToIndex, Nat.cast_nonneg, if_true, Int.floor_natCast]

/-- The inside-test passes exactly the pairs of numbers `u`, `v` with `0 ≤ u`, `0 ≤ v` and
`u + v ≤ 1`: a pair with an infinity or NaN in it fails one of the three comparisons. -/
theorem isBaryInside_iff (pt : ParametrizedTriangle K) (bary : BaryCoord K × BaryCoord K) :
    pt.isBaryInside bary = true ↔
      ∃ u v, bary = (BaryCoord.finite u, BaryCoord.finite v) ∧
        0 ≤ u ∧ 0 ≤ v ∧ u + v ≤ 1 := by
  obtain ⟨a, b⟩ := bary
  cases a <;> cases b <;>
    simp [ParametrizedTriangle.isBaryInside, BaryCoord.le, BaryCoord.add, and_assoc]

theorem sampleAt_some (pt : ParametrizedTriangle K) (tri y x : Nat) (row : K × K × K)
    (h : sampleAt pt tri y x = some row) :
    row.1 = (tri : K) ∧ 0 ≤ row.2.1 ∧ 0 ≤ row.2.2 ∧ row.2.1 + row.2.2 ≤ 1 ∧
      pt.baryAt ((x : K) + 1 / 2, (y : K) + 1 / 2) =
        (BaryCoord.finite row.2.1, BaryCoord.finite row.2.2) := by
  simp only [sampleAt] at h
  split_ifs at h with hin
  simp only [Option.some.injEq] at h
  subst h
  obtain ⟨u, v, hb, hu, hv, huv⟩ := (isBaryInside_iff pt _).mp hin
  rw [hb]
  exact ⟨rfl, hu, hv, huv, rfl⟩

theorem mem_visitOrder (nTriangles width height : Nat) (e : Nat × Nat × Nat) :
    e ∈ visitOrder nTriangles width height ↔
      e.1 < nTriangles ∧ e.2.1 < height ∧ e.2.2 < width := by
  obtain ⟨tri, y, x⟩ := e
  simp only [visitOrder, List.mem_flatMap, List.mem_range, List.mem_map, Prod.mk.injEq]
  constructor
  · rintro ⟨a, ha, b, hb, c, hc, rfl, rfl, rfl⟩
    exact ⟨ha, hb, hc⟩
  · rintro ⟨ha, hb, hc⟩
    exact ⟨tri, ha, y, hb, x, hc, rfl, rfl, rfl⟩

theorem visitOrder_length (nTriangles width height : Nat) :
    (visitOrder nTriangles width height).length = nTriangles * width * height := by
  have inner : ∀ tri : Nat, ((List.range height).flatMap fun y =>
      (List.range width).map fun x => (tri, y, x)).length = width * height := by
    intro tri
    induction height with
    | zero => simp
    | succ h ih =>
      rw [List.range_succ, List.flatMap_append, List.length_append, ih]
      simp [Nat.mul_succ]
  simp only [visitOrder]
  induction nTriangles with
  | zero => simp
  | succ n ih =>
    rw [List.range_succ, List.flatMap_append, List.length_append, ih]
    simp only [List.flatMap_cons, List.flatMap_nil, List.append_nil, inner]
    ring

theorem visitOrder_pairwise (nTriangles width height : Nat) :
    (visitOrder nTriangles width height).Pairwise fun e e' => e.1 ≤ e'.1 := by
  simp only [visitOrder]
  rw [List.pairwise_flatMap]
  constructor
  · intro tri _
    rw [List.pairwise_iff_forall_sublist]
    intro a b hab
    have ha : a ∈ (List.range height).flatMap fun y =>
        (List.range width).map fun x => (tri, y, x) := hab.subset (List.mem_cons_self _ _)
    have hb : b ∈ (List.range height).flatMap fun y =>
        (List.range width).map fun x => (tri, y, x) :=
      hab.subset (List.mem_cons_of_mem _ (List.mem_cons_self _ _))
    simp only [List.mem_flatMap, List.mem_map] at ha hb
    obtain ⟨_, _, _, _, rfl⟩ := ha
    obtain ⟨_, _, _, _, rfl⟩ := hb
    exact le_refl _
  · refine List.Pairwise.imp ?_ (List.pairwise_lt_range nTriangles)
    intro a b hab e he e' he'
    simp only [List.mem_flatMap, List.mem_map] at he he'
    obtain ⟨_, _, _, _, rfl⟩ := he
    obtain ⟨_, _, _, _, rfl⟩ := he'
    exact le_of_lt hab

theorem visitSample_some (points : List (K × K)) (triangleIds : List Int)
    (e : Nat × Nat × Nat) (row : K × K × K) (h : visitSample points triangleIds e = some row) :
    ∃ pt, rasterTriangle points triangleIds e.1 = some pt ∧
      sampleAt pt e.1 e.2.1 e.2.2 = some row := by
  simp only [visitSample] at h
  cases ht : rasterTriangle points triangleIds e.1 with
  | none => rw [ht] at h; simp at h
  | some pt => rw [ht] at h; exact ⟨pt, rfl, h⟩

theorem countP_range_single (n a : Nat) (ha : a < n) (q : Nat → Bool)
    (hq : ∀ i, i ≠ a → q i = false) :
    (List.range n).countP q = if q a then 1 else 0 := by
  induction n with
  | zero => omega
  | succ n ih =>
    rw [List.range_succ, List.countP_append]
    by_cases han : a = n
    · subst han
      have h0 : (List.range a).countP q = 0 := by
        rw [List.countP_eq_zero]
        intro i hi
        rw [hq i (by rw [List.mem_range] at hi; omega)]
        simp
      rw [h0]
      by_cases hqa : q a <;> simp [hqa]
    · rw [ih (by omega)]
      have : q n = false := hq n (fun h => han h.symm)
      simp [this]

theorem countP_flatMap_range_single {α : Type} (n a : Nat) (ha : a < n) (f : Nat → List α)
    (p : α → Bool) (hp : ∀ i, i ≠ a → (f i).countP p = 0) :
    ((List.range n).flatMap f).countP p = (f a).countP p := by
  induction n with
  | zero => omega
  | succ n ih =>
    rw [List.range_succ, List.flatMap_append, List.countP_append]
    simp only [List.flatMap_cons, List.flatMap_nil, List.append_nil]
    by_cases han : a = n
    · subst han
      have h0 : ((List.range a).flatMap f).countP p = 0 := by
        rw [List.countP_eq_zero]
        intro x hx
        rw [List.mem_flatMap] at hx
        obtain ⟨i, hi, hxi⟩ := hx
        have := hp i (by rw [List.mem_range] at hi; omega)
        rw [List.countP_eq_zero] at this
        exact this x hxi
      rw [h0, Nat.zero_add]
    · rw [ih (by omega), hp n (fun h => han h.symm), Nat.add_zero]

theorem sum_map_indicator {α : Type} (l : List α) (q : α → Bool) :
    (l.map fun a => if q a then 1 else 0).sum = l.countP q := by
  induction l with
  | nil => rfl
  | cons a rest ih =>
    rw [List.map_cons, List.sum_cons, ih, List.countP_cons]
    by_cases h : q a <;> simp [h]; omega

/-- Among the visits, the ones of the pixel `(y, x)` that satisfy `g` are as many as the
triangles whose visit of that pixel satisfies `g`. -/
theorem countP_visitOrder (nTriangles width height y x : Nat) (hy : y < height)
    (hx : x < width) (g : Nat × Nat × Nat → Bool) :
    (visitOrder nTriangles width height).countP
        (fun e => decide (e.2 = (y, x)) && g e) =
      (List.range nTriangles).countP fun tri => g (tri, y, x) := by
  simp only [visitOrder]
  rw [List.countP_flatMap, ← sum_map_indicator]
  congr 1
  apply List.map_congr_left
  intro tri _
  simp only [Function.comp_apply]
  rw [countP_flatMap_range_single height y hy]
  · rw [List.countP_map, countP_range_single width x hx]
    · simp
    · intro i hi
      simp [hi]
  · intro i hi
    rw [List.countP_eq_zero]
    intro e he
    rw [List.mem_map] at he
    obtain ⟨_, _, rfl⟩ := he
    simp [hi]

/-- C3. Every row `(t, u, v)` of the matrix that `rasterizeShape` returns has `u ≥ 0`,
`v ≥ 0` and `u + v ≤ 1`, and `t` is the index of a triple of the triangulation: a natural
number below `triangleIds.size() / 3`, which is also what the conversion to an integer
gives back. -/
theorem rasterizeShape_rows_inside (pointsInterleaved : List K) (triangleIds : List Int)
    (imageWidth imageHeight : Int) (shapeScale : K) (rows : List (K × K × K))
    (h : rasterizeShape pointsInterleaved triangleIds imageWidth imageHeight shapeScale =
      some rows)
    (row : K × K × K) (hrow : row ∈ rows) :
    0 ≤ row.2.1 ∧ 0 ≤ row.2.2 ∧ row.2.1 + row.2.2 ≤ 1 ∧
    ∃ tri : Nat, row.1 = (tri : K) ∧ tri < triangleIds.length / 3 ∧
      truncToIndex row.1 = (tri : Int) := by
  rw [rasterizeShape_eq] at h
  split_ifs at h with hv
  simp only [Option.some.injEq] at h
  subst h
  rw [List.mem_filterMap] at hrow
  obtain ⟨e, he, hes⟩ := hrow
  obtain ⟨pt, _, hs⟩ := visitSample_some _ _ e row hes
  obtain ⟨h1, h2, h3, h4, _⟩ := sampleAt_some pt _ _ _ row hs
  rw [mem_visitOrder] at he
  exact ⟨h2, h3, h4, e.1, h1, he.1, by rw [h1]; exact truncToIndex_natCast e.1⟩

/-- C4. When every index triple of the triangulation names rows of the point matrix,
`rasterizeShape` returns exactly the samples of the visits `(tri, y, x)` in the order
triangle, then row, then column, keeping `(tri, baryAt(x + 0.5, y + 0.5))` for the visits
that pass `isBaryInside`; otherwise it returns nothing. Hence in a returned matrix the
triangle ids never decrease, there are at most `nTriangles * width * height` rows, and
the kept visits of a pixel are as many as the triangles that cover it. -/
theorem rasterizeShape_enumerates (pointsInterleaved : List K) (triangleIds : List Int)
    (imageWidth imageHeight : Int) (shapeScale : K) :
    rasterizeShape pointsInterleaved triangleIds imageWidth imageHeight shapeScale =
      (if trianglesValid (scaleMul (fromInterleaved pointsInterleaved) shapeScale) triangleIds
      then
        some ((visitOrder (triangleIds.length / 3) imageWidth.toNat imageHeight.toNat).filterMap
          (visitSample (scaleMul (fromInterleaved pointsInterleaved) shapeScale) triangleIds))
      else none) ∧
    ∀ rows, rasterizeShape pointsInterleaved triangleIds imageWidth imageHeight shapeScale =
        some rows →
      rows.Pairwise (fun a b => a.1 ≤ b.1) ∧
      rows.length ≤ triangleIds.length / 3 * imageWidth.toNat * imageHeight.toNat ∧
      ∀ y x, y < imageHeight.toNat → x < imageWidth.toNat →
        (visitOrder (triangleIds.length / 3) imageWidth.toNat imageHeight.toNat).countP
          (fun e => decide (e.2 = (y, x)) &&
            (visitSample (scaleMul (fromInterleaved pointsInterleaved) shapeScale)
              triangleIds e).isSome) =
        (List.range (triangleIds.length / 3)).countP fun tri =>
          (visitSample (scaleMul (fromInterleaved pointsInterleaved) shapeScale)
            triangleIds (tri, y, x)).isSome := by
  refine ⟨rasterizeShape_eq _ _ _ _ _, ?_⟩
  intro rows h
  rw [rasterizeShape_eq] at h
  split_ifs at h with hv
  simp only [Option.some.injEq] at h
  subst h
  refine ⟨?_, ?_, ?_⟩
  · refine List.Pairwise.filterMap _ ?_ (visitOrder_pairwise _ _ _)
    intro e e' hee b hb b' hb'
    obtain ⟨pt, _, hs⟩ := visitSample_some _ _ e b hb
    obtain ⟨pt', _, hs'⟩ := visitSample_some _ _ e' b' hb'
    rw [(sampleAt_some pt _ _ _ b hs).1, (sampleAt_some pt' _ _ _ b' hs').1]
    exact_mod_cast hee
  · rw [← visitOrder_length]
    exact List.length_filterMap_le _ _
  · intro y x hy hx
    exact countP_visitOrder _ _ _ y x hy hx _

end RasterizeFacts

/-! ## `writeShapeImage` -/

section WriteFacts

variable {K : Type} [LinearOrderedField K] [FloorRing K] {C : Type}

theorem sampleTriangle_neg (points : List K) (triangleIds : List Int) (triId : Int)
    (h : triId < 0) : sampleTriangle points triangleIds triId = none := by
  have h0 : coeffAt triangleIds (triId * 3 + 0) = none := by
    simp only [coeffAt]
    rw [if_neg (by omega)]
  simp only [sampleTriangle, h0, Option.none_bind]

/-- The cache holds the triangle in use for its id; one step of the loop keeps it so and
selects the triangle in use for the id of the sample. -/
theorem updateCache_inv (pt0 : ParametrizedTriangle K) (points : List K)
    (triangleIds : List Int) (cache cache' : Int × ParametrizedTriangle K) (triId : Int)
    (hinv : triangleInUse pt0 points triangleIds cache.1 = some cache.2)
    (h : updateCache points triangleIds cache triId = some cache') :
    triangleInUse pt0 points triangleIds cache'.1 = some cache'.2 ∧
    triangleInUse pt0 points triangleIds triId = some cache'.2 := by
  simp only [updateCache] at h
  split_ifs at h with hne
  · cases ht : sampleTriangle points triangleIds triId with
    | none => rw [ht] at h; simp at h
    | some pt =>
      rw [ht] at h
      simp only [Option.some.injEq] at h
      subst h
      have hid : triId ≠ -1 := by
        intro hm1
        rw [sampleTriangle_neg points triangleIds triId (by omega)] at ht
        simp at ht
      simp only [triangleInUse, hid, if_false, ht, and_self]
  · simp only [Option.some.injEq] at h
    subst h
    simp only [ne_eq, not_not] at hne
    exact ⟨hinv, by rw [hne]; exact hinv⟩

theorem cvSet2D_some (dst dst' : Image C) (idx0 idx1 : Int) (value : C)
    (h : cvSet2D dst idx0 idx1 value = some dst') :
    dst'.rows = dst.rows ∧ dst'.cols = dst.cols ∧
    ∀ r c : Nat, dst'.px r c =
      if (r : Int) = idx0 ∧ (c : Int) = idx1 then value else dst.px r c := by
  simp only [cvSet2D] at h
  split_ifs at h with hin
  simp only [Option.some.injEq] at h
  subst h
  refine ⟨rfl, rfl, ?_⟩
  intro r c
  simp only
  have e1 : (r = idx0.toNat) ↔ ((r : Int) = idx0) := by omega
  have e2 : (c = idx1.toNat) ↔ ((c : Int) = idx1) := by omega
  simp only [e1, e2]

theorem inExtent_congr (dst dst' : Image C) (hr : dst'.rows = dst.rows)
    (hc : dst'.cols = dst.cols) (pi : Int × Int) : inExtent dst' pi = inExtent dst pi := by
  simp only [inExtent, hr, hc]

/-- What the loop of `writeShapeImage` leaves in the destination. -/
theorem writeLoop_spec (pt0 : ParametrizedTriangle K) (points : List K)
    (triangleIds : List Int) (colors : Image C) (samples : List (K × K × K)) :
    ∀ (i : Nat) (cache : Int × ParametrizedTriangle K) (dst dst' : Image C),
      triangleInUse pt0 points triangleIds cache.1 = some cache.2 →
      writeLoop points triangleIds colors samples i cache dst = some dst' →
      dst'.rows = dst.rows ∧ dst'.cols = dst.cols ∧
      ∀ r c : Nat,
        ((∀ rb ∈ samples, ¬ (samplePixel pt0 points triangleIds rb = some ((c : Int), (r : Int)) ∧
            inExtent dst ((c : Int), (r : Int)) = true)) →
          dst'.px r c = dst.px r c) ∧
        ∀ j (hj : j < samples.length),
          samplePixel pt0 points triangleIds (samples.get ⟨j, hj⟩) = some ((c : Int), (r : Int)) →
          inExtent dst ((c : Int), (r : Int)) = true →
          (∀ k (hk : k < samples.length), j < k →
            samplePixel pt0 points triangleIds (samples.get ⟨k, hk⟩) ≠
              some ((c : Int), (r : Int))) →
          cvGet2D colors ((i + j : Nat) : Int) 0 = some (dst'.px r c) := by
  induction samples with
  | nil =>
    intro i cache dst dst' _ h
    simp only [writeLoop, Option.some.injEq] at h
    subst h
    refine ⟨rfl, rfl, fun r c => ⟨fun _ => rfl, fun j hj => ?_⟩⟩
    simp at hj
  | cons rb rest ih =>
    intro i cache dst dst' hinv h
    rw [writeLoop] at h
    cases hu : updateCache points triangleIds cache (truncToIndex rb.1) with
    | none => rw [hu] at h; simp at h
    | some cache1 =>
      rw [hu] at h
      simp only at h
      obtain ⟨hinv1, huse⟩ := updateCache_inv pt0 points triangleIds cache cache1 _ hinv hu
      have hpix : samplePixel pt0 points triangleIds rb =
          some (pixelIndex (cache1.2.pointAt (rb.2.1, rb.2.2))) := by
        simp only [samplePixel, huse, Option.map_some']
      by_cases hin : inExtent dst (pixelIndex (cache1.2.pointAt (rb.2.1, rb.2.2))) = true
      · rw [if_pos hin] at h
        cases hg : cvGet2D colors (i : Int) 0 with
        | none => rw [hg] at h; simp at h
        | some color =>
          rw [hg] at h
          simp only at h
          cases hs : cvSet2D dst (pixelIndex (cache1.2.pointAt (rb.2.1, rb.2.2))).2
              (pixelIndex (cache1.2.pointAt (rb.2.1, rb.2.2))).1 color with
          | none => rw [hs] at h; simp at h
          | some dst1 =>
            rw [hs] at h
            simp only at h
            obtain ⟨hr1, hc1, hpx1⟩ := cvSet2D_some dst dst1 _ _ color hs
            obtain ⟨hr, hc, hrest⟩ := ih (i + 1) cache1 dst1 dst' hinv1 h
            refine ⟨hr.trans hr1, hc.trans hc1, ?_⟩
            intro r c
            obtain ⟨hframe, hlast⟩ := hrest r c
            have hext : ∀ pi, inExtent dst1 pi = inExtent dst pi :=
              inExtent_congr dst dst1 hr1 hc1
            constructor
            · intro hno
              rw [hframe (fun rb' hrb' => by
                rw [hext]; exact hno rb' (List.mem_cons_of_mem _ hrb'))]
              rw [hpx1 r c, if_neg]
              rintro ⟨e1, e2⟩
              apply hno rb (List.mem_cons_self _ _)
              have hpi : pixelIndex (cache1.2.pointAt (rb.2.1, rb.2.2)) = ((c : Int), (r : Int)) :=
                Prod.ext e2.symm e1.symm
              rw [hpi] at hin
              rw [hpix, hpi]
              exact ⟨rfl, hin⟩
            · intro j hj hjp hjin hafter
              cases j with
              | zero =>
                simp only [List.get_eq_getElem, List.getElem_cons_zero] at hjp
                rw [hpix, Option.some.injEq] at hjp
                have hkeep : dst'.px r c = dst1.px r c := by
                  apply hframe
                  intro rb' hrb'
                  obtain ⟨k, hk, rfl⟩ := List.getElem_of_mem hrb'
                  intro hcon
                  exact hafter (k + 1) (by simp only [List.length_cons]; omega) (by omega)
                    (by simpa using hcon.1)
                rw [hkeep, hpx1 r c, if_pos]
                · simpa using hg
                · rw [hjp]; exact ⟨rfl, rfl⟩
              | succ j =>
                have hj' : j < rest.length := by simpa using hj
                have := hlast j hj' (by simpa using hjp) (by rw [hext]; exact hjin)
                  (fun k hk hjk => by
                    have := hafter (k + 1) (by simp only [List.length_cons]; omega) (by omega)
                    simpa using this)
                rw [← this]
                congr 2
                omega
      · rw [if_neg hin] at h
        obtain ⟨hr, hc, hrest⟩ := ih (i + 1) cache1 dst dst' hinv1 h
        refine ⟨hr, hc, ?_⟩
        intro r c
        obtain ⟨hframe, hlast⟩ := hrest r c
        constructor
        · intro hno
          exact hframe fun rb' hrb' => hno rb' (List.mem_cons_of_mem _ hrb')
        · intro j hj hjp hjin hafter
          cases j with
          | zero =>
            simp only [List.get_eq_getElem, List.getElem_cons_zero] at hjp
            rw [hpix, Option.some.injEq] at hjp
            rw [hjp] at hin
            exact absurd hjin hin
          | succ j =>
            have hj' : j < rest.length := by simpa using hj
            have := hlast j hj' (by simpa using hjp) hjin
              (fun k hk hjk => by
                have := hafter (k + 1) (by simp only [List.length_cons]; omega) (by omega)
                simpa using this)
            rw [← this]
            congr 2
            omega

theorem writeLoop_isSome (points : List K) (triangleIds : List Int) (colors : Image C)
    (samples : List (K × K × K)) :
    ∀ (i : Nat) (cache : Int × ParametrizedTriangle K) (dst : Image C),
      (∀ rb ∈ samples, (sampleTriangle points triangleIds (truncToIndex rb.1)).isSome) →
      i + samples.length ≤ colors.rows → 1 ≤ colors.cols →
      ∃ dst', writeLoop points triangleIds colors samples i cache dst = some dst' := by
  induction samples with
  | nil => intro i cache dst _ _ _; exact ⟨dst, rfl⟩
  | cons rb rest ih =>
    intro i cache dst hval hrows hcols
    simp only [List.length_cons] at hrows
    have hrest : ∀ rb' ∈ rest,
        (sampleTriangle points triangleIds (truncToIndex rb'.1)).isSome :=
      fun rb' h => hval rb' (List.mem_cons_of_mem _ h)
    obtain ⟨cache1, hu⟩ : ∃ cache1,
        updateCache points triangleIds cache (truncToIndex rb.1) = some cache1 := by
      simp only [updateCache]
      split_ifs with hne
      · obtain ⟨pt, hpt⟩ := Option.isSome_iff_exists.mp (hval rb (List.mem_cons_self _ _))
        exact ⟨_, by rw [hpt]⟩
      · exact ⟨_, rfl⟩
    rw [writeLoop, hu]
    simp only
    split_ifs with hin
    · have hg : cvGet2D colors (i : Int) 0 = some (colors.px i 0) := by
        simp only [cvGet2D]
        rw [if_pos (by omega)]
        simp
      rw [hg]
      simp only
      simp only [inExtent, decide_eq_true_eq] at hin
      obtain ⟨dst1, hs⟩ : ∃ dst1, cvSet2D dst (pixelIndex (cache1.2.pointAt (rb.2.1, rb.2.2))).2
          (pixelIndex (cache1.2.pointAt (rb.2.1, rb.2.2))).1 (colors.px i 0) = some dst1 := by
        simp only [cvSet2D]
        rw [if_pos ⟨hin.2.1, hin.2.2.2, hin.1, hin.2.2.1⟩]
        exact ⟨_, rfl⟩
      rw [hs]
      exact ih (i + 1) cache1 dst1 hrest (by omega) hcols
    · exact ih (i + 1) cache1 dst hrest (by omega) hcols

theorem writeShapeImage_isSome (pt0 : ParametrizedTriangle K) (normalizedShape : List K)
    (triangleIds : List Int) (samples : List (K × K × K)) (shapeScale : K)
    (colors dst : Image C)
    (hval : ∀ rb ∈ samples, (sampleTriangle (normalizedShape.map fun x => x * shapeScale)
      triangleIds (truncToIndex rb.1)).isSome)
    (hrows : samples.length ≤ colors.rows) (hcols : 1 ≤ colors.cols) :
    ∃ dst', writeShapeImage pt0 normalizedShape triangleIds samples shapeScale colors dst =
      some dst' := by
  simp only [writeShapeImage]
  exact writeLoop_isSome _ _ _ _ 0 _ _ hval (by omega) hcols

/-- C8. `writeShapeImage` does not fail because of where the samples land: it returns a
destination whenever every sample names a triangle of the triangulation and the colour
buffer has a row for every sample. The returned destination has the extent of the given
one, and every pixel that is not the pixel position `trunc(pointAt(u, v) - 0.5)`, inside
the extent, of some sample holds its original value. Samples whose pixel position has a
negative coordinate or lies at or beyond the width or the height write nothing: when all
samples are such, and in particular when there are none, the destination is returned as
it is. -/
theorem writeShapeImage_frame (pt0 : ParametrizedTriangle K) (normalizedShape : List K)
    (triangleIds : List Int) (samples : List (K × K × K)) (shapeScale : K)
    (colors dst : Image C) :
    ((∀ rb ∈ samples, (sampleTriangle (normalizedShape.map fun x => x * shapeScale)
        triangleIds (truncToIndex rb.1)).isSome) →
      samples.length ≤ colors.rows → 1 ≤ colors.cols →
      ∃ dst', writeShapeImage pt0 normalizedShape triangleIds samples shapeScale colors dst =
        some dst') ∧
    (∀ dst', writeShapeImage pt0 normalizedShape triangleIds samples shapeScale colors dst =
        some dst' →
      dst'.rows = dst.rows ∧ dst'.cols = dst.cols ∧
      ∀ r c : Nat,
        (∀ rb ∈ samples,
          ¬ (samplePixel pt0 (normalizedShape.map fun x => x * shapeScale) triangleIds rb =
              some ((c : Int), (r : Int)) ∧
            inExtent dst ((c : Int), (r : Int)) = true)) →
        dst'.px r c = dst.px r c) ∧
    ((∀ rb ∈ samples, ∀ pi,
        samplePixel pt0 (normalizedShape.map fun x => x * shapeScale) triangleIds rb =
          some pi → inExtent dst pi = false) →
      ∀ dst', writeShapeImage pt0 normalizedShape triangleIds samples shapeScale colors dst =
        some dst' → dst' = dst) ∧
    writeShapeImage pt0 normalizedShape triangleIds [] shapeScale colors dst = some dst := by
  have hspec : ∀ dst', writeShapeImage pt0 normalizedShape triangleIds samples shapeScale
      colors dst = some dst' →
      dst'.rows = dst.rows ∧ dst'.cols = dst.cols ∧
      ∀ r c : Nat,
        (∀ rb ∈ samples,
          ¬ (samplePixel pt0 (normalizedShape.map fun x => x * shapeScale) triangleIds rb =
              some ((c : Int), (r : Int)) ∧
            inExtent dst ((c : Int), (r : Int)) = true)) →
        dst'.px r c = dst.px r c := by
    intro dst' h
    obtain ⟨hr, hc, hpx⟩ := writeLoop_spec pt0 _ triangleIds colors samples 0 (-1, pt0) dst dst'
      (by simp [triangleInUse]) h
    exact ⟨hr, hc, fun r c => (hpx r c).1⟩
  refine ⟨?_, hspec, ?_, rfl⟩
  · intro hval hrows hcols
    exact writeShapeImage_isSome pt0 normalizedShape triangleIds samples shapeScale colors dst
      hval hrows hcols
  · intro hout dst' h
    obtain ⟨hr, hc, hpx⟩ := hspec dst' h
    have hall : dst'.px = dst.px := by
      funext r c
      apply hpx r c
      rintro rb hrb ⟨hp, hin⟩
      rw [hout rb hrb _ hp] at hin
      exact Bool.noConfusion hin
    cases dst'
    cases dst
    simp only at hr hc hall
    subst hr hc hall
    rfl

/-- C9. After `writeShapeImage`, a destination pixel that is the pixel position, inside
the extent, of the sample `j` and of no later sample holds the colour of row `j` of the
colour buffer. -/
theorem writeShapeImage_last_wins (pt0 : ParametrizedTriangle K) (normalizedShape : List K)
    (triangleIds : List Int) (samples : List (K × K × K)) (shapeScale : K)
    (colors dst dst' : Image C)
    (h : writeShapeImage pt0 normalizedShape triangleIds samples shapeScale colors dst =
      some dst')
    (r c j : Nat) (hj : j < samples.length)
    (hpos : samplePixel pt0 (normalizedShape.map fun x => x * shapeScale) triangleIds
      (samples.get ⟨j, hj⟩) = some ((c : Int), (r : Int)))
    (hin : inExtent dst ((c : Int), (r : Int)) = true)
    (hlast : ∀ k (hk : k < samples.length), j < k →
      samplePixel pt0 (normalizedShape.map fun x => x * shapeScale) triangleIds
        (samples.get ⟨k, hk⟩) ≠ some ((c : Int), (r : Int))) :
    cvGet2D colors (j : Int) 0 = some (dst'.px r c) := by
  obtain ⟨_, _, hpx⟩ := writeLoop_spec pt0 _ triangleIds colors samples 0 (-1, pt0) dst dst'
    (by simp [triangleInUse]) h
  have := (hpx r c).2 j hj hpos hin hlast
  simpa using this

end WriteFacts

/-! ## Rasterizing and writing back -/

section RoundTrip

variable {K : Type} [LinearOrderedField K] [FloorRing K] {C : Type}

/-- On a triangle that is not degenerate, `pointAt` undoes `baryAt`. -/
theorem pointAt_baryAt (pt : ParametrizedTriangle K) (p bary : K × K)
    (h : pt.baryAt p = (BaryCoord.finite bary.1, BaryCoord.finite bary.2)) :
    pt.pointAt bary = p := by
  simp only [ParametrizedTriangle.baryAt, BaryCoord.div, Prod.mk.injEq] at h
  obtain ⟨h1, h2⟩ := h
  split_ifs at h1 h2 with hdet
  simp only [BaryCoord.finite.injEq] at h1 h2
  obtain ⟨u, v⟩ := bary
  simp only at h1 h2
  subst h1 h2
  simp only [ParametrizedTriangle.pointAt]
  refine Prod.ext ?_ ?_ <;> simp only <;> field_simp <;> ring

theorem fromInterleaved_map (v : List K) (s : K) :
    scaleMul (fromInterleaved v) s = fromInterleaved (v.map fun x => x * s) := by
  induction v using fromInterleaved.induct with
  | case1 x y rest ih =>
    simp only [fromInterleaved, scaleMul, List.map_cons] at ih ⊢
    rw [ih]
  | case2 v hv =>
    match v, hv with
    | [], _ => simp [fromInterleaved, scaleMul]
    | [_], _ => simp [fromInterleaved, scaleMul]
    | x :: y :: rest, hv => exact absurd rfl (hv x y rest)

theorem fromInterleaved_getElem? (n : Nat) :
    ∀ v : List K, (fromInterleaved v)[n]? =
      (v[2 * n]?).bind fun x => (v[2 * n + 1]?).map fun y => (x, y) := by
  induction n with
  | zero =>
    intro v
    match v with
    | [] => simp [fromInterleaved]
    | [_] => simp [fromInterleaved]
    | x :: y :: rest => simp [fromInterleaved]
  | succ n ih =>
    intro v
    match v with
    | [] => simp [fromInterleaved]
    | [_] => simp [fromInterleaved]
    | x :: y :: rest =>
      have e1 : 2 * (n + 1) = (2 * n + 1) + 1 := by ring
      have e2 : 2 * (n + 1) + 1 = (2 * n + 1 + 1) + 1 := by ring
      rw [e2, e1]
      simp only [fromInterleaved, List.getElem?_cons_succ]
      exact ih rest

/-- Row `i` of the point matrix is the block `segment(2 * i, 2)` of the interleaved row. -/
theorem coeffAt_fromInterleaved (v : List K) (i : Int) :
    coeffAt (fromInterleaved v) i = segment2 v (2 * i) := by
  simp only [coeffAt, segment2]
  by_cases hi : 0 ≤ i
  · have h1 : (0 : Int) ≤ 2 * i := by omega
    have h2 : (0 : Int) ≤ 2 * i + 1 := by omega
    have e1 : (2 * i).toNat = 2 * i.toNat := by omega
    have e2 : (2 * i + 1).toNat = 2 * i.toNat + 1 := by omega
    rw [if_pos hi, if_pos h1, if_pos h2, e1, e2, fromInterleaved_getElem?]
    cases v[2 * i.toNat]? <;> cases v[2 * i.toNat + 1]? <;> rfl
  · have h1 : ¬ (0 : Int) ≤ 2 * i := by omega
    rw [if_neg hi, if_neg h1]

/-- The triangle that `rasterizeShape` builds for `tri` is the triangle that
`writeShapeImage` builds for the id `tri`. -/
theorem rasterTriangle_eq_sampleTriangle (shape : List K) (shapeScale : K)
    (triangleIds : List Int) (tri : Nat) :
    rasterTriangle (scaleMul (fromInterleaved shape) shapeScale) triangleIds tri =
      sampleTriangle (shape.map fun x => x * shapeScale) triangleIds (tri : Int) := by
  simp only [rasterTriangle, sampleTriangle, fromInterleaved_map]
  have e : ∀ o : Option Int,
      o.bind (coeffAt (fromInterleaved (shape.map fun x => x * shapeScale))) =
      o.bind fun i => segment2 (shape.map fun x => x * shapeScale) (2 * i) := by
    intro o
    congr 1
    funext i
    exact coeffAt_fromInterleaved _ i
  rw [e, e, e]

theorem pixelIndex_center (y x : Nat) :
    pixelIndex (((x : K) + 1 / 2, (y : K) + 1 / 2)) = ((x : Int), (y : Int)) := by
  simp only [pixelIndex, add_sub_cancel_right, truncToIndex_natCast]

/-- A sample that `rasterizeShape` keeps for the visit `(tri, y, x)` has the pixel
position `(x, y)` in `writeShapeImage`. -/
theorem samplePixel_visitSample (pt0 : ParametrizedTriangle K) (shape : List K)
    (shapeScale : K) (triangleIds : List Int) (e : Nat × Nat × Nat) (s : K × K × K)
    (h : visitSample (scaleMul (fromInterleaved shape) shapeScale) triangleIds e = some s) :
    ∃ pt, rasterTriangle (scaleMul (fromInterleaved shape) shapeScale) triangleIds e.1 =
        some pt ∧
      pt.baryAt ((e.2.2 : K) + 1 / 2, (e.2.1 : K) + 1 / 2) =
        (BaryCoord.finite s.2.1, BaryCoord.finite s.2.2) ∧
      pt.pointAt (s.2.1, s.2.2) = ((e.2.2 : K) + 1 / 2, (e.2.1 : K) + 1 / 2) ∧
      samplePixel pt0 (shape.map fun x => x * shapeScale) triangleIds s =
        some ((e.2.2 : Int), (e.2.1 : Int)) := by
  obtain ⟨pt, hpt, hs⟩ := visitSample_some _ _ e s h
  obtain ⟨h1, _, _, _, hb⟩ := sampleAt_some pt _ _ _ s hs
  have hp := pointAt_baryAt pt _ _ hb
  refine ⟨pt, hpt, hb, hp, ?_⟩
  have hne : ((e.1 : Nat) : Int) ≠ -1 := by omega
  simp only [samplePixel, h1, truncToIndex_natCast, triangleInUse, hne, if_false]
  rw [← rasterTriangle_eq_sampleTriangle, hpt, Option.map_some', hp, pixelIndex_center]

theorem exists_last_index {α : Type} (P : α → Prop) (l : List α) (h : ∃ a ∈ l, P a) :
    ∃ j, ∃ hj : j < l.length, P (l.get ⟨j, hj⟩) ∧
      ∀ k (hk : k < l.length), j < k → ¬ P (l.get ⟨k, hk⟩) := by
  induction l with
  | nil => obtain ⟨a, ha, _⟩ := h; simp at ha
  | cons a rest ih =>
    by_cases hrest : ∃ b ∈ rest, P b
    · obtain ⟨j, hj, hP, hlast⟩ := ih hrest
      refine ⟨j + 1, by simp only [List.length_cons]; omega, by simpa using hP, ?_⟩
      intro k hk hjk
      obtain ⟨k', rfl⟩ : ∃ k', k = k' + 1 := ⟨k - 1, by omega⟩
      have := hlast k' (by simpa using hk) (by omega)
      simpa using this
    · have ha : P a := by
        obtain ⟨b, hb, hPb⟩ := h
        rcases List.mem_cons.mp hb with rfl | hb'
        · exact hPb
        · exact absurd ⟨b, hb', hPb⟩ hrest
      refine ⟨0, by simp, by simpa using ha, ?_⟩
      intro k hk hjk
      obtain ⟨k', rfl⟩ : ∃ k', k = k' + 1 := ⟨k - 1, by omega⟩
      intro hPk
      apply hrest
      have hk' : k' < rest.length := by simpa using hk
      exact ⟨rest.get ⟨k', hk'⟩, List.get_mem _ _ _, by simpa using hPk⟩

/-- C10. Let `samples` be what `rasterizeShape` returns and let the destination be at
least as wide and as high as the raster. Every sample comes from a visit `(tri, y, x)` of
the raster; `pointAt` of its barycentric coordinates is the pixel centre
`(x + 0.5, y + 0.5)` again, and its pixel position in `writeShapeImage` (same shape,
triangulation and scale) is column `x`, row `y`, inside the destination. So the pixel
positions of the samples are exactly the pixels that produced a sample; `writeShapeImage`
returns a destination when the colour buffer has a row for every sample, leaves all other
pixels as they were, and puts at each such pixel the colour of a sample produced by that
pixel. -/
theorem rasterize_write_roundtrip (pt0 : ParametrizedTriangle K) (shape : List K)
    (triangleIds : List Int) (imageWidth imageHeight : Int) (shapeScale : K)
    (colors dst : Image C) (samples : List (K × K × K))
    (hras : rasterizeShape shape triangleIds imageWidth imageHeight shapeScale = some samples)
    (hw : imageWidth.toNat ≤ dst.cols) (hh : imageHeight.toNat ≤ dst.rows) :
    (∀ s ∈ samples, ∃ tri y x pt,
      tri < triangleIds.length / 3 ∧ y < imageHeight.toNat ∧ x < imageWidth.toNat ∧
      rasterTriangle (scaleMul (fromInterleaved shape) shapeScale) triangleIds tri = some pt ∧
      s.1 = (tri : K) ∧
      pt.baryAt ((x : K) + 1 / 2, (y : K) + 1 / 2) =
        (BaryCoord.finite s.2.1, BaryCoord.finite s.2.2) ∧
      pt.pointAt (s.2.1, s.2.2) = ((x : K) + 1 / 2, (y : K) + 1 / 2) ∧
      samplePixel pt0 (shape.map fun x => x * shapeScale) triangleIds s =
        some ((x : Int), (y : Int)) ∧
      inExtent dst ((x : Int), (y : Int)) = true) ∧
    (∀ r c : Nat,
      (∃ s ∈ samples,
        samplePixel pt0 (shape.map fun x => x * shapeScale) triangleIds s =
          some ((c : Int), (r : Int)) ∧ inExtent dst ((c : Int), (r : Int)) = true) ↔
      (r < imageHeight.toNat ∧ c < imageWidth.toNat ∧ ∃ tri, tri < triangleIds.length / 3 ∧
        (visitSample (scaleMul (fromInterleaved shape) shapeScale) triangleIds
          (tri, r, c)).isSome = true)) ∧
    (samples.length ≤ colors.rows → 1 ≤ colors.cols →
      ∃ dst', writeShapeImage pt0 shape triangleIds samples shapeScale colors dst =
        some dst') ∧
    (∀ dst', writeShapeImage pt0 shape triangleIds samples shapeScale colors dst = some dst' →
      ∀ r c : Nat,
        (¬ (r < imageHeight.toNat ∧ c < imageWidth.toNat ∧
            ∃ tri, tri < triangleIds.length / 3 ∧
              (visitSample (scaleMul (fromInterleaved shape) shapeScale) triangleIds
                (tri, r, c)).isSome = true) →
          dst'.px r c = dst.px r c) ∧
        ((r < imageHeight.toNat ∧ c < imageWidth.toNat ∧
            ∃ tri, tri < triangleIds.length / 3 ∧
              (visitSample (scaleMul (fromInterleaved shape) shapeScale) triangleIds
                (tri, r, c)).isSome = true) →
          ∃ j, ∃ hj : j < samples.length,
            samplePixel pt0 (shape.map fun x => x * shapeScale) triangleIds
              (samples.get ⟨j, hj⟩) = some ((c : Int), (r : Int)) ∧
            cvGet2D colors (j : Int) 0 = some (dst'.px r c))) := by
  rw [rasterizeShape_eq] at hras
  split_ifs at hras with hv
  simp only [Option.some.injEq] at hras
  subst hras
  have hext : ∀ y x : Nat, y < imageHeight.toNat → x < imageWidth.toNat →
      inExtent dst ((x : Int), (y : Int)) = true := by
    intro y x hy hx
    simp only [inExtent, decide_eq_true_eq]
    omega
  have hfrom : ∀ s ∈ (visitOrder (triangleIds.length / 3) imageWidth.toNat
      imageHeight.toNat).filterMap
        (visitSample (scaleMul (fromInterleaved shape) shapeScale) triangleIds),
      ∃ tri y x pt,
      tri < triangleIds.length / 3 ∧ y < imageHeight.toNat ∧ x < imageWidth.toNat ∧
      rasterTriangle (scaleMul (fromInterleaved shape) shapeScale) triangleIds tri = some pt ∧
      s.1 = (tri : K) ∧
      pt.baryAt ((x : K) + 1 / 2, (y : K) + 1 / 2) =
        (BaryCoord.finite s.2.1, BaryCoord.finite s.2.2) ∧
      pt.pointAt (s.2.1, s.2.2) = ((x : K) + 1 / 2, (y : K) + 1 / 2) ∧
      samplePixel pt0 (shape.map fun x => x * shapeScale) triangleIds s =
        some ((x : Int), (y : Int)) ∧
      inExtent dst ((x : Int), (y : Int)) = true := by
    intro s hs
    rw [List.mem_filterMap] at hs
    obtain ⟨e, he, hes⟩ := hs
    rw [mem_visitOrder] at he
    obtain ⟨pt, hpt, hb, hp, hpix⟩ := samplePixel_visitSample pt0 shape shapeScale _ e s hes
    obtain ⟨pt', hpt', hs'⟩ := visitSample_some _ _ e s hes
    refine ⟨e.1, e.2.1, e.2.2, pt, he.1, he.2.1, he.2.2, hpt, ?_, hb, hp, hpix,
      hext _ _ he.2.1 he.2.2⟩
    exact (sampleAt_some pt' _ _ _ s hs').1
  have hset : ∀ r c : Nat,
      (∃ s ∈ (visitOrder (triangleIds.length / 3) imageWidth.toNat
          imageHeight.toNat).filterMap
            (visitSample (scaleMul (fromInterleaved shape) shapeScale) triangleIds),
        samplePixel pt0 (shape.map fun x => x * shapeScale) triangleIds s =
          some ((c : Int), (r : Int)) ∧ inExtent dst ((c : Int), (r : Int)) = true) ↔
      (r < imageHeight.toNat ∧ c < imageWidth.toNat ∧ ∃ tri, tri < triangleIds.length / 3 ∧
        (visitSample (scaleMul (fromInterleaved shape) shapeScale) triangleIds
          (tri, r, c)).isSome = true) := by
    intro r c
    constructor
    · rintro ⟨s, hs, hpix, _⟩
      rw [List.mem_filterMap] at hs
      obtain ⟨e, he, hes⟩ := hs
      rw [mem_visitOrder] at he
      obtain ⟨pt, _, _, _, hpix'⟩ := samplePixel_visitSample pt0 shape shapeScale _ e s hes
      rw [hpix', Option.some.injEq, Prod.mk.injEq] at hpix
      have hc : e.2.2 = c := by exact_mod_cast hpix.1
      have hr : e.2.1 = r := by exact_mod_cast hpix.2
      refine ⟨hr ▸ he.2.1, hc ▸ he.2.2, e.1, he.1, ?_⟩
      rw [← hr, ← hc, hes]
      rfl
    · rintro ⟨hr, hc, tri, htri, hsome⟩
      obtain ⟨s, hs⟩ := Option.isSome_iff_exists.mp hsome
      refine ⟨s, ?_, ?_, hext r c hr hc⟩
      · rw [List.mem_filterMap]
        exact ⟨(tri, r, c), (mem_visitOrder _ _ _ _).mpr ⟨htri, hr, hc⟩, hs⟩
      · obtain ⟨_, _, _, _, hpix⟩ :=
          samplePixel_visitSample pt0 shape shapeScale _ (tri, r, c) s hs
        exact hpix
  refine ⟨hfrom, hset, ?_, ?_⟩
  · intro hrows hcols
    refine writeLoop_isSome _ _ _ _ 0 _ _ ?_ (by omega) hcols
    intro s hs
    obtain ⟨tri, _, _, pt, _, _, _, hpt, h1, _⟩ := hfrom s hs
    rw [h1, truncToIndex_natCast, ← rasterTriangle_eq_sampleTriangle, hpt]
    rfl
  · intro dst' hwrite r c
    obtain ⟨_, _, hpx⟩ := writeLoop_spec pt0 _ triangleIds colors _ 0 (-1, pt0) dst dst'
      (by simp [triangleInUse]) hwrite
    obtain ⟨hframe, hlast⟩ := hpx r c
    constructor
    · intro hno
      apply hframe
      intro s hs hcon
      exact hno ((hset r c).mp ⟨s, hs, hcon⟩)
    · intro hyes
      obtain ⟨s, hs, hpix, hin⟩ := (hset r c).mpr hyes
      obtain ⟨j, hj, hPj, hafter⟩ := exists_last_index
        (fun s => samplePixel pt0 (shape.map fun x => x * shapeScale) triangleIds s =
          some ((c : Int), (r : Int))) _ ⟨s, hs, hpix⟩
      refine ⟨j, hj, hPj, ?_⟩
      have := hlast j hj hPj hin hafter
      simpa using this

end RoundTrip

/-! ## The stopping rule of `generalizedProcrustes` -/

section StoppingRule

variable {K : Type} [LinearOrderedField K]

/-- One unfolding of the loop in terms of `alignmentPass`. -/
theorem generalizedProcrustesLoop_step (sqrt : K → K) (jacobiSvd : Matrix2 K → JacobiSvd K)
    (cols : Nat) (maxIterations : Int) (st : PassState K) (iterations : Int) :
    generalizedProcrustesLoop sqrt jacobiSvd cols maxIterations st.alignedShapes st.refShape
        st.lastDist iterations =
      match alignmentPass sqrt jacobiSvd cols st with
      | none => none
      | some st' =>
        if st'.lastDist > st.lastDist ∨ iterations + 1 > maxIterations then
          some (st'.alignedShapes, 1)
        else
          (generalizedProcrustesLoop sqrt jacobiSvd cols maxIterations st'.alignedShapes
            st'.refShape st'.lastDist (iterations + 1)).map fun r => (r.1, r.2 + 1) := by
  rw [generalizedProcrustesLoop, alignmentPass]
  cases alignRows sqrt jacobiSvd st.refShape st.alignedShapes with
  | none => rfl
  | some rows =>
    simp only
    by_cases h1 : vecNorm sqrt (vecSub (meanShapeOf cols rows) st.refShape) > st.lastDist
    · simp [h1]
    · by_cases h2 : iterations + 1 > maxIterations
      · simp [h1, h2]
      · simp only [h1, h2, if_false, dite_false, or_self]
        cases generalizedProcrustesLoop sqrt jacobiSvd cols maxIterations rows
          (meanShapeOf cols rows) (vecNorm sqrt (vecSub (meanShapeOf cols rows) st.refShape))
          (iterations + 1) <;> rfl

/-- The loop entered in the state `st` with `iterations = j` runs `m ≥ 1` passes, returns
the rows of the state after `m` passes, and among the passes `1, ..., m` the last one is
the only one at which the distance increased or the count `j + k` exceeded
`maxIterations`. -/
theorem generalizedProcrustesLoop_rule (sqrt : K → K) (jacobiSvd : Matrix2 K → JacobiSvd K)
    (cols : Nat) (maxIterations : Int) (n : Nat) :
    ∀ (st : PassState K) (j : Int) (r : List (List K) × Nat),
      (maxIterations - j).toNat = n →
      generalizedProcrustesLoop sqrt jacobiSvd cols maxIterations st.alignedShapes
        st.refShape st.lastDist j = some r →
      ∃ stm, afterPasses sqrt jacobiSvd cols r.2 st = some stm ∧
        r.1 = stm.alignedShapes ∧ 1 ≤ r.2 ∧
        ∀ k, 1 ≤ k → k ≤ r.2 → ∃ sp sk,
          afterPasses sqrt jacobiSvd cols (k - 1) st = some sp ∧
          afterPasses sqrt jacobiSvd cols k st = some sk ∧
          ((sk.lastDist > sp.lastDist ∨ j + (k : Int) > maxIterations) ↔ k = r.2) := by
  induction n using Nat.strong_induction_on with
  | _ n ih =>
    intro st j r hn h
    rw [generalizedProcrustesLoop_step] at h
    cases hp : alignmentPass sqrt jacobiSvd cols st with
    | none => rw [hp] at h; simp at h
    | some st1 =>
      rw [hp] at h
      simp only at h
      have h1 : afterPasses sqrt jacobiSvd cols 1 st = some st1 := by
        simp only [afterPasses, hp]
      by_cases hstop : st1.lastDist > st.lastDist ∨ j + 1 > maxIterations
      · rw [if_pos hstop] at h
        simp only [Option.some.injEq] at h
        subst h
        refine ⟨st1, h1, rfl, le_refl _, ?_⟩
        intro k hk1 hk2
        have hk : k = 1 := by simp only at hk2; omega
        subst hk
        refine ⟨st, st1, rfl, h1, ?_⟩
        simp only [Nat.cast_one]
        exact iff_of_true hstop (by simp)
      · rw [if_neg hstop] at h
        cases hrec : generalizedProcrustesLoop sqrt jacobiSvd cols maxIterations
            st1.alignedShapes st1.refShape st1.lastDist (j + 1) with
        | none => rw [hrec] at h; simp at h
        | some r' =>
          rw [hrec] at h
          simp only [Option.map_some', Option.some.injEq] at h
          subst h
          have hj : ¬ j + 1 > maxIterations := fun hc => hstop (Or.inr hc)
          obtain ⟨stm, hm, hr1, hr2, hall⟩ := ih (maxIterations - (j + 1)).toNat (by omega)
            st1 (j + 1) r' rfl hrec
          refine ⟨stm, ?_, hr1, by simp, ?_⟩
          · simp only [afterPasses, hp]
            exact hm
          · intro k hk1 hk2
            by_cases hk : k = 1
            · subst hk
              refine ⟨st, st1, rfl, h1, ?_⟩
              simp only [Nat.cast_one]
              constructor
              · intro hc; exact absurd hc hstop
              · intro hc; simp only at hc; omega
            · obtain ⟨k', rfl⟩ : ∃ k', k = k' + 1 := ⟨k - 1, by omega⟩
              obtain ⟨sp, sk, hsp, hsk, hiff⟩ := hall k' (by omega) (by simp only at hk2; omega)
              refine ⟨sp, sk, ?_, ?_, ?_⟩
              · obtain ⟨k'', rfl⟩ : ∃ k'', k' = k'' + 1 := ⟨k' - 1, by omega⟩
                simp only [Nat.add_sub_cancel] at hsp ⊢
                simp only [afterPasses, hp]
                exact hsp
              · simp only [afterPasses, hp]
                exact hsk
              · rw [show j + ((k' + 1 : Nat) : Int) = j + 1 + (k' : Int) by push_cast; ring]
                rw [hiff]
                simp only
                omega

theorem alignRows_get (sqrt : K → K) (jacobiSvd : Matrix2 K → JacobiSvd K)
    (refShape : List K) (X rows : List (List K))
    (h : alignRows sqrt jacobiSvd refShape X = some rows) :
    rows.length = X.length ∧
    ∀ i (hi : i < X.length) (hi' : i < rows.length),
      ∃ d, procrustes sqrt jacobiSvd refShape (X.get ⟨i, hi⟩) = some (d, rows.get ⟨i, hi'⟩) := by
  induction X generalizing rows with
  | nil =>
    simp only [alignRows, Option.some.injEq] at h
    subst h
    exact ⟨rfl, fun i hi => absurd hi (by simp)⟩
  | cons row rest ih =>
    simp only [alignRows] at h
    cases hp : procrustes sqrt jacobiSvd refShape row with
    | none => rw [hp] at h; simp at h
    | some r =>
      rw [hp] at h
      simp only at h
      cases hr : alignRows sqrt jacobiSvd refShape rest with
      | none => rw [hr] at h; simp at h
      | some rest' =>
        rw [hr] at h
        simp only [Option.some.injEq] at h
        subst h
        obtain ⟨hlen, hall⟩ := ih rest' hr
        refine ⟨by simp [hlen], ?_⟩
        intro i hi hi'
        cases i with
        | zero => exact ⟨r.1, by simpa using hp⟩
        | succ i =>
          obtain ⟨d, hd⟩ := hall i (by simpa using hi) (by simpa using hi')
          exact ⟨d, by simpa using hd⟩

/-- Aligning a shape with two different points to itself leaves it as it is. -/
theorem procrustes_self_result (sqrt : K → K) (jacobiSvd : Matrix2 K → JacobiSvd K)
    (P : List (K × K)) (hP : ∃ p ∈ P, ∃ q ∈ P, p ≠ q)
    (hsX : sqrt (squaredNorm (rowwiseSub P (colwiseMean P))) *
        sqrt (squaredNorm (rowwiseSub P (colwiseMean P))) =
        squaredNorm (rowwiseSub P (colwiseMean P)))
    (hsvd : (jacobiSvd (procrustesLocals sqrt jacobiSvd P P).A).IsSvdOf
      (procrustesLocals sqrt jacobiSvd P P).A) :
    procrustes sqrt jacobiSvd (toInterleaved P) (toInterleaved P) =
      some (0, toInterleaved P) := by
  have hq := squaredNorm_centered_ne_zero P hP
  have hs0 : sqrt (squaredNorm (rowwiseSub P (colwiseMean P))) ≠ 0 := by
    intro h0
    rw [h0] at hsX
    exact hq (by linarith [hsX])
  have hunit : squaredNorm (procrustesLocals sqrt jacobiSvd P P).centeredX = 1 := by
    show squaredNorm (scaleDiv (rowwiseSub P (colwiseMean P))
      (sqrt (squaredNorm (rowwiseSub P (colwiseMean P))))) = 1
    rw [squaredNorm_scaleDiv, hsX, div_self hq]
  obtain ⟨hrot, htrace, hd⟩ :=
    procrustesLocals_same_centered sqrt jacobiSvd P P rfl hunit hsvd
  have htrans : (procrustesLocals sqrt jacobiSvd P P).transformed = P := by
    rw [ProcrustesLocals.transformed, hrot, htrace]
    exact transformed_identity P _ _ hs0
  simp only [procrustes, toSeparatedView_toInterleaved, if_true, hd, htrans]
  rw [assignSeparatedView_toInterleaved _ _ (toInterleaved_length P)]

theorem afterPasses_succ (sqrt : K → K) (jacobiSvd : Matrix2 K → JacobiSvd K) (cols : Nat)
    (k : Nat) : ∀ st : PassState K,
      afterPasses sqrt jacobiSvd cols (k + 1) st =
        (afterPasses sqrt jacobiSvd cols k st).bind (alignmentPass sqrt jacobiSvd cols) := by
  induction k with
  | zero =>
    intro st
    simp only [afterPasses, Option.some_bind]
    cases alignmentPass sqrt jacobiSvd cols st <;> rfl
  | succ k ih =>
    intro st
    rw [afterPasses]
    cases hp : alignmentPass sqrt jacobiSvd cols st with
    | none => simp only [afterPasses, hp, Option.none_bind]
    | some st1 =>
      simp only
      rw [ih st1]
      conv_rhs => rw [afterPasses, hp]

theorem afterPasses_refShape (sqrt : K → K) (jacobiSvd : Matrix2 K → JacobiSvd K)
    (cols : Nat) (k : Nat) (st s : PassState K) (hk : 1 ≤ k)
    (h : afterPasses sqrt jacobiSvd cols k st = some s) :
    s.refShape = meanShapeOf cols s.alignedShapes := by
  obtain ⟨k', rfl⟩ : ∃ k', k = k' + 1 := ⟨k - 1, by omega⟩
  rw [afterPasses_succ] at h
  cases hs : afterPasses sqrt jacobiSvd cols k' st with
  | none => rw [hs] at h; simp at h
  | some sp =>
    rw [hs] at h
    simp only [Option.some_bind, alignmentPass] at h
    cases ha : alignRows sqrt jacobiSvd sp.refShape sp.alignedShapes with
    | none => rw [ha] at h; simp at h
    | some rows =>
      rw [ha] at h
      simp only [Option.some.injEq] at h
      subst h
      rfl

/-- C16. On a shape set with at least one row, with `d_0 = scalarMax` and `d_k` the
distance between the mean shape and the reference computed in pass `k`,
`generalizedProcrustes` performs `n` passes and returns the rows of pass `n`, where `n` is
the least `k ≥ 1` with `d_k > d_(k-1)` or `k > maxIterations`. So without a strict
increase of the distance there are exactly `max maxIterations 0 + 1` passes. Pass `k + 1`
starts from the state that pass `k` leaves, whose reference is the mean shape of the rows
of pass `k`. -/
theorem generalizedProcrustes_stopping_rule (sqrt : K → K)
    (jacobiSvd : Matrix2 K → JacobiSvd K) (scalarMax : K) (X : List (List K))
    (maxIterations : Int) (hX : X ≠ []) (hrows : ∀ row ∈ X, row.length = matrixCols X) :
    ∃ n st,
      generalizedProcrustesPasses sqrt jacobiSvd scalarMax X maxIterations =
        some (st.alignedShapes, n) ∧
      afterPasses sqrt jacobiSvd (matrixCols X) n (initialPassState scalarMax X) = some st ∧
      passDistance sqrt jacobiSvd scalarMax X 0 = some scalarMax ∧
      1 ≤ n ∧
      stopsAt sqrt jacobiSvd scalarMax X maxIterations n ∧
      (∀ k, 1 ≤ k → k < n → ¬ stopsAt sqrt jacobiSvd scalarMax X maxIterations k) ∧
      ((∀ k, 1 ≤ k → k ≤ n → ∀ dPrev dk,
          passDistance sqrt jacobiSvd scalarMax X (k - 1) = some dPrev →
          passDistance sqrt jacobiSvd scalarMax X k = some dk → ¬ dk > dPrev) →
        (n : Int) = max maxIterations 0 + 1) ∧
      (∀ k, afterPasses sqrt jacobiSvd (matrixCols X) (k + 1) (initialPassState scalarMax X) =
        (afterPasses sqrt jacobiSvd (matrixCols X) k (initialPassState scalarMax X)).bind
          (alignmentPass sqrt jacobiSvd (matrixCols X))) ∧
      (∀ k s, 1 ≤ k →
        afterPasses sqrt jacobiSvd (matrixCols X) k (initialPassState scalarMax X) = some s →
        s.refShape = meanShapeOf (matrixCols X) s.alignedShapes) := by
  match X, hX with
  | refShape :: rest, _ =>
    obtain ⟨r, hr, _⟩ := generalizedProcrustesLoop_passes sqrt jacobiSvd
      (matrixCols (refShape :: rest)) maxIterations _ (refShape :: rest) refShape scalarMax 0
      rfl rfl hrows
    obtain ⟨stm, hm, hr1, hr2, hall⟩ := generalizedProcrustesLoop_rule sqrt jacobiSvd
      (matrixCols (refShape :: rest)) maxIterations _
      (initialPassState scalarMax (refShape :: rest)) 0 r rfl hr
    have hstop : ∀ k, 1 ≤ k → k ≤ r.2 →
        (stopsAt sqrt jacobiSvd scalarMax (refShape :: rest) maxIterations k ↔ k = r.2) := by
      intro k hk1 hk2
      obtain ⟨sp, sk, hsp, hsk, hiff⟩ := hall k hk1 hk2
      simp only [zero_add] at hiff
      rw [← hiff]
      simp only [stopsAt, passDistance, hsp, hsk, Option.map_some', Option.some.injEq]
      constructor
      · rintro ⟨dPrev, dk, rfl, rfl, h⟩; exact h
      · intro h; exact ⟨_, _, rfl, rfl, h⟩
    refine ⟨r.2, stm, ?_, hm, rfl, hr2, (hstop r.2 hr2 (le_refl _)).mpr rfl, ?_, ?_,
      fun k => afterPasses_succ sqrt jacobiSvd _ k _,
      fun k s hk hs => afterPasses_refShape sqrt jacobiSvd _ k _ s hk hs⟩
    · simp only [generalizedProcrustesPasses]
      rw [← hr1]
      exact hr
    · intro k hk1 hk2 hc
      have := (hstop k hk1 (le_of_lt hk2)).mp hc
      omega
    · intro hno
      obtain ⟨sp, sk, hsp, hsk, hiff⟩ := hall r.2 hr2 (le_refl _)
      have hn : (0 : Int) + (r.2 : Int) > maxIterations := by
        rcases hiff.mpr rfl with h | h
        · exact absurd h (hno r.2 hr2 (le_refl _) sp.lastDist sk.lastDist
            (by simp only [passDistance, hsp, Option.map_some'])
            (by simp only [passDistance, hsk, Option.map_some']))
        · exact h
      by_cases h1 : r.2 = 1
      · rw [h1] at hn ⊢
        simp only [Nat.cast_one] at hn ⊢
        omega
      · obtain ⟨sp', sk', _, _, hiff'⟩ := hall (r.2 - 1) (by omega) (by omega)
        have hnot : ¬ ((0 : Int) + ((r.2 - 1 : Nat) : Int) > maxIterations) := by
          intro hc
          have := hiff'.mp (Or.inr hc)
          omega
        have hcast : ((r.2 - 1 : Nat) : Int) = (r.2 : Int) - 1 := by omega
        rw [hcast] at hnot
        omega

/-- C17. With `maxIterations = 0`, `generalizedProcrustes` performs exactly one pass whose
reference is row `0` of the input: the returned rows are the rows that `procrustes`
writes for the reference `X.row(0)` and the targets `X.row(i)`, one call for each row and
all with the same reference. When row `0` is a shape with two different points (and the
library's square root and decomposition are exact for it), the returned row `0` is the
input row `0`. -/
theorem generalizedProcrustes_single_pass (sqrt : K → K)
    (jacobiSvd : Matrix2 K → JacobiSvd K) (scalarMax : K) (refShape : List K)
    (rest : List (List K))
    (hrows : ∀ row ∈ refShape :: rest, row.length = refShape.length) :
    ∃ rows, generalizedProcrustesPasses sqrt jacobiSvd scalarMax (refShape :: rest) 0 =
        some (rows, 1) ∧
      generalizedProcrustes sqrt jacobiSvd scalarMax (refShape :: rest) 0 = some rows ∧
      rows.length = (refShape :: rest).length ∧
      (∀ i (hi : i < (refShape :: rest).length) (hi' : i < rows.length),
        ∃ d, procrustes sqrt jacobiSvd refShape ((refShape :: rest).get ⟨i, hi⟩) =
          some (d, rows.get ⟨i, hi'⟩)) ∧
      (∀ P : List (K × K), refShape = toInterleaved P → (∃ p ∈ P, ∃ q ∈ P, p ≠ q) →
        sqrt (squaredNorm (rowwiseSub P (colwiseMean P))) *
          sqrt (squaredNorm (rowwiseSub P (colwiseMean P))) =
          squaredNorm (rowwiseSub P (colwiseMean P)) →
        (jacobiSvd (procrustesLocals sqrt jacobiSvd P P).A).IsSvdOf
          (procrustesLocals sqrt jacobiSvd P P).A →
        rows.head? = some refShape) := by
  obtain ⟨rows, hal, hlen, _⟩ := alignRows_isSome sqrt jacobiSvd refShape (refShape :: rest)
    hrows
  have hget := alignRows_get sqrt jacobiSvd refShape (refShape :: rest) rows hal
  have hpass : generalizedProcrustesPasses sqrt jacobiSvd scalarMax (refShape :: rest) 0 =
      some (rows, 1) := by
    simp only [generalizedProcrustesPasses]
    rw [generalizedProcrustesLoop, hal]
    simp only
    split_ifs with h1 h2
    · rfl
    · rfl
    · omega
  refine ⟨rows, hpass, ?_, hlen, ?_, ?_⟩
  · simp only [generalizedProcrustes, hpass, Option.map_some']
  · intro i hi hi'
    exact hget.2 i hi hi'
  · intro P hP hdist hsq hsvd
    obtain ⟨d, hd⟩ := hget.2 0 (by simp) (by rw [hlen]; simp)
    simp only [List.get_eq_getElem, List.getElem_cons_zero] at hd
    have hself := procrustes_self_result sqrt jacobiSvd P hdist hsq hsvd
    rw [hP, hself, Option.some.injEq, Prod.mk.injEq] at hd
    cases rows with
    | nil => simp at hlen
    | cons r0 rs =>
      simp only [List.getElem_cons_zero] at hd
      rw [List.head?_cons, ← hd.2, hP]

end StoppingRule

/-! ## The triangle cache -/

section Cache

variable {K : Type} [LinearOrderedField K] [FloorRing K] {C : Type}

/-- With a cache that holds the initial id `-1` or the triangle of its id, the step for a
sample with a non-negative id fetches or keeps exactly the triangle of that id. -/
theorem updateCache_eq (points : List K) (triangleIds : List Int)
    (cache : Int × ParametrizedTriangle K) (triId : Int)
    (hinv : cache.1 = -1 ∨ sampleTriangle points triangleIds cache.1 = some cache.2)
    (hid : 0 ≤ triId) :
    updateCache points triangleIds cache triId =
      (sampleTriangle points triangleIds triId).map fun pt => (triId, pt) := by
  simp only [updateCache]
  split_ifs with hne
  · cases sampleTriangle points triangleIds triId <;> rfl
  · simp only [ne_eq, not_not] at hne
    rcases hinv with h | h
    · omega
    · rw [hne, h]
      rfl

theorem writeLoop_eq_uncached (points : List K) (triangleIds : List Int) (colors : Image C)
    (samples : List (K × K × K)) :
    ∀ (i : Nat) (cache : Int × ParametrizedTriangle K) (dst : Image C),
      (cache.1 = -1 ∨ sampleTriangle points triangleIds cache.1 = some cache.2) →
      (∀ rb ∈ samples, 0 ≤ truncToIndex rb.1) →
      writeLoop points triangleIds colors samples i cache dst =
        writeLoopUncached points triangleIds colors samples i dst := by
  induction samples with
  | nil => intro i cache dst _ _; rfl
  | cons rb rest ih =>
    intro i cache dst hinv hids
    have hrest : ∀ rb' ∈ rest, 0 ≤ truncToIndex rb'.1 :=
      fun rb' h => hids rb' (List.mem_cons_of_mem _ h)
    rw [writeLoop, writeLoopUncached,
      updateCache_eq points triangleIds cache _ hinv (hids rb (List.mem_cons_self _ _))]
    cases ht : sampleTriangle points triangleIds (truncToIndex rb.1) with
    | none => rfl
    | some pt =>
      simp only [Option.map_some']
      have hinv' : (truncToIndex rb.1, pt).1 = -1 ∨
          sampleTriangle points triangleIds (truncToIndex rb.1, pt).1 =
            some (truncToIndex rb.1, pt).2 := Or.inr ht
      split_ifs with hin
      · cases cvGet2D colors (i : Int) 0 with
        | none => rfl
        | some color =>
          simp only
          cases cvSet2D dst (pixelIndex (pt.pointAt (rb.2.1, rb.2.2))).2
              (pixelIndex (pt.pointAt (rb.2.1, rb.2.2))).1 color with
          | none => rfl
          | some dst1 => exact ih (i + 1) _ dst1 hinv' hrest
      · exact ih (i + 1) _ dst hinv' hrest

theorem readLoop_eq_uncached (bilinear : Image C → K → K → C) (points : List K)
    (triangleIds : List Int) (img : Image C) (samples : List (K × K × K)) :
    ∀ (i : Nat) (cache : Int × ParametrizedTriangle K) (dst : Image C),
      (cache.1 = -1 ∨ sampleTriangle points triangleIds cache.1 = some cache.2) →
      (∀ rb ∈ samples, 0 ≤ truncToIndex rb.1) →
      readLoop bilinear points triangleIds img samples i cache dst =
        readLoopUncached bilinear points triangleIds img samples i dst := by
  induction samples with
  | nil => intro i cache dst _ _; rfl
  | cons rb rest ih =>
    intro i cache dst hinv hids
    have hrest : ∀ rb' ∈ rest, 0 ≤ truncToIndex rb'.1 :=
      fun rb' h => hids rb' (List.mem_cons_of_mem _ h)
    rw [readLoop, readLoopUncached,
      updateCache_eq points triangleIds cache _ hinv (hids rb (List.mem_cons_self _ _))]
    cases ht : sampleTriangle points triangleIds (truncToIndex rb.1) with
    | none => rfl
    | some pt =>
      simp only [Option.map_some']
      have hinv' : (truncToIndex rb.1, pt).1 = -1 ∨
          sampleTriangle points triangleIds (truncToIndex rb.1, pt).1 =
            some (truncToIndex rb.1, pt).2 := Or.inr ht
      cases cvSet2D dst (i : Int) 0 (bilinear img (pt.pointAt (rb.2.1, rb.2.2)).2
          (pt.pointAt (rb.2.1, rb.2.2)).1) with
      | none => rfl
      | some dst1 => exact ih (i + 1) _ dst1 hinv' hrest

/-- C18. For a sample list whose triangle ids are all non-negative, in whatever order,
the loops of `writeShapeImage` and `readShapeImage` with the cached triangle give the same
result as the loops that rebuild the triangle for every sample: the same destination
image, the same colour buffer, and a failure in the same cases. -/
theorem cached_eq_uncached (bilinear : Image C → K → K → C) (pt0 : ParametrizedTriangle K)
    (fresh : Nat → Nat → C) (normalizedShape : List K) (triangleIds : List Int)
    (samples : List (K × K × K)) (shapeScale : K) (colors dst img : Image C)
    (hids : ∀ rb ∈ samples, 0 ≤ truncToIndex rb.1) :
    writeShapeImage pt0 normalizedShape triangleIds samples shapeScale colors dst =
      writeShapeImageUncached normalizedShape triangleIds samples shapeScale colors dst ∧
    readShapeImage bilinear pt0 fresh normalizedShape triangleIds samples shapeScale img =
      readShapeImageUncached bilinear fresh normalizedShape triangleIds samples shapeScale
        img := by
  constructor
  · simp only [writeShapeImage, writeShapeImageUncached]
    exact writeLoop_eq_uncached _ _ _ _ 0 (-1, pt0) dst (Or.inl rfl) hids
  · simp only [readShapeImage, readShapeImageUncached]
    exact readLoop_eq_uncached _ _ _ _ _ 0 (-1, pt0) _ (Or.inl rfl) hids

end Cache

/-! ## `readShapeImage` -/

section ReadFacts

variable {K : Type} [LinearOrderedField K] [FloorRing K] {C : Type}

/-- What the loop of `readShapeImage` leaves in the destination. -/
theorem readLoop_spec (bilinear : Image C → K → K → C) (pt0 : ParametrizedTriangle K)
    (points : List K) (triangleIds : List Int) (img : Image C)
    (samples : List (K × K × K)) :
    ∀ (i : Nat) (cache : Int × ParametrizedTriangle K) (dst dst' : Image C),
      triangleInUse pt0 points triangleIds cache.1 = some cache.2 →
      readLoop bilinear points triangleIds img samples i cache dst = some dst' →
      dst'.rows = dst.rows ∧ dst'.cols = dst.cols ∧
      (∀ r c : Nat, (r < i ∨ c ≠ 0) → dst'.px r c = dst.px r c) ∧
      ∀ j (hj : j < samples.length), ∃ pt,
        triangleInUse pt0 points triangleIds (truncToIndex (samples.get ⟨j, hj⟩).1) =
          some pt ∧
        dst'.px (i + j) 0 =
          bilinear img
            (pt.pointAt ((samples.get ⟨j, hj⟩).2.1, (samples.get ⟨j, hj⟩).2.2)).2
            (pt.pointAt ((samples.get ⟨j, hj⟩).2.1, (samples.get ⟨j, hj⟩).2.2)).1 := by
  induction samples with
  | nil =>
    intro i cache dst dst' _ h
    simp only [readLoop, Option.some.injEq] at h
    subst h
    exact ⟨rfl, rfl, fun _ _ _ => rfl, fun j hj => absurd hj (by simp)⟩
  | cons rb rest ih =>
    intro i cache dst dst' hinv h
    rw [readLoop] at h
    cases hu : updateCache points triangleIds cache (truncToIndex rb.1) with
    | none => rw [hu] at h; simp at h
    | some cache1 =>
      rw [hu] at h
      simp only at h
      obtain ⟨hinv1, huse⟩ := updateCache_inv pt0 points triangleIds cache cache1 _ hinv hu
      cases hs : cvSet2D dst (i : Int) 0
          (bilinear img (cache1.2.pointAt (rb.2.1, rb.2.2)).2
            (cache1.2.pointAt (rb.2.1, rb.2.2)).1) with
      | none => rw [hs] at h; simp at h
      | some dst1 =>
        rw [hs] at h
        simp only at h
        obtain ⟨hr1, hc1, hpx1⟩ := cvSet2D_some dst dst1 _ _ _ hs
        obtain ⟨hr, hc, hframe, hall⟩ := ih (i + 1) cache1 dst1 dst' hinv1 h
        refine ⟨hr.trans hr1, hc.trans hc1, ?_, ?_⟩
        · intro r c hrc
          rw [hframe r c (by omega), hpx1 r c, if_neg]
          rintro ⟨e1, e2⟩
          have e1' : r = i := by exact_mod_cast e1
          have e2' : c = 0 := by exact_mod_cast e2
          omega
        · intro j hj
          cases j with
          | zero =>
            refine ⟨cache1.2, by simpa using huse, ?_⟩
            rw [Nat.add_zero, hframe i 0 (by omega), hpx1 i 0, if_pos ⟨rfl, rfl⟩]
            rfl
          | succ j =>
            obtain ⟨pt, hpt, hval⟩ := hall j (by simpa using hj)
            refine ⟨pt, by simpa using hpt, ?_⟩
            rw [show i + (j + 1) = i + 1 + j by omega, hval]
            rfl

theorem readLoop_isSome (bilinear : Image C → K → K → C) (points : List K)
    (triangleIds : List Int) (img : Image C) (samples : List (K × K × K)) :
    ∀ (i : Nat) (cache : Int × ParametrizedTriangle K) (dst : Image C),
      (∀ rb ∈ samples, (sampleTriangle points triangleIds (truncToIndex rb.1)).isSome) →
      i + samples.length ≤ dst.rows → 1 ≤ dst.cols →
      ∃ dst', readLoop bilinear points triangleIds img samples i cache dst = some dst' := by
  induction samples with
  | nil => intro i cache dst _ _ _; exact ⟨dst, rfl⟩
  | cons rb rest ih =>
    intro i cache dst hval hrows hcols
    simp only [List.length_cons] at hrows
    obtain ⟨cache1, hu⟩ : ∃ cache1,
        updateCache points triangleIds cache (truncToIndex rb.1) = some cache1 := by
      simp only [updateCache]
      split_ifs with hne
      · obtain ⟨pt, hpt⟩ := Option.isSome_iff_exists.mp (hval rb (List.mem_cons_self _ _))
        exact ⟨_, by rw [hpt]⟩
      · exact ⟨_, rfl⟩
    rw [readLoop, hu]
    simp only
    obtain ⟨dst1, hs⟩ : ∃ dst1, cvSet2D dst (i : Int) 0
        (bilinear img (cache1.2.pointAt (rb.2.1, rb.2.2)).2
          (cache1.2.pointAt (rb.2.1, rb.2.2)).1) = some dst1 := by
      simp only [cvSet2D]
      rw [if_pos (by omega)]
      exact ⟨_, rfl⟩
    rw [hs]
    obtain ⟨hr1, hc1, _⟩ := cvSet2D_some dst dst1 _ _ _ hs
    exact ih (i + 1) cache1 dst1 (fun rb' h => hval rb' (List.mem_cons_of_mem _ h))
      (by omega) (by omega)

theorem readShapeImage_isSome (bilinear : Image C → K → K → C)
    (pt0 : ParametrizedTriangle K) (fresh : Nat → Nat → C) (normalizedShape : List K)
    (triangleIds : List Int) (samples : List (K × K × K)) (shapeScale : K) (img : Image C)
    (hval : ∀ rb ∈ samples, (sampleTriangle (normalizedShape.map fun x => x * shapeScale)
      triangleIds (truncToIndex rb.1)).isSome) :
    ∃ dst', readShapeImage bilinear pt0 fresh normalizedShape triangleIds samples shapeScale
      img = some dst' := by
  simp only [readShapeImage]
  exact readLoop_isSome _ _ _ _ _ 0 _ _ hval (by simp) (le_refl _)

/-- C11. `readShapeImage` returns a result whenever every sample names a triangle of the
triangulation. A returned buffer has one row per sample and one column, and for every
sample index `i` its entry `i` is `bilinear(img, p(1), p(0))` for `p = pointAt(u_i, v_i)`
on the triangle in use for sample `i`, which for a non-negative id is the scaled triangle
that the id names; the position `p` is not tested, so no sample is skipped. -/
theorem readShapeImage_entries (bilinear : Image C → K → K → C)
    (pt0 : ParametrizedTriangle K) (fresh : Nat → Nat → C) (normalizedShape : List K)
    (triangleIds : List Int) (samples : List (K × K × K)) (shapeScale : K) (img : Image C) :
    ((∀ rb ∈ samples, (sampleTriangle (normalizedShape.map fun x => x * shapeScale)
        triangleIds (truncToIndex rb.1)).isSome) →
      ∃ dst', readShapeImage bilinear pt0 fresh normalizedShape triangleIds samples
        shapeScale img = some dst') ∧
    ∀ dst', readShapeImage bilinear pt0 fresh normalizedShape triangleIds samples shapeScale
        img = some dst' →
      dst'.rows = samples.length ∧ dst'.cols = 1 ∧
      ∀ i (hi : i < samples.length),
        (∃ pt, triangleInUse pt0 (normalizedShape.map fun x => x * shapeScale) triangleIds
            (truncToIndex (samples.get ⟨i, hi⟩).1) = some pt ∧
          dst'.px i 0 = bilinear img
            (pt.pointAt ((samples.get ⟨i, hi⟩).2.1, (samples.get ⟨i, hi⟩).2.2)).2
            (pt.pointAt ((samples.get ⟨i, hi⟩).2.1, (samples.get ⟨i, hi⟩).2.2)).1) ∧
        (0 ≤ truncToIndex (samples.get ⟨i, hi⟩).1 →
          ∃ pt, sampleTriangle (normalizedShape.map fun x => x * shapeScale) triangleIds
            (truncToIndex (samples.get ⟨i, hi⟩).1) = some pt ∧
          dst'.px i 0 = bilinear img
            (pt.pointAt ((samples.get ⟨i, hi⟩).2.1, (samples.get ⟨i, hi⟩).2.2)).2
            (pt.pointAt ((samples.get ⟨i, hi⟩).2.1, (samples.get ⟨i, hi⟩).2.2)).1) := by
  refine ⟨readShapeImage_isSome bilinear pt0 fresh normalizedShape triangleIds samples
    shapeScale img, ?_⟩
  intro dst' h
  simp only [readShapeImage] at h
  obtain ⟨hr, hc, _, hall⟩ := readLoop_spec bilinear pt0 _ triangleIds img samples 0
    (-1, pt0) _ dst' (by simp [triangleInUse]) h
  refine ⟨hr, hc, ?_⟩
  intro i hi
  obtain ⟨pt, hpt, hval⟩ := hall i hi
  rw [Nat.zero_add] at hval
  refine ⟨⟨pt, hpt, hval⟩, ?_⟩
  intro hid
  refine ⟨pt, ?_, hval⟩
  have hne : truncToIndex (samples.get ⟨i, hi⟩).1 ≠ -1 := by omega
  simpa only [triangleInUse, hne, if_false] using hpt

end ReadFacts

/-! ## Indices out of range -/

section InvalidInput

variable {K : Type} [LinearOrderedField K] [FloorRing K]

theorem fromInterleaved_length_map (v : List K) (s : K) :
    (scaleMul (fromInterleaved v) s).length = (fromInterleaved v).length := by
  simp [scaleMul]

theorem coeffAt_out_of_range {α : Type} (v : List α) (idx : Int)
    (h : idx < 0 ∨ (v.length : Int) ≤ idx) : coeffAt v idx = none := by
  simp only [coeffAt]
  split_ifs with h0
  · rw [List.getElem?_eq_none_iff]
    omega
  · rfl

/-- A triple of the triangulation with a point index outside `[0, N)` gives no triangle. -/
theorem rasterTriangle_bad_index (points : List (K × K)) (triangleIds : List Int)
    (tri k : Nat) (idx : Int) (hk : k < 3)
    (hidx : triangleIds[3 * tri + k]? = some idx)
    (hbad : idx < 0 ∨ (points.length : Int) ≤ idx) :
    rasterTriangle points triangleIds tri = none := by
  have hc : coeffAt triangleIds ((tri : Int) * 3 + (k : Int)) = some idx := by
    simp only [coeffAt]
    rw [if_pos (by omega), show ((tri : Int) * 3 + (k : Int)).toNat = 3 * tri + k by omega]
    exact hidx
  have hnone := coeffAt_out_of_range points idx hbad
  simp only [rasterTriangle]
  obtain rfl | rfl | rfl : k = 0 ∨ k = 1 ∨ k = 2 := by omega
  · simp only [Nat.cast_zero] at hc
    rw [hc, Option.some_bind, hnone]
  · simp only [Nat.cast_one] at hc
    rw [hc, Option.some_bind, hnone]
    split <;> simp_all
  · simp only [Nat.cast_ofNat] at hc
    rw [hc, Option.some_bind, hnone]
    split <;> simp_all

theorem rasterizeShape_invalid (pointsInterleaved : List K) (triangleIds : List Int)
    (imageWidth imageHeight : Int) (shapeScale : K) (tri : Nat)
    (htri : tri < triangleIds.length / 3)
    (hnone : rasterTriangle (scaleMul (fromInterleaved pointsInterleaved) shapeScale)
      triangleIds tri = none) :
    rasterizeShape pointsInterleaved triangleIds imageWidth imageHeight shapeScale = none := by
  rw [rasterizeShape_eq, if_neg]
  intro hv
  simp only [trianglesValid, List.all_eq_true, List.mem_range] at hv
  have := hv tri htri
  rw [hnone] at this
  simp at this

theorem writeLoop_invalid {C : Type} (points : List K) (triangleIds : List Int)
    (colors : Image C) (samples : List (K × K × K)) :
    ∀ (i : Nat) (cache : Int × ParametrizedTriangle K) (dst : Image C),
      (cache.1 = -1 ∨ (sampleTriangle points triangleIds cache.1).isSome) →
      (∃ rb ∈ samples, truncToIndex rb.1 ≠ -1 ∧
        sampleTriangle points triangleIds (truncToIndex rb.1) = none) →
      writeLoop points triangleIds colors samples i cache dst = none := by
  induction samples with
  | nil => intro i cache dst _ h; obtain ⟨rb, hrb, _⟩ := h; simp at hrb
  | cons rb rest ih =>
    intro i cache dst hinv hbad
    rw [writeLoop]
    cases hu : updateCache points triangleIds cache (truncToIndex rb.1) with
    | none => rfl
    | some cache1 =>
      simp only
      simp only [updateCache] at hu
      have hinv1 : (cache1.1 = -1 ∨ (sampleTriangle points triangleIds cache1.1).isSome) ∧
          (truncToIndex rb.1 ≠ -1 →
            (sampleTriangle points triangleIds (truncToIndex rb.1)).isSome) := by
        split_ifs at hu with hne
        · cases ht : sampleTriangle points triangleIds (truncToIndex rb.1) with
          | none => rw [ht] at hu; simp at hu
          | some pt =>
            rw [ht] at hu
            simp only [Option.some.injEq] at hu
            subst hu
            exact ⟨Or.inr (by simp [ht]), fun _ => rfl⟩
        · simp only [Option.some.injEq] at hu
          subst hu
          simp only [ne_eq, not_not] at hne
          refine ⟨hinv, fun h1 => ?_⟩
          rcases hinv with h | h
          · exact absurd (hne.trans h) h1
          · rw [hne]; exact h
      have hrest : ∃ rb' ∈ rest, truncToIndex rb'.1 ≠ -1 ∧
          sampleTriangle points triangleIds (truncToIndex rb'.1) = none := by
        obtain ⟨rb', hmem, h1, h2⟩ := hbad
        rcases List.mem_cons.mp hmem with rfl | hmem'
        · have := hinv1.2 h1
          rw [h2] at this
          simp at this
        · exact ⟨rb', hmem', h1, h2⟩
      split_ifs with hin
      · cases cvGet2D colors (i : Int) 0 with
        | none => rfl
        | some color =>
          simp only
          cases cvSet2D dst (pixelIndex (cache1.2.pointAt (rb.2.1, rb.2.2))).2
              (pixelIndex (cache1.2.pointAt (rb.2.1, rb.2.2))).1 color with
          | none => rfl
          | some dst1 => exact ih (i + 1) cache1 dst1 hinv1.1 hrest
      · exact ih (i + 1) cache1 dst hinv1.1 hrest

theorem readLoop_invalid {C : Type} (bilinear : Image C → K → K → C) (points : List K)
    (triangleIds : List Int) (img : Image C) (samples : List (K × K × K)) :
    ∀ (i : Nat) (cache : Int × ParametrizedTriangle K) (dst : Image C),
      (cache.1 = -1 ∨ (sampleTriangle points triangleIds cache.1).isSome) →
      (∃ rb ∈ samples, truncToIndex rb.1 ≠ -1 ∧
        sampleTriangle points triangleIds (truncToIndex rb.1) = none) →
      readLoop bilinear points triangleIds img samples i cache dst = none := by
  induction samples with
  | nil => intro i cache dst _ h; obtain ⟨rb, hrb, _⟩ := h; simp at hrb
  | cons rb rest ih =>
    intro i cache dst hinv hbad
    rw [readLoop]
    cases hu : updateCache points triangleIds cache (truncToIndex rb.1) with
    | none => rfl
    | some cache1 =>
      simp only
      simp only [updateCache] at hu
      have hinv1 : (cache1.1 = -1 ∨ (sampleTriangle points triangleIds cache1.1).isSome) ∧
          (truncToIndex rb.1 ≠ -1 →
            (sampleTriangle points triangleIds (truncToIndex rb.1)).isSome) := by
        split_ifs at hu with hne
        · cases ht : sampleTriangle points triangleIds (truncToIndex rb.1) with
          | none => rw [ht] at hu; simp at hu
          | some pt =>
            rw [ht] at hu
            simp only [Option.some.injEq] at hu
            subst hu
            exact ⟨Or.inr (by simp [ht]), fun _ => rfl⟩
        · simp only [Option.some.injEq] at hu
          subst hu
          simp only [ne_eq, not_not] at hne
          refine ⟨hinv, fun h1 => ?_⟩
          rcases hinv with h | h
          · exact absurd (hne.trans h) h1
          · rw [hne]; exact h
      have hrest : ∃ rb' ∈ rest, truncToIndex rb'.1 ≠ -1 ∧
          sampleTriangle points triangleIds (truncToIndex rb'.1) = none := by
        obtain ⟨rb', hmem, h1, h2⟩ := hbad
        rcases List.mem_cons.mp hmem with rfl | hmem'
        · have := hinv1.2 h1
          rw [h2] at this
          simp at this
        · exact ⟨rb', hmem', h1, h2⟩
      cases cvSet2D dst (i : Int) 0 (bilinear img (cache1.2.pointAt (rb.2.1, rb.2.2)).2
          (cache1.2.pointAt (rb.2.1, rb.2.2)).1) with
      | none => rfl
      | some dst1 => exact ih (i + 1) cache1 dst1 hinv1.1 hrest

/-- C15, amended. Let triple `tri` of the triangulation contain a point index outside
`[0, N)`, `N` the number of points of the shape. Then `rasterizeShape` produces no result,
and `writeShapeImage` and `readShapeImage` produce no result when a sample has the id
`tri`. `procrustes` produces no result for shapes of different point counts. -/
theorem invalid_input_fails (shape : List K) (triangleIds : List Int) (shapeScale : K)
    (tri k : Nat) (idx : Int) (htri : tri < triangleIds.length / 3) (hk : k < 3)
    (hidx : triangleIds[3 * tri + k]? = some idx)
    (hbad : idx < 0 ∨ ((fromInterleaved shape).length : Int) ≤ idx) :
    (∀ imageWidth imageHeight : Int,
      rasterizeShape shape triangleIds imageWidth imageHeight shapeScale = none) ∧
    (∀ (C : Type) (pt0 : ParametrizedTriangle K) (samples : List (K × K × K))
        (colors dst : Image C),
      (∃ rb ∈ samples, truncToIndex rb.1 = (tri : Int)) →
      writeShapeImage pt0 shape triangleIds samples shapeScale colors dst = none) ∧
    (∀ (C : Type) (bilinear : Image C → K → K → C) (pt0 : ParametrizedTriangle K)
        (fresh : Nat → Nat → C) (samples : List (K × K × K)) (img : Image C),
      (∃ rb ∈ samples, truncToIndex rb.1 = (tri : Int)) →
      readShapeImage bilinear pt0 fresh shape triangleIds samples shapeScale img = none) ∧
    (∀ (sqrt : K → K) (jacobiSvd : Matrix2 K → JacobiSvd K) (X_ Y_ : List K),
      (toSeparatedView X_).length ≠ (toSeparatedView Y_).length →
      procrustes sqrt jacobiSvd X_ Y_ = none) := by
  have hr : rasterTriangle (scaleMul (fromInterleaved shape) shapeScale) triangleIds tri =
      none :=
    rasterTriangle_bad_index _ triangleIds tri k idx hk hidx
      (by rw [fromInterleaved_length_map]; exact hbad)
  have hs : sampleTriangle (shape.map fun x => x * shapeScale) triangleIds (tri : Int) =
      none := by
    rw [← rasterTriangle_eq_sampleTriangle]; exact hr
  have hsample : ∀ samples : List (K × K × K),
      (∃ rb ∈ samples, truncToIndex rb.1 = (tri : Int)) →
      ∃ rb ∈ samples, truncToIndex rb.1 ≠ -1 ∧
        sampleTriangle (shape.map fun x => x * shapeScale) triangleIds
          (truncToIndex rb.1) = none := by
    rintro samples ⟨rb, hrb, he⟩
    exact ⟨rb, hrb, by omega, by rw [he]; exact hs⟩
  refine ⟨?_, ?_, ?_, ?_⟩
  · intro w h
    exact rasterizeShape_invalid shape triangleIds w h shapeScale tri htri hr
  · intro C pt0 samples colors dst hex
    simp only [writeShapeImage]
    exact writeLoop_invalid _ _ _ _ 0 _ _ (Or.inl rfl) (hsample samples hex)
  · intro C bilinear pt0 fresh samples img hex
    simp only [readShapeImage]
    exact readLoop_invalid _ _ _ _ _ 0 _ _ (Or.inl rfl) (hsample samples hex)
  · intro sqrt jacobiSvd X_ Y_ hne
    simp only [procrustes, hne, if_false]

end InvalidInput

/-! ## Degenerate triangles -/

section Degenerate

variable {K : Type} [LinearOrderedField K] [FloorRing K]

end Degenerate

/-! ## What the calls change -/

section Frames

variable {K : Type} [LinearOrderedField K]

/-- C12, amended. `generalizedProcrustes` does not write to the shape set passed to it:
after the call the caller's matrix is what it was, and the aligned set is the returned
matrix, which has as many rows and columns as the input. -/
theorem generalizedProcrustesCall_frame (sqrt : K → K) (jacobiSvd : Matrix2 K → JacobiSvd K)
    (scalarMax : K) (X : List (List K)) (maxIterations : Int)
    (hX : X ≠ []) (hrows : ∀ row ∈ X, row.length = matrixCols X) :
    ∃ aligned, generalizedProcrustesCall sqrt jacobiSvd scalarMax X maxIterations =
        some (X, aligned) ∧
      generalizedProcrustes sqrt jacobiSvd scalarMax X maxIterations = some aligned ∧
      aligned.length = X.length ∧ ∀ row ∈ aligned, row.length = matrixCols X := by
  match X, hX with
  | refShape :: rest, _ =>
    obtain ⟨r, hr, _, _, hlen, hall⟩ := generalizedProcrustesLoop_passes sqrt jacobiSvd
      (matrixCols (refShape :: rest)) maxIterations _ (refShape :: rest) refShape scalarMax 0
      rfl rfl hrows
    have hg : generalizedProcrustes sqrt jacobiSvd scalarMax (refShape :: rest)
        maxIterations = some r.1 := by
      simp only [generalizedProcrustes, generalizedProcrustesPasses, hr, Option.map_some']
    refine ⟨r.1, ?_, hg, hlen, hall⟩
    simp only [generalizedProcrustesCall, hg, Option.map_some']

theorem toSeparatedView_append (M : List (K × K)) (rest : List K) :
    toSeparatedView (toInterleaved M ++ rest) = M ++ toSeparatedView rest := by
  induction M with
  | nil => rfl
  | cons p tail ih =>
    show toSeparatedView (p.1 :: p.2 :: (toInterleaved tail ++ rest)) = _
    rw [toSeparatedView, ih]
    rfl

theorem toSeparatedView_short (v : List K) (h : v.length ≤ 1) : toSeparatedView v = [] := by
  match v, h with
  | [], _ => rfl
  | [_], _ => rfl

/-- The view of the row after the assignment through the view is the assigned matrix. -/
theorem toSeparatedView_assign (Y_ : List K) (M : List (K × K))
    (h : M.length = (toSeparatedView Y_).length) :
    toSeparatedView (assignSeparatedView Y_ M) = M := by
  rw [assignSeparatedView, toSeparatedView_append, toSeparatedView_short, List.append_nil]
  rw [toSeparatedView_length] at h
  rw [List.length_drop]
  omega

theorem sum_map_fst_sub (Y : List (K × K)) (m : K) :
    (Y.map fun p => p.1 - m).sum = (Y.map Prod.fst).sum - (Y.length : K) * m := by
  induction Y with
  | nil => simp
  | cons p rest ih =>
    simp only [List.map_cons, List.sum_cons, ih, List.length_cons, Nat.cast_add, Nat.cast_one]
    ring

theorem sum_map_snd_sub (Y : List (K × K)) (m : K) :
    (Y.map fun p => p.2 - m).sum = (Y.map Prod.snd).sum - (Y.length : K) * m := by
  induction Y with
  | nil => simp
  | cons p rest ih =>
    simp only [List.map_cons, List.sum_cons, ih, List.length_cons, Nat.cast_add, Nat.cast_one]
    ring

/-- The coordinate sums of a centred matrix vanish. -/
theorem sum_centered (Y : List (K × K)) (hY : Y ≠ []) :
    ((rowwiseSub Y (colwiseMean Y)).map Prod.fst).sum = 0 ∧
    ((rowwiseSub Y (colwiseMean Y)).map Prod.snd).sum = 0 := by
  have hn : (Y.length : K) ≠ 0 := by simpa using hY
  simp only [rowwiseSub, List.map_map]
  have e1 : (Prod.fst ∘ fun p : K × K => (p.1 - (colwiseMean Y).1, p.2 - (colwiseMean Y).2)) =
      fun p => p.1 - (colwiseMean Y).1 := rfl
  have e2 : (Prod.snd ∘ fun p : K × K => (p.1 - (colwiseMean Y).1, p.2 - (colwiseMean Y).2)) =
      fun p => p.2 - (colwiseMean Y).2 := rfl
  rw [e1, e2, sum_map_fst_sub, sum_map_snd_sub]
  simp only [colwiseMean]
  constructor <;> field_simp

/-- The similarity of line 75 applied to a matrix whose coordinate sums vanish gives a
matrix with the centroid `m`. -/
theorem colwiseMean_similarity (Z : List (K × K)) (r : Matrix2 K) (t s : K) (m : K × K)
    (hZ : Z ≠ []) (h1 : (Z.map Prod.fst).sum = 0) (h2 : (Z.map Prod.snd).sum = 0) :
    colwiseMean (rowwiseAdd (scaleMul (scaleMul (mulMatrix2 Z r) t) s) m) = m := by
  have hn : (Z.length : K) ≠ 0 := by simpa using hZ
  have key : ∀ (a b c : K) (W : List (K × K)),
      (W.map fun p => (p.1 * a + p.2 * b) * t * s + c).sum =
        ((W.map Prod.fst).sum * a + (W.map Prod.snd).sum * b) * t * s +
          (W.length : K) * c := by
    intro a b c W
    induction W with
    | nil => simp
    | cons p rest ih =>
      simp only [List.map_cons, List.sum_cons, ih, List.length_cons, Nat.cast_add,
        Nat.cast_one]
      ring
  simp only [colwiseMean, rowwiseAdd, scaleMul, mulMatrix2, List.map_map, List.length_map]
  have e1 : (Prod.fst ∘ (fun p : K × K => (p.1 + m.1, p.2 + m.2)) ∘
      (fun p : K × K => (p.1 * s, p.2 * s)) ∘ (fun p : K × K => (p.1 * t, p.2 * t)) ∘
      fun p : K × K => (p.1 * r.m00 + p.2 * r.m10, p.1 * r.m01 + p.2 * r.m11)) =
      fun p => (p.1 * r.m00 + p.2 * r.m10) * t * s + m.1 := rfl
  have e2 : (Prod.snd ∘ (fun p : K × K => (p.1 + m.1, p.2 + m.2)) ∘
      (fun p : K × K => (p.1 * s, p.2 * s)) ∘ (fun p : K × K => (p.1 * t, p.2 * t)) ∘
      fun p : K × K => (p.1 * r.m00 + p.2 * r.m10, p.1 * r.m01 + p.2 * r.m11)) =
      fun p => (p.1 * r.m01 + p.2 * r.m11) * t * s + m.2 := rfl
  rw [e1, e2, key, key, h1, h2]
  refine Prod.ext ?_ ?_ <;> simp only <;> field_simp

theorem sum_map_scaleDiv (Z : List (K × K)) (s : K) :
    ((scaleDiv Z s).map Prod.fst).sum = (Z.map Prod.fst).sum / s ∧
    ((scaleDiv Z s).map Prod.snd).sum = (Z.map Prod.snd).sum / s := by
  simp only [scaleDiv, List.map_map]
  induction Z with
  | nil => simp
  | cons p rest ih =>
    simp only [List.map_cons, List.sum_cons, Function.comp_apply] at ih ⊢
    rw [ih.1, ih.2]
    constructor <;> ring

/-- C13. For shapes of equal point count (at least one point, non-zero centred norms),
`procrustes` returns the distance `1 - trace * trace`, leaves the reference row as it is,
and overwrites the target with `(Yc * rot) * trace * sX + meanX`, where `Yc` is the
centred target divided by its norm, `sX` the Frobenius norm of the centred reference and
`meanX` the centroid of the reference; the centroid of the overwritten target is the
centroid of the reference. -/
theorem procrustes_maps_to_reference (sqrt : K → K) (jacobiSvd : Matrix2 K → JacobiSvd K)
    (X_ Y_ : List K)
    (hlen : (toSeparatedView X_).length = (toSeparatedView Y_).length)
    (hY : toSeparatedView Y_ ≠ [])
    (_hsX : frobeniusNorm sqrt
      (rowwiseSub (toSeparatedView X_) (colwiseMean (toSeparatedView X_))) ≠ 0)
    (_hsY : frobeniusNorm sqrt
      (rowwiseSub (toSeparatedView Y_) (colwiseMean (toSeparatedView Y_))) ≠ 0) :
    ∃ d Y',
      procrustesCall sqrt jacobiSvd X_ Y_ = some (d, X_, Y') ∧
      d = 1 - (procrustesLocals sqrt jacobiSvd (toSeparatedView X_)
            (toSeparatedView Y_)).trace *
          (procrustesLocals sqrt jacobiSvd (toSeparatedView X_) (toSeparatedView Y_)).trace ∧
      Y'.length = Y_.length ∧
      toSeparatedView Y' =
        rowwiseAdd (scaleMul (scaleMul
          (mulMatrix2
            (scaleDiv (rowwiseSub (toSeparatedView Y_) (colwiseMean (toSeparatedView Y_)))
              (frobeniusNorm sqrt
                (rowwiseSub (toSeparatedView Y_) (colwiseMean (toSeparatedView Y_)))))
            (procrustesLocals sqrt jacobiSvd (toSeparatedView X_) (toSeparatedView Y_)).rot)
          (procrustesLocals sqrt jacobiSvd (toSeparatedView X_) (toSeparatedView Y_)).trace)
          (frobeniusNorm sqrt
            (rowwiseSub (toSeparatedView X_) (colwiseMean (toSeparatedView X_)))))
          (colwiseMean (toSeparatedView X_)) ∧
      colwiseMean (toSeparatedView Y') = colwiseMean (toSeparatedView X_) := by
  have hp : procrustes sqrt jacobiSvd X_ Y_ =
      some ((procrustesLocals sqrt jacobiSvd (toSeparatedView X_) (toSeparatedView Y_)).d,
        assignSeparatedView Y_ (procrustesLocals sqrt jacobiSvd (toSeparatedView X_)
          (toSeparatedView Y_)).transformed) := by
    simp only [procrustes, hlen, if_true]
  have hview : toSeparatedView (assignSeparatedView Y_
      (procrustesLocals sqrt jacobiSvd (toSeparatedView X_)
        (toSeparatedView Y_)).transformed) =
      (procrustesLocals sqrt jacobiSvd (toSeparatedView X_)
        (toSeparatedView Y_)).transformed :=
    toSeparatedView_assign _ _ (ProcrustesLocals.transformed_length _ _ _ _)
  refine ⟨(procrustesLocals sqrt jacobiSvd (toSeparatedView X_) (toSeparatedView Y_)).d,
    assignSeparatedView Y_ (procrustesLocals sqrt jacobiSvd (toSeparatedView X_)
      (toSeparatedView Y_)).transformed,
    by simp only [procrustesCall, hp, Option.map_some'], rfl,
    procrustes_length sqrt jacobiSvd X_ Y_ _ hp, ?_, ?_⟩
  · rw [hview]; rfl
  · rw [hview]
    have hc := sum_centered (toSeparatedView Y_) hY
    have hs := sum_map_scaleDiv
      (rowwiseSub (toSeparatedView Y_) (colwiseMean (toSeparatedView Y_)))
      (frobeniusNorm sqrt
        (rowwiseSub (toSeparatedView Y_) (colwiseMean (toSeparatedView Y_))))
    rw [hc.1, hc.2, zero_div] at hs
    refine colwiseMean_similarity _ _ _ _ _ ?_ hs.1 hs.2
    show scaleDiv (rowwiseSub (toSeparatedView Y_) (colwiseMean (toSeparatedView Y_))) _ ≠ []
    simpa [scaleDiv, rowwiseSub] using hY

end Frames

/-! ## The range of the Procrustes distance -/

section DistanceRange

variable {K : Type} [LinearOrderedField K]

end DistanceRange

section Witnesses

theorem diamond_A :
    (procrustesLocals sqrtTable diagonalSvd
      (toSeparatedView diamond) (toSeparatedView diamondMirrored)).A =
      { m00 := 1 / 2, m01 := 0, m10 := 0, m11 := -1 / 2 } := by
  norm_num [procrustesLocals, toSeparatedView, diamond, diamondMirrored, colwiseMean,
    rowwiseSub, frobeniusNorm, sqrtTable, scaleDiv, transposeMul, squaredNorm]

theorem diamond_self :
    procrustes sqrtTable diagonalSvd diamond diamond = some (0, diamond) := by
  have habs : |(1 / 2 : ℚ)| = 1 / 2 := abs_of_pos (by norm_num)
  norm_num [procrustes, procrustesLocals, toSeparatedView, diamond, colwiseMean, habs,
    rowwiseSub, frobeniusNorm, sqrtTable, scaleDiv, transposeMul, squaredNorm, diagonalSvd,
    Matrix2.mul, Matrix2.transpose, Matrix2.determinant, Matrix2.identity,
    ProcrustesLocals.transformed, assignSeparatedView, toInterleaved, rowwiseAdd, scaleMul,
    mulMatrix2]

/-- C2, counterexample. With `maxIterations = 1` the loop body runs twice on the shape set
whose only row is `diamond`. -/
theorem generalizedProcrustes_passes_exceed :
    generalizedProcrustesPasses sqrtTable diagonalSvd 1000 [diamond] 1 =
      some ([diamond], 2) ∧ ¬ ((2 : Nat) : Int) ≤ 1 := by
  refine ⟨?_, by decide⟩
  have hm : meanShapeOf 8 [diamond] = diamond := by
    norm_num [meanShapeOf, vecAdd, diamond, List.replicate]
  have hd : vecNorm sqrtTable (vecSub diamond diamond) = 0 := by
    norm_num [vecNorm, vecSub, diamond, sqrtTable]
  have hc : matrixCols [diamond] = 8 := rfl
  rw [generalizedProcrustesPasses, hc, generalizedProcrustesLoop]
  simp only [alignRows, diamond_self, hm, hd]
  rw [generalizedProcrustesLoop]
  simp only [alignRows, diamond_self, hm, hd]
  norm_num

theorem diagonalSvd_orthogonal (a : Matrix2 ℚ) :
    (diagonalSvd a).matrixU.IsOrthogonal ∧ (diagonalSvd a).matrixV.IsOrthogonal := by
  constructor
  · simp [Matrix2.IsOrthogonal, diagonalSvd, Matrix2.mul, Matrix2.transpose,
      Matrix2.identity]
  · simp only [Matrix2.IsOrthogonal, diagonalSvd, Matrix2.mul, Matrix2.transpose,
      Matrix2.identity]
    split_ifs <;> norm_num

theorem diamondPoints_A (a : ℚ) (t : ℚ × ℚ) (ha : a = 1 ∧ t = (0, 0) ∨ a = 2 ∧ t = (3, 5)) :
    (procrustesLocals sqrtTable diagonalSvd diamondPoints
      (diamondPoints.map fun p => (a * p.1 + t.1, a * p.2 + t.2))).A =
      { m00 := 1 / 2, m01 := 0, m10 := 0, m11 := 1 / 2 } := by
  rcases ha with ⟨rfl, rfl⟩ | ⟨rfl, rfl⟩ <;>
    norm_num [procrustesLocals, diamondPoints, colwiseMean,
      rowwiseSub, frobeniusNorm, sqrtTable, scaleDiv, transposeMul, squaredNorm]

theorem diagonalSvd_half :
    (diagonalSvd { m00 := 1 / 2, m01 := 0, m10 := 0, m11 := 1 / 2 }).IsSvdOf
      { m00 := 1 / 2, m01 := 0, m10 := 0, m11 := 1 / 2 } := by
  have habs : |(1 / 2 : ℚ)| = 1 / 2 := abs_of_pos (by norm_num)
  refine ⟨(diagonalSvd_orthogonal _).1, (diagonalSvd_orthogonal _).2, ?_, ?_, ?_⟩ <;>
    norm_num [diagonalSvd, Matrix2.mul, Matrix2.transpose, Matrix2.identity,
      Matrix2.diagonal, habs]

/-- C1, witness: the mirrored diamond, where the first `v * u.transpose()` is a
reflection. -/
theorem procrustes_rotation_proper_witness :
    ((diagonalSvd (procrustesLocals sqrtTable diagonalSvd (toSeparatedView diamond)
        (toSeparatedView diamondMirrored)).A).matrixV.mul
      (diagonalSvd (procrustesLocals sqrtTable diagonalSvd (toSeparatedView diamond)
        (toSeparatedView diamondMirrored)).A).matrixU.transpose).determinant = -1 ∧
    (procrustesLocals sqrtTable diagonalSvd (toSeparatedView diamond)
      (toSeparatedView diamondMirrored)).rot.determinant = 1 ∧
    0 < (procrustesLocals sqrtTable diagonalSvd (toSeparatedView diamond)
      (toSeparatedView diamondMirrored)).rot.determinant :=
  ⟨by rw [diamond_A]
      norm_num [diagonalSvd, Matrix2.mul, Matrix2.transpose, Matrix2.identity,
        Matrix2.determinant],
    procrustes_rotation_proper sqrtTable diagonalSvd (toSeparatedView diamond)
      (toSeparatedView diamondMirrored)
      (diagonalSvd_orthogonal _).1 (diagonalSvd_orthogonal _).2⟩

/-- C2, witness: the shape set whose only row is `diamond`, with `maxIterations = 1`. -/
theorem generalizedProcrustes_terminates_witness :
    ∃ r, generalizedProcrustesPasses sqrtTable diagonalSvd 1000 [diamond] 1 = some r ∧
      generalizedProcrustes sqrtTable diagonalSvd 1000 [diamond] 1 = some r.1 ∧
      1 ≤ r.2 ∧ (r.2 : Int) ≤ max 1 0 + 1 :=
  generalizedProcrustes_terminates sqrtTable diagonalSvd 1000 [diamond] 1
    (by simp) (by simp [matrixCols])

theorem diamondPoints_distinct : ∃ p ∈ diamondPoints, ∃ q ∈ diamondPoints, p ≠ q :=
  ⟨(1, 0), by simp [diamondPoints], (0, 1), by simp [diamondPoints], by simp⟩

/-- C7, witness: the diamond aligned to itself. -/
theorem procrustes_self_identity_witness :
    (procrustesLocals sqrtTable diagonalSvd diamondPoints diamondPoints).rot =
      Matrix2.identity ∧
    (procrustesLocals sqrtTable diagonalSvd diamondPoints diamondPoints).trace = 1 ∧
    (procrustesLocals sqrtTable diagonalSvd diamondPoints diamondPoints).d = 0 ∧
    procrustes sqrtTable diagonalSvd (toInterleaved diamondPoints)
      (toInterleaved diamondPoints) = some (0, toInterleaved diamondPoints) :=
  procrustes_self_identity sqrtTable diagonalSvd diamondPoints diamondPoints_distinct
    (by norm_num [diamondPoints, colwiseMean, rowwiseSub, sqrtTable, squaredNorm])
    (by
      have h := diamondPoints_A 1 (0, 0) (Or.inl ⟨rfl, rfl⟩)
      simp only [one_mul, add_zero, Prod.mk.eta, List.map_id'] at h
      rw [h]
      exact diagonalSvd_half)

/-- C6, witness: the diamond and its copy scaled by `2` and moved by `(3, 5)`. -/
theorem procrustes_scaled_translated_witness :
    procrustes sqrtTable diagonalSvd (toInterleaved diamondPoints)
      (toInterleaved (diamondPoints.map fun p => (2 * p.1 + 3, 2 * p.2 + 5))) =
      some (0, toInterleaved diamondPoints) :=
  procrustes_scaled_translated sqrtTable diagonalSvd diamondPoints 2 (3, 5) (by norm_num)
    diamondPoints_distinct
    (by norm_num [diamondPoints, colwiseMean, rowwiseSub, sqrtTable, squaredNorm])
    (by norm_num [diamondPoints, colwiseMean, rowwiseSub, sqrtTable, squaredNorm])
    (by
      rw [diamondPoints_A 2 (3, 5) (Or.inr ⟨rfl, rfl⟩)]
      exact diagonalSvd_half)

theorem range_four : List.range 4 = [0, 1, 2, 3] := by decide

theorem golden_rasterTriangle :
    rasterTriangle (scaleMul (fromInterleaved goldenShape) 1) goldenTriangulation 0 =
      some goldenTriangle := by
  have h1 : (1 : Int).toNat = 1 := rfl
  have h2 : (2 : Int).toNat = 2 := rfl
  simp only [rasterTriangle, goldenTriangulation, coeffAt, scaleMul, fromInterleaved,
    goldenShape, goldenTriangle]
  norm_num [h1, h2]

theorem golden_sampleAt (y x : Nat) :
    sampleAt goldenTriangle 0 y x =
      if x + y < 4 then some (0, ((x : ℚ) + 1 / 2) / 4, ((y : ℚ) + 1 / 2) / 4) else none := by
  have key : (0 ≤ ((x : ℚ) + 1 / 2) * 4 / 16 ∧ 0 ≤ 4 * ((y : ℚ) + 1 / 2) / 16 ∧
      ((x : ℚ) + 1 / 2) * 4 / 16 + 4 * ((y : ℚ) + 1 / 2) / 16 ≤ 1) ↔ x + y < 4 := by
    constructor
    · rintro ⟨_, _, h⟩
      have h' : ((x + y : Nat) : ℚ) < 4 := by push_cast; linarith
      exact_mod_cast h'
    · intro h
      have h' : ((x + y : Nat) : ℚ) ≤ 3 := by exact_mod_cast Nat.lt_succ_iff.mp h
      push_cast at h'
      refine ⟨by positivity, by positivity, by linarith⟩
  have hdiv : ∀ a : ℚ, BaryCoord.div a 16 = BaryCoord.finite (a / 16) := fun a => by
    simp [BaryCoord.div]
  simp only [sampleAt, ParametrizedTriangle.baryAt, ParametrizedTriangle.isBaryInside,
    goldenTriangle]
  norm_num
  simp only [hdiv, BaryCoord.le, BaryCoord.add, BaryCoord.value, decide_eq_true_eq, and_assoc]
  by_cases h : x + y < 4
  · rw [if_pos (key.mpr h), if_pos h]
    congr 3 <;> ring
  · rw [if_neg (fun hc => h (key.mp hc)), if_neg h]

theorem golden_rasterize :
    rasterizeShape goldenShape goldenTriangulation 4 4 1 = some goldenSamples := by
  rw [rasterizeShape_eq]
  have hn : goldenTriangulation.length / 3 = 1 := rfl
  have h4 : (4 : Int).toNat = 4 := rfl
  have h1 : List.range 1 = [0] := rfl
  have hv : trianglesValid (scaleMul (fromInterleaved goldenShape) 1) goldenTriangulation
      = true := by
    simp [trianglesValid, hn, h1, golden_rasterTriangle]
  rw [hv, if_pos rfl, hn, h4]
  simp only [visitOrder, range_four, h1, List.flatMap_cons, List.flatMap_nil, List.map_cons,
    List.map_nil, List.append_nil, List.cons_append, List.nil_append]
  simp only [List.filterMap_cons, List.filterMap_nil, visitSample, golden_rasterTriangle,
    golden_sampleAt, goldenSamples]
  norm_num

/-- C5. The triangle `(0,0), (4,0), (0,4)` rasterized at `4 x 4` with scale `1` gives the
ten samples of the pixels `(x, y)` with `x + y < 4`, row by row, each with triangle id `0`
and `(u, v) = ((x + 0.5) / 4, (y + 0.5) / 4)`. -/
theorem rasterizeShape_golden :
    rasterizeShape goldenShape goldenTriangulation 4 4 1 = some goldenSamples ∧
    goldenSamples = ((List.range 4).flatMap fun y => (List.range 4).filterMap fun x =>
      if x + y < 4 then some ((0 : ℚ), ((x : ℚ) + 1 / 2) / 4, ((y : ℚ) + 1 / 2) / 4)
      else none) ∧
    goldenSamples.length = 10 := by
  refine ⟨golden_rasterize, ?_, rfl⟩
  simp only [range_four, List.flatMap_cons, List.flatMap_nil, List.filterMap_cons,
    List.filterMap_nil, goldenSamples]
  norm_num

/-- C3, witness: the first row of the golden case. -/
theorem rasterizeShape_rows_inside_witness :
    (0 : ℚ) ≤ 1 / 8 ∧ (0 : ℚ) ≤ 1 / 8 ∧ (1 / 8 + 1 / 8 : ℚ) ≤ 1 ∧
    ∃ tri : Nat, (0 : ℚ) = (tri : ℚ) ∧ tri < goldenTriangulation.length / 3 ∧
      truncToIndex (0 : ℚ) = (tri : Int) :=
  rasterizeShape_rows_inside goldenShape goldenTriangulation 4 4 1 goldenSamples
    golden_rasterize (0, 1 / 8, 1 / 8) (by simp [goldenSamples])

theorem golden_sampleTriangle :
    sampleTriangle (goldenShape.map fun x => x * 1) goldenTriangulation 0 =
      some goldenTriangle := by
  have h := rasterTriangle_eq_sampleTriangle goldenShape 1 goldenTriangulation 0
  rw [golden_rasterTriangle] at h
  exact h.symm

theorem twice_samplePixel (s : ℚ × ℚ × ℚ) (hs : s ∈ twiceSamples) :
    samplePixel unsetTriangle (goldenShape.map fun x => x * 1) goldenTriangulation s =
      some (((0 : Nat) : Int), ((0 : Nat) : Int)) := by
  have hs' : s = (0, 1 / 8, 1 / 8) := by
    simp only [twiceSamples, List.mem_cons, List.mem_singleton, List.not_mem_nil, or_false,
      or_self] at hs
    exact hs
  subst hs'
  have ht : truncToIndex (0 : ℚ) = 0 := by simp [truncToIndex]
  have hf : truncToIndex ((0 : ℚ) + 1 / 8 * (4 - 0) + 1 / 8 * (0 - 0) - 1 / 2) = 0 := by
    norm_num [truncToIndex]
  have hg : truncToIndex ((0 : ℚ) + 1 / 8 * (0 - 0) + 1 / 8 * (4 - 0) - 1 / 2) = 0 := by
    norm_num [truncToIndex]
  have hne : ¬ (0 : Int) = -1 := by decide
  simp only [samplePixel, triangleInUse, ht, if_neg hne, golden_sampleTriangle,
    Option.map_some', pixelIndex, ParametrizedTriangle.pointAt, goldenTriangle, hf, hg]
  rfl

/-- C9, witness: two samples land on pixel `(0, 0)`; it ends up with the colour of the
second one. -/
theorem writeShapeImage_last_wins_witness :
    ∃ dst', writeShapeImage unsetTriangle goldenShape goldenTriangulation twiceSamples 1
        writeColors blankImage = some dst' ∧
      cvGet2D writeColors ((1 : Nat) : Int) 0 = some (dst'.px 0 0) := by
  obtain ⟨dst', h⟩ := writeShapeImage_isSome unsetTriangle goldenShape goldenTriangulation
    twiceSamples 1 writeColors blankImage
    (fun rb hrb => by
      have hrb' : rb = (0, 1 / 8, 1 / 8) := by
        simp only [twiceSamples, List.mem_cons, List.mem_singleton, List.not_mem_nil,
          or_false, or_self] at hrb
        exact hrb
      subst hrb'
      have ht : truncToIndex (0 : ℚ) = 0 := by simp [truncToIndex]
      rw [ht, golden_sampleTriangle]
      rfl)
    (by decide) (by decide)
  exact ⟨dst', h, writeShapeImage_last_wins unsetTriangle goldenShape goldenTriangulation
    twiceSamples 1 writeColors blankImage dst' h 0 0 1 (by decide)
    (twice_samplePixel _ (List.get_mem _ _ _)) (by decide)
    (fun k hk hjk => by simp only [twiceSamples, List.length_cons, List.length_nil] at hk; omega)⟩

/-- C10, witness: the golden case written into the blank `4 x 4` image. -/
theorem rasterize_write_roundtrip_witness :
    ∃ dst', writeShapeImage unsetTriangle goldenShape goldenTriangulation goldenSamples 1
      writeColors blankImage = some dst' :=
  (rasterize_write_roundtrip unsetTriangle goldenShape goldenTriangulation 4 4 1
    writeColors blankImage goldenSamples golden_rasterize (by decide) (by decide)).2.2.1
    (by decide) (by decide)

theorem diamond_scaled_aligned :
    procrustes sqrtTable diagonalSvd diamond diamondScaled = some (0, diamond) := by
  have habs : |(1 / 2 : ℚ)| = 1 / 2 := abs_of_pos (by norm_num)
  norm_num [procrustes, procrustesLocals, toSeparatedView, diamond, diamondScaled,
    colwiseMean, habs, rowwiseSub, frobeniusNorm, sqrtTable, scaleDiv, transposeMul,
    squaredNorm, diagonalSvd, Matrix2.mul, Matrix2.transpose, Matrix2.determinant,
    Matrix2.identity, ProcrustesLocals.transformed, assignSeparatedView, toInterleaved,
    rowwiseAdd, scaleMul, mulMatrix2]

theorem diamond_pair_aligned :
    generalizedProcrustes sqrtTable diagonalSvd 1000 [diamond, diamondScaled] 0 =
      some [diamond, diamond] := by
  have hd : procrustes sqrtTable diagonalSvd diamond diamond = some (0, diamond) := by
    have habs : |(1 / 2 : ℚ)| = 1 / 2 := abs_of_pos (by norm_num)
    norm_num [procrustes, procrustesLocals, toSeparatedView, diamond, colwiseMean, habs,
      rowwiseSub, frobeniusNorm, sqrtTable, scaleDiv, transposeMul, squaredNorm, diagonalSvd,
      Matrix2.mul, Matrix2.transpose, Matrix2.determinant, Matrix2.identity,
      ProcrustesLocals.transformed, assignSeparatedView, toInterleaved, rowwiseAdd, scaleMul,
      mulMatrix2]
  simp only [generalizedProcrustes, generalizedProcrustesPasses]
  rw [generalizedProcrustesLoop]
  simp only [alignRows, hd, diamond_scaled_aligned]
  norm_num

/-- C12, counterexample. The shape set with the rows `diamond` and `diamondScaled` is
unchanged by `generalizedProcrustes`, and the returned set differs from it. -/
theorem generalizedProcrustesCall_not_in_place :
    generalizedProcrustesCall sqrtTable diagonalSvd 1000 [diamond, diamondScaled] 0 =
      some ([diamond, diamondScaled], [diamond, diamond]) ∧
    [diamond, diamondScaled] ≠ [diamond, diamond] := by
  constructor
  · simp only [generalizedProcrustesCall, diamond_pair_aligned, Option.map_some']
  · simp [diamond, diamondScaled]

theorem diamond_pair_rows :
    ∀ row ∈ [diamond, diamondScaled], row.length = matrixCols [diamond, diamondScaled] := by
  intro row hrow
  simp only [List.mem_cons, List.mem_singleton, List.not_mem_nil, or_false] at hrow
  rcases hrow with rfl | rfl <;> rfl

/-- C12, witness: the shape set with the rows `diamond` and `diamondScaled`. -/
theorem generalizedProcrustesCall_frame_witness :
    ∃ aligned, generalizedProcrustesCall sqrtTable diagonalSvd 1000
        [diamond, diamondScaled] 0 = some ([diamond, diamondScaled], aligned) ∧
      generalizedProcrustes sqrtTable diagonalSvd 1000 [diamond, diamondScaled] 0 =
        some aligned ∧
      aligned.length = [diamond, diamondScaled].length ∧
      ∀ row ∈ aligned, row.length = matrixCols [diamond, diamondScaled] :=
  generalizedProcrustesCall_frame sqrtTable diagonalSvd 1000 [diamond, diamondScaled] 0
    (by simp) diamond_pair_rows

/-- C13, witness: the reference `diamond` and the target `diamondScaled`. -/
theorem procrustes_maps_to_reference_witness :
    ∃ d Y', procrustesCall sqrtTable diagonalSvd diamond diamondScaled =
        some (d, diamond, Y') ∧
      colwiseMean (toSeparatedView Y') = colwiseMean (toSeparatedView diamond) := by
  obtain ⟨d, Y', h1, _, _, _, h5⟩ := procrustes_maps_to_reference sqrtTable diagonalSvd
    diamond diamondScaled (by rfl)
    (by simp [toSeparatedView, diamondScaled])
    (by norm_num [toSeparatedView, diamond, colwiseMean, rowwiseSub, frobeniusNorm,
      sqrtTable, squaredNorm])
    (by norm_num [toSeparatedView, diamondScaled, colwiseMean, rowwiseSub, frobeniusNorm,
      sqrtTable, squaredNorm])
  exact ⟨d, Y', h1, h5⟩

/-- C16, witness: the shape set whose only row is `diamond`, with `maxIterations = 1`. -/
theorem generalizedProcrustes_stopping_rule_witness :
    ∃ (n : Nat) (st : PassState ℚ),
      generalizedProcrustesPasses sqrtTable diagonalSvd 1000 [diamond] 1 =
        some (st.alignedShapes, n) ∧
      1 ≤ n ∧ stopsAt sqrtTable diagonalSvd 1000 [diamond] 1 n := by
  obtain ⟨n, st, h1, _, _, h4, h5, _⟩ := generalizedProcrustes_stopping_rule sqrtTable
    diagonalSvd 1000 [diamond] 1 (by simp) (by simp [matrixCols])
  exact ⟨n, st, h1, h4, h5⟩

/-- C17, witness: the shape set with the rows `diamond` and `diamondScaled`. -/
theorem generalizedProcrustes_single_pass_witness :
    ∃ rows, generalizedProcrustesPasses sqrtTable diagonalSvd 1000
        [diamond, diamondScaled] 0 = some (rows, 1) ∧
      rows.length = [diamond, diamondScaled].length := by
  obtain ⟨rows, h1, _, h3, _⟩ := generalizedProcrustes_single_pass sqrtTable diagonalSvd
    1000 diamond [diamondScaled] diamond_pair_rows
  exact ⟨rows, h1, h3⟩

theorem mixedSamples_ids : ∀ rb ∈ mixedSamples, 0 ≤ truncToIndex rb.1 := by
  intro rb hrb
  simp only [mixedSamples, List.mem_cons, List.mem_singleton, List.not_mem_nil,
    or_false] at hrb
  rcases hrb with rfl | rfl | rfl <;> simp [truncToIndex]

/-- C18, witness: samples with the ids `1, 0, 1` on the kite. -/
theorem cached_eq_uncached_witness :
    writeShapeImage unsetTriangle kiteShape kiteTriangulation mixedSamples 1 writeColors
        blankImage =
      writeShapeImageUncached kiteShape kiteTriangulation mixedSamples 1 writeColors
        blankImage ∧
    readShapeImage nearestColor unsetTriangle (fun _ _ => 0) kiteShape kiteTriangulation
        mixedSamples 1 blankImage =
      readShapeImageUncached nearestColor (fun _ _ => 0) kiteShape kiteTriangulation
        mixedSamples 1 blankImage :=
  cached_eq_uncached nearestColor unsetTriangle (fun _ _ => 0) kiteShape kiteTriangulation
    mixedSamples 1 writeColors blankImage blankImage mixedSamples_ids

theorem broken_sampleTriangle :
    sampleTriangle (goldenShape.map fun x => x * 1) brokenTriangulation 0 =
      some goldenTriangle := by
  have h := rasterTriangle_eq_sampleTriangle goldenShape 1 brokenTriangulation 0
  have hr : rasterTriangle (scaleMul (fromInterleaved goldenShape) 1) brokenTriangulation 0 =
      some goldenTriangle := by
    have h1 : (1 : Int).toNat = 1 := rfl
    have h2 : (2 : Int).toNat = 2 := rfl
    simp only [rasterTriangle, brokenTriangulation, coeffAt, scaleMul, fromInterleaved,
      goldenShape, goldenTriangle]
    norm_num [h1, h2]
  rw [hr] at h
  exact h.symm

theorem twiceSamples_valid : ∀ rb ∈ twiceSamples,
    (sampleTriangle (goldenShape.map fun x => x * 1) brokenTriangulation
      (truncToIndex rb.1)).isSome := by
  intro rb hrb
  have hrb' : rb = (0, 1 / 8, 1 / 8) := by
    simp only [twiceSamples, List.mem_cons, List.mem_singleton, List.not_mem_nil,
      or_false, or_self] at hrb
    exact hrb
  subst hrb'
  have ht : truncToIndex (0 : ℚ) = 0 := by simp [truncToIndex]
  rw [ht, broken_sampleTriangle]
  rfl

/-- C15, counterexample. The last triple of `brokenTriangulation` has the point index
`99` for a shape of three points, and `writeShapeImage` and `readShapeImage` still
produce a result for samples of the first triangle. -/
theorem invalid_index_unnoticed :
    brokenTriangulation[5]? = some 99 ∧
    ¬ ((99 : Int) < ((fromInterleaved goldenShape).length : Int)) ∧
    (∃ dst', writeShapeImage unsetTriangle goldenShape brokenTriangulation twiceSamples 1
      writeColors blankImage = some dst') ∧
    (∃ dst', readShapeImage nearestColor unsetTriangle (fun _ _ => 0) goldenShape
      brokenTriangulation twiceSamples 1 blankImage = some dst') := by
  refine ⟨rfl, by simp [fromInterleaved, goldenShape], ?_, ?_⟩
  · exact writeShapeImage_isSome unsetTriangle goldenShape brokenTriangulation twiceSamples 1
      writeColors blankImage twiceSamples_valid (by decide) (by decide)
  · exact readShapeImage_isSome nearestColor unsetTriangle (fun _ _ => 0) goldenShape
      brokenTriangulation twiceSamples 1 blankImage twiceSamples_valid

/-- C15, witness: the triple `1` of `brokenTriangulation` with the point index `99`, and
the shapes `diamond` and `[0, 0]` of four points and one point. -/
theorem invalid_input_fails_witness :
    rasterizeShape goldenShape brokenTriangulation 4 4 1 = none ∧
    writeShapeImage unsetTriangle goldenShape brokenTriangulation [(1, 1 / 8, 1 / 8)] 1
      writeColors blankImage = none ∧
    readShapeImage nearestColor unsetTriangle (fun _ _ => 0) goldenShape
      brokenTriangulation [(1, 1 / 8, 1 / 8)] 1 blankImage = none ∧
    procrustes sqrtTable diagonalSvd diamond [0, 0] = none := by
  have hmem : ∃ rb ∈ [((1 : ℚ), (1 / 8 : ℚ), (1 / 8 : ℚ))],
      truncToIndex rb.1 = ((1 : Nat) : Int) :=
    ⟨_, List.mem_singleton.mpr rfl, by simp [truncToIndex]⟩
  obtain ⟨h1, h2, h3, h4⟩ := invalid_input_fails goldenShape brokenTriangulation (1 : ℚ)
    1 2 99 (by decide) (by decide) rfl (Or.inr (by simp [fromInterleaved, goldenShape]))
  exact ⟨h1 4 4, h2 Nat unsetTriangle _ writeColors blankImage hmem,
    h3 Nat nearestColor unsetTriangle (fun _ _ => 0) _ blankImage hmem,
    h4 sqrtTable diagonalSvd diamond [0, 0] (by simp [toSeparatedView, diamond])⟩

end Witnesses

end aam
